import Mathlib

/-!
# LR34: synchronisation primitives and dining philosophers

A shallow embedding of the hand-written primitives of `test.cpp`
(`Semaphore`, `Barrier`, `Monitor`, the spin lock), of the
dining-philosophers strategies and the watchdog of `ex3/philosophers.cpp`,
of the spin-wait and the monitor test of `ex1/RaceTest.h` and of the recruit filter of
`ex2/ex20.cpp`.

Every region of code that runs with the object's mutex held is one atomic
step of the embedding.  A `cv.wait(lock, pred)` is the loop
`while (!pred()) cv.wait(lock)`: the step that leaves it is enabled exactly
in the states where `pred` holds, and is not enabled (`none`) otherwise.
Notifications are not modelled: a waiting thread may re-evaluate its
predicate at any time (spurious wake-ups are allowed), so what is proved
holds for every pattern of notifications.  A schedule is the list of steps
the threads take, in the order in which they take them.  Arithmetic on `int`
is reduced to 32 bits (`wrapInt`).
-/

namespace LR34

/-! ## Machine integers and schedules -/

/-- Largest value of the C++ `int` (32 bits). -/
def INT_MAX : Int := 2147483647

/-- Smallest value of the C++ `int` (32 bits). -/
def INT_MIN : Int := -2147483648

/-- Result of an `int` operation whose mathematical value is `x`: the value
reduced to the 32-bit two's complement range (what the hardware computes;
for `std::atomic<int>` this is also what the language defines). -/
def wrapInt (x : Int) : Int := (x + 2147483648) % 4294967296 - 2147483648

/-- Run a system along a schedule: `none` as soon as a scheduled step is not
enabled in the state it is scheduled in. -/
def runSched {σ α : Type} (step : σ → α → Option σ) : σ → List α → Option σ
  | s, [] => some s
  | s, a :: rest =>
    match step s a with
    | none => none
    | some s' => runSched step s' rest

/-! ## Semaphore (`test.cpp`, lines 27-46) -/

/-- State of `class Semaphore`: the permit counter `count`. -/
structure Semaphore where
  count : Int
deriving DecidableEq, Repr

/-- Constructor `Semaphore(int count)`. -/
def Semaphore.new (count : Int) : Semaphore := { count := count }

/-- Completion of `Semaphore::acquire`: leaves `cv.wait` only when
`count > 0`, then `--count`. -/
def Semaphore.acquire (s : Semaphore) : Option Semaphore :=
  if s.count > 0 then some { count := wrapInt (s.count - 1) } else none

/-- Body of `Semaphore::release`: `++count` (then `notify_one`). -/
def Semaphore.release (s : Semaphore) : Semaphore :=
  { count := wrapInt (s.count + 1) }

/-- The two calls a client can complete on a semaphore. -/
inductive SemOp where
  | acquire
  | release
deriving DecidableEq, Repr

/-- One completed call on the semaphore. -/
def Semaphore.step (s : Semaphore) : SemOp → Option Semaphore
  | SemOp.acquire => s.acquire
  | SemOp.release => some s.release

/-- Number of completed `acquire` calls of a schedule. -/
def acquires (sched : List SemOp) : Nat := sched.count SemOp.acquire

/-- Number of completed `release` calls of a schedule. -/
def releases (sched : List SemOp) : Nat := sched.count SemOp.release

/-! ## Barrier (`test.cpp`, lines 58-80) -/

/-- State of `class Barrier`: remaining arrivals `count`, the `generation`
counter and the party count `total`. -/
structure Barrier where
  count : Int
  generation : Int
  total : Int
deriving DecidableEq, Repr

/-- Constructor `Barrier(int total)`. -/
def Barrier.new (total : Int) : Barrier :=
  { count := total, generation := 0, total := total }

/-- Arrival step of `Barrier::arrive_and_wait`, the part that runs with the
mutex held before any waiting: `gen = generation`, `--count`, and when the
count reached zero `++generation; count = total; notify_all()`.  The second
component is `none` when the caller returns without waiting and `some gen`
when it enters `cv.wait` having observed generation `gen`. -/
def Barrier.arrive_and_wait (b : Barrier) : Barrier × Option Int :=
  let gen := b.generation
  let count := wrapInt (b.count - 1)
  if count = 0 then
    ({ count := b.total, generation := wrapInt (b.generation + 1), total := b.total }, none)
  else
    ({ count := count, generation := b.generation, total := b.total }, some gen)

/-- Predicate of the `cv.wait` in `arrive_and_wait`: `gen != generation`. -/
def Barrier.wait_pred (b : Barrier) (gen : Int) : Bool :=
  decide (gen ≠ b.generation)

/-- A thread that calls `arrive_and_wait` repeatedly: `calls` counts the calls
it has returned from, `waiting` is `some gen` while it is inside `cv.wait`
having observed generation `gen`. -/
structure BarrierThread where
  calls : Nat
  waiting : Option Int
deriving DecidableEq, Repr

/-- Number of arrival steps a thread has performed. -/
def BarrierThread.arrivals (t : BarrierThread) : Nat :=
  t.calls + (if t.waiting.isSome then 1 else 0)

/-- A barrier together with the threads that use it. -/
structure BarrierSys where
  barrier : Barrier
  threads : List BarrierThread
deriving DecidableEq, Repr

/-- Steps of the barrier system: thread `i` performs the arrival step of a
new call, or thread `i` leaves the `cv.wait` of its current call. -/
inductive BarrierOp where
  | arrive (i : Nat)
  | wake (i : Nat)
deriving DecidableEq, Repr

/-- Step relation of the barrier system. -/
def BarrierSys.step (s : BarrierSys) : BarrierOp → Option BarrierSys
  | BarrierOp.arrive i =>
    match s.threads[i]? with
    | none => none
    | some t =>
      match t.waiting with
      | some _ => none
      | none =>
        match s.barrier.arrive_and_wait with
        | (b, none) =>
          some { barrier := b, threads := s.threads.set i { calls := t.calls + 1, waiting := none } }
        | (b, some gen) =>
          some { barrier := b, threads := s.threads.set i { calls := t.calls, waiting := some gen } }
  | BarrierOp.wake i =>
    match s.threads[i]? with
    | none => none
    | some t =>
      match t.waiting with
      | none => none
      | some gen =>
        if s.barrier.wait_pred gen then
          some { barrier := s.barrier,
                 threads := s.threads.set i { calls := t.calls + 1, waiting := none } }
        else none

/-- A fresh `Barrier(total)` used by `total` threads, none of which has
called `arrive_and_wait` yet. -/
def BarrierSys.init (total : Int) : BarrierSys :=
  { barrier := Barrier.new total,
    threads := List.replicate total.toNat { calls := 0, waiting := none } }

/-- Per-thread part of the barrier invariant, `G` being the number of
completed generations: a thread outside `arrive_and_wait` has returned from
`G` calls; a waiting thread observed the generation of its current call and
that call is its `G+1`-th (still to be released) or its `G`-th (released, not
yet woken). -/
def BarrierThread.ok (G : Nat) (t : BarrierThread) : Prop :=
  (t.waiting = none ∧ t.calls = G) ∨
  (t.waiting = some (wrapInt t.calls) ∧ (t.calls = G ∨ t.calls + 1 = G))

/-- Thread has arrived in the generation that is still open (`G` completed). -/
def BarrierThread.arrivedNow (G : Nat) (t : BarrierThread) : Bool :=
  t.waiting.isSome && t.calls == G

/-- Invariant of the barrier system for a barrier of `total` parties. -/
def BarrierSys.Inv (total : Int) (s : BarrierSys) : Prop :=
  ∃ G : Nat, s.barrier.generation = wrapInt G ∧ s.barrier.total = total ∧
    (s.threads.length : Int) = total ∧
    (∀ (j : Nat) (t : BarrierThread), s.threads[j]? = some t → t.ok G) ∧
    s.barrier.count = total - (s.threads.countP (BarrierThread.arrivedNow G) : Nat)

/-- State of the barrier after `k` further arrival steps. -/
def Barrier.after : Nat → Barrier → Barrier
  | 0, b => b
  | k + 1, b => Barrier.after k b.arrive_and_wait.1

/-- The next arrival blocks: its caller enters `cv.wait` (otherwise it is
the arrival that flips the generation and releases the waiters). -/
def Barrier.blocks (b : Barrier) : Bool := b.arrive_and_wait.2.isSome

/-- Total number of arrival steps the threads of the system have performed. -/
def BarrierSys.arrivals (s : BarrierSys) : Nat :=
  (s.threads.map BarrierThread.arrivals).sum

/-! ## Workers of `run_test` (`test.cpp`, lines 14-15, 48-55, 83-90, 128-146)

`semaphore_worker`, `spinlock_worker` and `monitor_worker` have the same
body: `NUM_ITERATIONS` times, take the primitive, write a random printable
character into the worker's own slot `data[id]`, give the primitive back. -/

/-- Constant `NUM_THREADS` of `test.cpp`. -/
def NUM_THREADS : Nat := 5

/-- Constant `NUM_ITERATIONS` of `test.cpp`. -/
def NUM_ITERATIONS : Nat := 100000

/-- Where a worker is inside one iteration of its loop: before taking the
primitive, between taking it and the write to `data[id]`, or between the
write and giving the primitive back. -/
inductive WorkerPc where
  | idle
  | locked
  | wrote
deriving DecidableEq, Repr

/-- A worker thread: loop variable `i`, position in the loop body, and the
character it wrote last (`' '`, the initial content of its slot, before its
first write). -/
structure Worker where
  iter : Nat
  pc : WorkerPc
  last : Nat
deriving DecidableEq, Repr

/-- Worker is between taking the primitive and giving it back. -/
def Worker.inCS (w : Worker) : Bool :=
  match w.pc with
  | WorkerPc.idle => false
  | WorkerPc.locked => true
  | WorkerPc.wrote => true

/-- The shared primitive of type `L`, the vector `data` and the workers. -/
structure WorkerSys (L : Type) where
  lock : L
  data : List Nat
  workers : List Worker
deriving DecidableEq, Repr

/-- Steps of the workers: worker `i` takes the primitive, writes
`33 + r % 94` (with `r` the value `rand()` returned), or gives the
primitive back and advances its loop variable. -/
inductive WorkerOp where
  | acquire (i : Nat)
  | write (i : Nat) (r : Nat)
  | release (i : Nat)
deriving DecidableEq, Repr

/-- Step relation of workers whose loop body is
`acq; data[id] = 33 + rand() % 94; rel`, where `acq` completes only in the
states in which it returns `some`. -/
def WorkerSys.step {L : Type} (acq : L → Option L) (rel : L → L) (s : WorkerSys L) :
    WorkerOp → Option (WorkerSys L)
  | WorkerOp.acquire i =>
    match s.workers[i]? with
    | none => none
    | some w =>
      if w.pc = WorkerPc.idle ∧ w.iter < NUM_ITERATIONS then
        match acq s.lock with
        | none => none
        | some l =>
          some { lock := l, data := s.data,
                 workers := s.workers.set i { iter := w.iter, pc := WorkerPc.locked, last := w.last } }
      else none
  | WorkerOp.write i r =>
    match s.workers[i]? with
    | none => none
    | some w =>
      if w.pc = WorkerPc.locked then
        some { lock := s.lock, data := s.data.set i (33 + r % 94),
               workers := s.workers.set i { iter := w.iter, pc := WorkerPc.wrote, last := 33 + r % 94 } }
      else none
  | WorkerOp.release i =>
    match s.workers[i]? with
    | none => none
    | some w =>
      if w.pc = WorkerPc.wrote then
        some { lock := rel s.lock, data := s.data,
               workers := s.workers.set i { iter := w.iter + 1, pc := WorkerPc.idle, last := w.last } }
      else none

/-- State at the start of `run_test` with `n` threads: `data(n, ' ')` and
every worker before its first iteration. -/
def WorkerSys.init {L : Type} (lock : L) (n : Nat) : WorkerSys L :=
  { lock := lock, data := List.replicate n 32,
    workers := List.replicate n { iter := 0, pc := WorkerPc.idle, last := 32 } }

/-- The workers `semaphore_worker` around the global `Semaphore semaphore(1)`. -/
def semaphore_worker (s : WorkerSys Semaphore) : WorkerOp → Option (WorkerSys Semaphore) :=
  WorkerSys.step Semaphore.acquire Semaphore.release s

/-- Invariant of a worker system whose primitive is `free` when no worker is
inside and `held` when one is. -/
def WorkerSys.Inv {L : Type} (free held : L) (s : WorkerSys L) : Prop :=
  ((s.workers.countP Worker.inCS = 0 ∧ s.lock = free) ∨
   (s.workers.countP Worker.inCS = 1 ∧ s.lock = held)) ∧
  s.data.length = s.workers.length ∧
  ∀ (i : Nat) (w : Worker), s.workers[i]? = some w → s.data[i]? = some w.last

/-! ## Monitor (`test.cpp`, lines 105-135) -/

/-- State of `class Monitor`: the flag `available`. -/
structure Monitor where
  available : Bool
deriving DecidableEq, Repr

/-- Constructor `Monitor()`: `available(true)`. -/
def Monitor.new : Monitor := { available := true }

/-- Completion of `Monitor::enter`: leaves `cv.wait` only when `available`,
then `available = false`. -/
def Monitor.enter (m : Monitor) : Option Monitor :=
  if m.available then some { available := false } else none

/-- Body of `Monitor::exit`: `available = true` (then `notify_one`). -/
def Monitor.exit (_m : Monitor) : Monitor := { available := true }

/-- The workers `monitor_worker` around the global `Monitor monitor`. -/
def monitor_worker (s : WorkerSys Monitor) : WorkerOp → Option (WorkerSys Monitor) :=
  WorkerSys.step Monitor.enter Monitor.exit s

/-! ## Spin lock (`tests/spinlock&spinwait/spinlock.cpp`, `test.cpp` lines 83-90) -/

/-- Member `test_and_set` of `std::atomic_flag` on a flag modelled as a
boolean: the previous value, and the flag afterwards (set). -/
def test_and_set (flag : Bool) : Bool × Bool := (flag, true)

/-- State of `class Spinlock`: the atomic flag. -/
structure Spinlock where
  flag : Bool
deriving DecidableEq, Repr

/-- A spin lock whose flag is `ATOMIC_FLAG_INIT` (clear). -/
def Spinlock.new : Spinlock := { flag := false }

/-- One evaluation of the loop condition of `Spinlock::lock`,
`flag.test_and_set(acquire)`: the state afterwards, and whether the loop
goes on spinning. -/
def Spinlock.spin (s : Spinlock) : Spinlock × Bool :=
  match test_and_set s.flag with
  | (previous, flag) => ({ flag := flag }, previous)

/-- The loop of `Spinlock::lock` run without interference for at most `fuel`
evaluations of its condition: the state in which `lock` returns, `none` when
it is still spinning. -/
def Spinlock.lock : Nat → Spinlock → Option Spinlock
  | 0, _ => none
  | fuel + 1, s =>
    match s.spin with
    | (s1, true) => Spinlock.lock fuel s1
    | (s1, false) => some s1

/-- Body of `Spinlock::unlock`: `flag.clear(release)`. -/
def Spinlock.unlock (_s : Spinlock) : Spinlock := { flag := false }

/-- Return of `lock` as one step: the evaluation of the loop condition that
ends the loop, `none` for an evaluation after which the loop goes on. -/
def Spinlock.lock_step (s : Spinlock) : Option Spinlock :=
  match s.spin with
  | (_, true) => none
  | (s1, false) => some s1

/-- The workers `spinlock_worker`: `WorkerOp.acquire i` is one evaluation of
the condition of worker `i`'s loop `while (spinlock.test_and_set(acquire)) {}`,
after which the worker either goes on spinning or has left the loop;
the write and the `clear` are as for the other workers. -/
def spinlock_worker (s : WorkerSys Spinlock) : WorkerOp → Option (WorkerSys Spinlock)
  | WorkerOp.acquire i =>
    match s.workers[i]? with
    | none => none
    | some w =>
      if w.pc = WorkerPc.idle ∧ w.iter < NUM_ITERATIONS then
        match s.lock.spin with
        | (l, true) => some { lock := l, data := s.data, workers := s.workers }
        | (l, false) =>
          some { lock := l, data := s.data,
                 workers := s.workers.set i { iter := w.iter, pc := WorkerPc.locked, last := w.last } }
      else none
  | WorkerOp.write i r => WorkerSys.step Spinlock.lock_step Spinlock.unlock s (WorkerOp.write i r)
  | WorkerOp.release i => WorkerSys.step Spinlock.lock_step Spinlock.unlock s (WorkerOp.release i)

/-! ## Dining philosophers (`ex3/philosophers.cpp`)

A philosopher thread is at one statement of its `dineWith...` function at a
time; one step executes that statement.  A fork is a `std::timed_mutex`:
`none` when free, `some i` when locked by thread `i`; `lock()` completes only
on a free mutex.  The short critical sections on `printMutex` only print and
are left out. -/

/-- Constant `NUM_PHILOSOPHERS` of `runPhilosophersTest` and of `main`. -/
def NUM_PHILOSOPHERS : Nat := 5

/-- Statement a philosopher thread is about to execute: the test of
`while (!stopFlag)`, `think()`, `tableMutex.lock()`, the `cv.wait` with
`eatingCount++`, `std::lock(leftFork, rightFork)`, `leftFork.lock()`,
`rightFork.lock()`, `eat()`, the block with `eatingCount--`, the unlocks, or
none any more (the loop was left). -/
inductive Pc where
  | loopHead
  | think
  | lockTable
  | waitPlace
  | lockBoth
  | lockLeft
  | lockRight
  | eat
  | leave
  | unlockRight
  | unlockLeft
  | unlockTable
  | finished
deriving DecidableEq, Repr

/-- A `Philosopher` object and the position of the thread that runs it: `id`,
the indices of `leftFork` and `rightFork` in `forks`, `mealsEaten`. -/
structure Philosopher where
  id : Nat
  leftFork : Nat
  rightFork : Nat
  mealsEaten : Int
  pc : Pc
deriving DecidableEq, Repr

/-- The objects `runPhilosophersTest` shares between the threads: `forks`,
`tableMutex`, `stopFlag`, `eatingCount`, and the philosophers. -/
structure Table where
  forks : List (Option Nat)
  tableMutex : Option Nat
  stopFlag : Bool
  eatingCount : Int
  philosophers : List Philosopher
deriving DecidableEq, Repr

/-- The loop that creates the philosophers, for `n` philosophers:
`philosophers.emplace_back(i, forks[i], forks[(i + 1) % n], ...)`,
with `mealsEaten(0)`. -/
def makePhilosophers (n : Nat) : List Philosopher :=
  (List.range n).map fun i =>
    { id := i, leftFork := i, rightFork := (i + 1) % n, mealsEaten := 0, pc := Pc.loopHead }

/-- State in which the threads are started: `n` free forks, a free
`tableMutex`, `stopFlag(false)`, `eatingCount(0)`. -/
def Table.init (n : Nat) : Table :=
  { forks := List.replicate n none, tableMutex := none, stopFlag := false,
    eatingCount := 0, philosophers := makePhilosophers n }

/-- Call `forks[k].lock()` by thread `i`: completes only when the mutex is free. -/
def Table.lockFork (t : Table) (k i : Nat) : Option Table :=
  match t.forks[k]? with
  | some none => some { t with forks := t.forks.set k (some i) }
  | _ => none

/-- Call `forks[k].unlock()`. -/
def Table.unlockFork (t : Table) (k : Nat) : Table :=
  { t with forks := t.forks.set k none }

/-- Call `std::lock(forks[l], forks[r])` by thread `i`: completes only by
holding both mutexes, which it takes when both are free (it never keeps one
while it waits for the other); on one and the same mutex it never completes. -/
def Table.lockBoth (t : Table) (l r i : Nat) : Option Table :=
  match t.forks[l]?, t.forks[r]? with
  | some none, some none =>
    if l = r then none else some { t with forks := (t.forks.set l (some i)).set r (some i) }
  | _, _ => none

/-- Store the new state of the philosopher run by thread `i`. -/
def Table.setPhilosopher (t : Table) (i : Nat) (p : Philosopher) : Table :=
  { t with philosophers := t.philosophers.set i p }

/-- One statement of `Philosopher::dineWithDeadlockRisk` (strategy 1), run by
thread `i`: think; `leftFork.lock()`; `rightFork.lock()`; eat;
`rightFork.unlock()`; `leftFork.unlock()`. -/
def Philosopher.dineWithDeadlockRisk (p : Philosopher) (i : Nat) (t : Table) : Option Table :=
  match p.pc with
  | Pc.loopHead =>
    some (t.setPhilosopher i { p with pc := if t.stopFlag then Pc.finished else Pc.think })
  | Pc.think => some (t.setPhilosopher i { p with pc := Pc.lockLeft })
  | Pc.lockLeft =>
    (t.lockFork p.leftFork i).map fun t1 => t1.setPhilosopher i { p with pc := Pc.lockRight }
  | Pc.lockRight =>
    (t.lockFork p.rightFork i).map fun t1 => t1.setPhilosopher i { p with pc := Pc.eat }
  | Pc.eat =>
    some (t.setPhilosopher i
      { p with mealsEaten := wrapInt (p.mealsEaten + 1), pc := Pc.unlockRight })
  | Pc.unlockRight =>
    some ((t.unlockFork p.rightFork).setPhilosopher i { p with pc := Pc.unlockLeft })
  | Pc.unlockLeft =>
    some ((t.unlockFork p.leftFork).setPhilosopher i { p with pc := Pc.loopHead })
  | _ => none

/-- One statement of `Philosopher::dineWithOrdering` (strategy 5), run by
thread `i`: with `id % 2 == 0` left then right is locked and right then left
unlocked, otherwise right then left is locked and left then right unlocked. -/
def Philosopher.dineWithOrdering (p : Philosopher) (i : Nat) (t : Table) : Option Table :=
  match p.pc with
  | Pc.loopHead =>
    some (t.setPhilosopher i { p with pc := if t.stopFlag then Pc.finished else Pc.think })
  | Pc.think =>
    some (t.setPhilosopher i { p with pc := if p.id % 2 = 0 then Pc.lockLeft else Pc.lockRight })
  | Pc.lockLeft =>
    (t.lockFork p.leftFork i).map fun t1 =>
      t1.setPhilosopher i { p with pc := if p.id % 2 = 0 then Pc.lockRight else Pc.eat }
  | Pc.lockRight =>
    (t.lockFork p.rightFork i).map fun t1 =>
      t1.setPhilosopher i { p with pc := if p.id % 2 = 0 then Pc.eat else Pc.lockLeft }
  | Pc.eat =>
    some (t.setPhilosopher i
      { p with mealsEaten := wrapInt (p.mealsEaten + 1),
               pc := if p.id % 2 = 0 then Pc.unlockRight else Pc.unlockLeft })
  | Pc.unlockRight =>
    some ((t.unlockFork p.rightFork).setPhilosopher i
      { p with pc := if p.id % 2 = 0 then Pc.unlockLeft else Pc.loopHead })
  | Pc.unlockLeft =>
    some ((t.unlockFork p.leftFork).setPhilosopher i
      { p with pc := if p.id % 2 = 0 then Pc.loopHead else Pc.unlockRight })
  | _ => none

/-- One statement of `Philosopher::dineWithConditionVariable` (strategy 6),
run by thread `i`: think; wait until `eatingCount < maxEating` and
`eatingCount++`; `std::lock` of both forks; eat; `eatingCount--` and
`notify_all`; at the end of the loop body the two `lock_guard`s unlock the
right and then the left fork. -/
def Philosopher.dineWithConditionVariable (maxEating : Int) (p : Philosopher) (i : Nat)
    (t : Table) : Option Table :=
  match p.pc with
  | Pc.loopHead =>
    some (t.setPhilosopher i { p with pc := if t.stopFlag then Pc.finished else Pc.think })
  | Pc.think => some (t.setPhilosopher i { p with pc := Pc.waitPlace })
  | Pc.waitPlace =>
    if t.eatingCount < maxEating then
      some ({ t with eatingCount := wrapInt (t.eatingCount + 1) }.setPhilosopher i
        { p with pc := Pc.lockBoth })
    else none
  | Pc.lockBoth =>
    (t.lockBoth p.leftFork p.rightFork i).map fun t1 =>
      t1.setPhilosopher i { p with pc := Pc.eat }
  | Pc.eat =>
    some (t.setPhilosopher i { p with mealsEaten := wrapInt (p.mealsEaten + 1), pc := Pc.leave })
  | Pc.leave =>
    some ({ t with eatingCount := wrapInt (t.eatingCount - 1) }.setPhilosopher i
      { p with pc := Pc.unlockRight })
  | Pc.unlockRight =>
    some ((t.unlockFork p.rightFork).setPhilosopher i { p with pc := Pc.unlockLeft })
  | Pc.unlockLeft =>
    some ((t.unlockFork p.leftFork).setPhilosopher i { p with pc := Pc.loopHead })
  | _ => none

/-- Steps of the table: the main thread sets `stopFlag = true`, or thread `i`
executes its next statement. -/
inductive TableOp where
  | stop
  | run (i : Nat)
deriving DecidableEq, Repr

/-- Step relation of the philosophers running the strategy `dine`. -/
def Table.step (dine : Philosopher → Nat → Table → Option Table) (t : Table) :
    TableOp → Option Table
  | TableOp.stop => some { t with stopFlag := true }
  | TableOp.run i =>
    match t.philosophers[i]? with
    | none => none
    | some p => dine p i t

/-- Invariant that ties the forks of a ring of `n` philosophers to the
statements the threads are at: `holdsLeft p` (`holdsRight p`) tells whether a
thread at `p.pc` has locked its left (right) fork and not yet unlocked it.
Thread `i` runs philosopher `i` with forks `i` and `(i + 1) % n`; fork `i` is
locked by thread `i` exactly when that thread holds its left fork, fork
`(i + 1) % n` is locked by thread `i` exactly when it holds its right fork,
and a fork is only ever locked by one of the two philosophers next to it. -/
def ForksInv (n : Nat) (holdsLeft holdsRight : Philosopher → Bool)
    (forks : List (Option Nat)) (philosophers : List Philosopher) : Prop :=
  forks.length = n ∧ philosophers.length = n ∧
  (∀ (i : Nat) (p : Philosopher), philosophers[i]? = some p →
    p.leftFork = i ∧ p.rightFork = (i + 1) % n ∧ p.id = i ∧
    (forks[i]? = some (some i) ↔ holdsLeft p = true) ∧
    (forks[(i + 1) % n]? = some (some i) ↔ holdsRight p = true)) ∧
  (∀ (k h : Nat), forks[k]? = some (some h) → h < n ∧ (k = h ∨ k = (h + 1) % n))

/-- Strategy 5: statements at which the thread holds its left fork. -/
def Philosopher.orderingHoldsLeft (p : Philosopher) : Bool :=
  if p.id % 2 = 0 then
    decide (p.pc = Pc.lockRight ∨ p.pc = Pc.eat ∨ p.pc = Pc.unlockRight ∨ p.pc = Pc.unlockLeft)
  else
    decide (p.pc = Pc.eat ∨ p.pc = Pc.unlockLeft)

/-- Strategy 5: statements at which the thread holds its right fork. -/
def Philosopher.orderingHoldsRight (p : Philosopher) : Bool :=
  if p.id % 2 = 0 then
    decide (p.pc = Pc.eat ∨ p.pc = Pc.unlockRight)
  else
    decide (p.pc = Pc.lockLeft ∨ p.pc = Pc.eat ∨ p.pc = Pc.unlockLeft ∨ p.pc = Pc.unlockRight)

/-- Thread `i` is blocked on a fork: it is at a `lock()` of a fork that is
locked. -/
def Table.blockedOnFork (t : Table) (i : Nat) : Bool :=
  match t.philosophers[i]? with
  | none => false
  | some p =>
    match p.pc with
    | Pc.lockLeft => decide (t.forks[p.leftFork]? ≠ some none)
    | Pc.lockRight => decide (t.forks[p.rightFork]? ≠ some none)
    | _ => false

/-- Strategy 5: the fork philosopher `h` locks first (left when `h` is even,
right when it is odd). -/
def orderingFirst (h : Nat) : Nat := if h % 2 = 0 then h else (h + 1) % 5

/-- Strategy 5: the fork philosopher `h` locks second. -/
def orderingSecond (h : Nat) : Nat := if h % 2 = 0 then (h + 1) % 5 else h

/-- Strategy 6: the thread is between its `eatingCount++` and its
`eatingCount--`. -/
def Philosopher.counted (p : Philosopher) : Bool :=
  decide (p.pc = Pc.lockBoth ∨ p.pc = Pc.eat ∨ p.pc = Pc.leave)

/-- The thread is inside `eat()` (the philosopher is EATING). -/
def Philosopher.eating (p : Philosopher) : Bool := decide (p.pc = Pc.eat)

/-- One statement of `Philosopher::dineWithSemaphore` (strategy 4), run by
thread `i`: think; `tableMutex.lock()`; `leftFork.lock()`;
`rightFork.lock()`; eat; `rightFork.unlock()`; `leftFork.unlock()`;
`tableMutex.unlock()`. -/
def Philosopher.dineWithSemaphore (p : Philosopher) (i : Nat) (t : Table) : Option Table :=
  match p.pc with
  | Pc.loopHead =>
    some (t.setPhilosopher i { p with pc := if t.stopFlag then Pc.finished else Pc.think })
  | Pc.think => some (t.setPhilosopher i { p with pc := Pc.lockTable })
  | Pc.lockTable =>
    match t.tableMutex with
    | none =>
      some ({ t with tableMutex := some i }.setPhilosopher i { p with pc := Pc.lockLeft })
    | some _ => none
  | Pc.lockLeft =>
    (t.lockFork p.leftFork i).map fun t1 => t1.setPhilosopher i { p with pc := Pc.lockRight }
  | Pc.lockRight =>
    (t.lockFork p.rightFork i).map fun t1 => t1.setPhilosopher i { p with pc := Pc.eat }
  | Pc.eat =>
    some (t.setPhilosopher i
      { p with mealsEaten := wrapInt (p.mealsEaten + 1), pc := Pc.unlockRight })
  | Pc.unlockRight =>
    some ((t.unlockFork p.rightFork).setPhilosopher i { p with pc := Pc.unlockLeft })
  | Pc.unlockLeft =>
    some ((t.unlockFork p.leftFork).setPhilosopher i { p with pc := Pc.unlockTable })
  | Pc.unlockTable =>
    some ({ t with tableMutex := none }.setPhilosopher i { p with pc := Pc.loopHead })
  | _ => none

/-- Strategies 1 and 4 (left fork locked first, unlocked last): statements at
which the thread holds its left fork. -/
def Philosopher.leftFirstHoldsLeft (p : Philosopher) : Bool :=
  decide (p.pc = Pc.lockRight ∨ p.pc = Pc.eat ∨ p.pc = Pc.unlockRight ∨ p.pc = Pc.unlockLeft)

/-- Strategies 1 and 4: statements at which the thread holds its right fork. -/
def Philosopher.leftFirstHoldsRight (p : Philosopher) : Bool :=
  decide (p.pc = Pc.eat ∨ p.pc = Pc.unlockRight)

/-- Strategy 4: the thread is between `tableMutex.lock()` and
`tableMutex.unlock()`. -/
def Philosopher.atTable (p : Philosopher) : Bool :=
  decide (p.pc = Pc.lockLeft ∨ p.pc = Pc.lockRight ∨ p.pc = Pc.eat ∨ p.pc = Pc.unlockRight ∨
    p.pc = Pc.unlockLeft ∨ p.pc = Pc.unlockTable)

/-- Strategy 4: the statements of `dineWithSemaphore`. -/
def Philosopher.semaphorePc (p : Philosopher) : Bool :=
  decide (p.pc = Pc.loopHead ∨ p.pc = Pc.think ∨ p.pc = Pc.lockTable ∨ p.pc = Pc.finished) ||
    p.atTable

/-- Invariant of strategy 4 on a ring of `n` philosophers: the forks follow
the statements, the table mutex is locked by thread `i` exactly when that
thread is between its lock and its unlock of it, and every thread is at a
statement of `dineWithSemaphore`. -/
def SemaphoreInv (n : Nat) (t : Table) : Prop :=
  ForksInv n Philosopher.leftFirstHoldsLeft Philosopher.leftFirstHoldsRight
    t.forks t.philosophers ∧
  (∀ (i : Nat) (p : Philosopher), t.philosophers[i]? = some p →
    p.semaphorePc = true ∧ (p.atTable = true ↔ t.tableMutex = some i)) ∧
  (∀ h : Nat, t.tableMutex = some h → h < n)

/-! ## Strategy 3: one hunger cycle of `dineWithTimeout` (`philosophers.cpp`, lines 104-158)

One iteration of the outer loop as a function of what the thread observes:
`stop k`, `left k` and `right k` are the value of `stopFlag` read by the test
of the attempt loop, the result of `leftFork.try_lock_for` and the result of
`rightFork.try_lock_for` when `attempts == k`. -/

/-- What a thread running `dineWithTimeout` does during one hunger cycle. -/
inductive TimeoutEvent where
  | think
  | readStop (value : Bool)
  | tryLeft (acquired : Bool)
  | tryRight (acquired : Bool)
  | unlockLeft
  | unlockRight
  | sleep
  | eat
  | hungry
deriving DecidableEq, Repr

/-- Body of the attempt loop with `attempts` on entry (`gotForks` is false
there): the values of `gotForks` and `attempts` after it, and what was done.
The left fork is tried; when it was acquired the right fork is tried and on
its failure the left fork is unlocked; after a failure `attempts++` and,
when `attempts < 3`, the 100 ms sleep. -/
def attemptBody (left right : Bool) (attempts : Int) : Bool × Int × List TimeoutEvent :=
  let tried : Bool × List TimeoutEvent :=
    if left then
      if right then (true, [TimeoutEvent.tryLeft true, TimeoutEvent.tryRight true])
      else (false, [TimeoutEvent.tryLeft true, TimeoutEvent.tryRight false,
                    TimeoutEvent.unlockLeft])
    else (false, [TimeoutEvent.tryLeft false])
  if tried.1 then (true, attempts, tried.2)
  else
    let a := wrapInt (attempts + 1)
    if a < 3 then (false, a, tried.2 ++ [TimeoutEvent.sleep]) else (false, a, tried.2)

/-- The attempt loop `while (!gotForks && !stopFlag && attempts < 3)`, run for
at most `fuel` evaluations of its condition: the final `gotForks` and
`attempts` and what was done, `none` when the fuel does not suffice.
`stopFlag` is read only when `gotForks` is false, and before `attempts < 3`
is evaluated. -/
def attemptLoop (stop left right : Nat → Bool) :
    Nat → Bool → Int → Option (Bool × Int × List TimeoutEvent)
  | 0, _, _ => none
  | fuel + 1, gotForks, attempts =>
    if gotForks then some (true, attempts, [])
    else if stop attempts.toNat then
      some (false, attempts, [TimeoutEvent.readStop true])
    else if attempts < 3 then
      match attemptBody (left attempts.toNat) (right attempts.toNat) attempts with
      | (g, a, done) =>
        match attemptLoop stop left right fuel g a with
        | none => none
        | some (g1, a1, rest) => some (g1, a1, TimeoutEvent.readStop false :: done ++ rest)
    else some (false, attempts, [TimeoutEvent.readStop false])

/-- One iteration of the outer loop of `dineWithTimeout`: `think()`,
`gotForks = false; attempts = 0`, the attempt loop, then with `gotForks`
`eat()` and the two unlocks, otherwise the message that the philosopher goes
hungry.  The result is `gotForks` and `attempts` after the attempt loop and
everything that was done. -/
def dineWithTimeout_cycle (stop left right : Nat → Bool) (fuel : Nat) :
    Option (Bool × Int × List TimeoutEvent) :=
  match attemptLoop stop left right fuel false 0 with
  | none => none
  | some (g, a, done) =>
    some (g, a, TimeoutEvent.think :: done ++
      (if g then [TimeoutEvent.eat, TimeoutEvent.unlockRight, TimeoutEvent.unlockLeft]
       else [TimeoutEvent.hungry]))

/-- Forks the thread holds after an event, from what it held before it:
(left, right). -/
def TimeoutEvent.holds : Bool × Bool → TimeoutEvent → Bool × Bool
  | (l, r), TimeoutEvent.tryLeft acquired => (l || acquired, r)
  | (l, r), TimeoutEvent.tryRight acquired => (l, r || acquired)
  | (_, r), TimeoutEvent.unlockLeft => (false, r)
  | (l, _), TimeoutEvent.unlockRight => (l, false)
  | h, _ => h

/-- Forks the thread holds after a sequence of events. -/
def heldAfter (h : Bool × Bool) (events : List TimeoutEvent) : Bool × Bool :=
  events.foldl TimeoutEvent.holds h

/-- What the thread must hold when an event happens: nothing when it thinks,
reads `stopFlag`, tries the left fork, sleeps or goes hungry; the left fork
only when it tries the right fork; both forks when it eats; a fork it
unlocks. -/
def TimeoutEvent.allowed : Bool × Bool → TimeoutEvent → Bool
  | h, TimeoutEvent.think => h == (false, false)
  | h, TimeoutEvent.readStop _ => h == (false, false)
  | h, TimeoutEvent.tryLeft _ => h == (false, false)
  | h, TimeoutEvent.tryRight _ => h == (true, false)
  | h, TimeoutEvent.unlockLeft => h.1
  | h, TimeoutEvent.unlockRight => h.2
  | h, TimeoutEvent.sleep => h == (false, false)
  | h, TimeoutEvent.eat => h == (true, true)
  | h, TimeoutEvent.hungry => h == (false, false)

/-- Every event of the sequence is allowed with what the thread holds when
it happens, starting from `h`. -/
def allAllowed : Bool × Bool → List TimeoutEvent → Bool
  | _, [] => true
  | h, e :: rest => e.allowed h && allAllowed (e.holds h) rest

/-- Event is a timed attempt on the left fork. -/
def TimeoutEvent.isTryLeft : TimeoutEvent → Bool
  | TimeoutEvent.tryLeft _ => true
  | _ => false

/-- Event is a timed attempt on the right fork. -/
def TimeoutEvent.isTryRight : TimeoutEvent → Bool
  | TimeoutEvent.tryRight _ => true
  | _ => false

/-! ## The watchdog of `main` (`philosophers.cpp`, lines 412-446) -/

/-- A `std::thread` of `threads`: whether its function has returned (the
philosopher terminated) and whether `join()` has been called on it. -/
structure ThreadHandle where
  terminated : Bool
  joined : Bool
deriving DecidableEq, Repr

/-- Member `joinable()` of `std::thread`: the object still owns its thread of
execution, which it does from its start until it is joined (or detached); a
thread that has finished running and has not been joined is joinable. -/
def ThreadHandle.joinable (h : ThreadHandle) : Bool := !h.joined

/-- The inner loop of the watchdog: `allFinished` is set to `false` at the
first thread that is `joinable()`. -/
def main_allFinished : List ThreadHandle → Bool
  | [] => true
  | thread :: rest => if thread.joinable then false else main_allFinished rest

/-- The polling loop `for (int i = 0; i < 20; ++i)`, with `n` iterations left
at the `i`-th poll: `allFinished` after it.  `threadsAt i` is the state of the
threads at the `i`-th poll; between two polls the watchdog sleeps 100 ms. -/
def main_poll (threadsAt : Nat → List ThreadHandle) : Nat → Nat → Bool → Bool
  | 0, _, allFinished => allFinished
  | n + 1, i, _ =>
    if main_allFinished (threadsAt i) then true
    else main_poll threadsAt n (i + 1) false

/-- What `main` does after the grace period. -/
inductive WatchdogReport where
  | deadlock
  | noDeadlock
deriving DecidableEq, Repr

/-- The end of `main` after `stopFlag = true`: with `!allFinished` the
deadlock report and `std::exit(1)`, otherwise the report that no deadlock was
observed, the joins, and `return 0`.  The result is the report and the exit
status. -/
def main_watchdog (threadsAt : Nat → List ThreadHandle) : WatchdogReport × Int :=
  let allFinished := main_poll threadsAt 20 0 true
  if !allFinished then (WatchdogReport.deadlock, 1) else (WatchdogReport.noDeadlock, 0)

/-! ## Spin-wait of `ThreadRaceTest::testWithSpinWait` (`RaceTest.h`, lines 197-210) -/

/-- Number of `std::this_thread::yield()` calls of one acquisition in
`testWithSpinWait`, for the outer index `j` and the results of the successive
`compare_exchange_weak` calls: the loop ends at the first success, and after
each failure `expected = false` and `if (j % 100 == 0) yield()`. -/
def testWithSpinWait_yields (j : Int) : List Bool → Nat
  | [] => 0
  | true :: _ => 0
  | false :: rest => (if j % 100 = 0 then 1 else 0) + testWithSpinWait_yields j rest

/-! ## Monitor and semaphore side by side -/

/-- One completed call on the monitor: `acquire` stands for `enter`,
`release` for `exit`. -/
def Monitor.step (m : Monitor) : SemOp → Option Monitor
  | SemOp.acquire => m.enter
  | SemOp.release => some m.exit

/-- The correspondence `available == true <-> count == 1`,
`available == false <-> count == 0`. -/
def Monitor.corresponds (m : Monitor) (s : Semaphore) : Bool :=
  if m.available then decide (s.count = 1) else decide (s.count = 0)

/-- Every `exit` of the sequence is called while the gate is taken
(`available == false`), as a thread does that calls `exit` after its own
`enter`; what follows an `enter` that blocks never happens. -/
def Monitor.exitsWhileTaken : Monitor → List SemOp → Bool
  | _, [] => true
  | m, SemOp.acquire :: rest =>
    match m.enter with
    | none => true
    | some m1 => Monitor.exitsWhileTaken m1 rest
  | m, SemOp.release :: rest => !m.available && Monitor.exitsWhileTaken m.exit rest

/-! ## Recruit filter (`ex2/ex20.cpp`) -/

/-- A `Recruit`: name, date of birth and the doctors' records as pairs
(speciality, category). -/
structure Recruit where
  name : String
  birthDate : String
  doctorRecords : List (String × String)
deriving DecidableEq, Repr

/-- The loop of `Recruit::isFitForService` over the records: `true` at the
first record whose category is `"A"`, `false` when there is none. -/
def Recruit.hasCategoryA : List (String × String) → Bool
  | [] => false
  | record :: rest => if record.2 = "A" then true else Recruit.hasCategoryA rest

/-- Method `Recruit::isFitForService`. -/
def Recruit.isFitForService (r : Recruit) : Bool := Recruit.hasCategoryA r.doctorRecords

/-- Function `filterRecruitsSingleThread`: every fit recruit is pushed to the
back of `suitable`, in the order of the input. -/
def filterRecruitsSingleThread (recruits : List Recruit) : List Recruit :=
  recruits.foldl (fun suitable recruit =>
    if recruit.isFitForService then suitable ++ [recruit] else suitable) []

/-- The loop of `filterRecruitsRange`,
`for (int i = start; i < end && i < allRecruits.size(); ++i)`, from `i` with
`localSuitable` so far, for at most `fuel` evaluations of its condition.  In
`i < allRecruits.size()` the `int` is converted to `size_t`, so the comparison
fails for a negative `i`. -/
def filterRecruitsRange_loop (allRecruits : List Recruit) (stop : Int) :
    Nat → Int → List Recruit → List Recruit
  | 0, _, localSuitable => localSuitable
  | fuel + 1, i, localSuitable =>
    if i < stop ∧ 0 ≤ i ∧ i < allRecruits.length then
      match allRecruits[i.toNat]? with
      | none => localSuitable
      | some recruit =>
        filterRecruitsRange_loop allRecruits stop fuel (wrapInt (i + 1))
          (if recruit.isFitForService then localSuitable ++ [recruit] else localSuitable)
    else localSuitable

/-- Function `filterRecruitsRange(start, end)`: the `localSuitable` it appends
to `suitableRecruits` under `dataMutex`.  The loop variable grows by one and
stays below `allRecruits.size()`, so `allRecruits.size()` evaluations of the
condition that hold are the most there can be. -/
def filterRecruitsRange (allRecruits : List Recruit) (start stop : Int) : List Recruit :=
  filterRecruitsRange_loop allRecruits stop allRecruits.length start []

/-- Variable `chunkSize` of `filterRecruitsMultiThread`:
`recruits.size() / numThreads`, stored in an `int`. -/
def chunkSize (recruits : List Recruit) (numThreads : Int) : Int :=
  wrapInt ((recruits.length : Int) / numThreads)

/-- Arguments `start` and `end` of the `i`-th call of `filterRecruitsRange` in
`filterRecruitsMultiThread` (`int` parameters). -/
def chunkBounds (recruits : List Recruit) (numThreads : Int) (i : Nat) : Int × Int :=
  (wrapInt ((i : Int) * chunkSize recruits numThreads),
   if (i : Int) = numThreads - 1 then wrapInt (recruits.length : Int)
   else wrapInt (((i : Int) + 1) * chunkSize recruits numThreads))

/-- Function `filterRecruitsMultiThread`: `suitableRecruits` after all threads
were joined.  Thread `i` filters its range and appends its `localSuitable`
under `dataMutex`; `order` lists the threads in the order in which they take
the mutex. -/
def filterRecruitsMultiThread (recruits : List Recruit) (numThreads : Int)
    (order : List Nat) : List Recruit :=
  (order.map fun i =>
    filterRecruitsRange recruits (chunkBounds recruits numThreads i).1
      (chunkBounds recruits numThreads i).2).flatten

/-! ## Forks and the hunger cycle (`ex3/philosophers.cpp`, strategies 1 to 6) -/

/-- One statement of `Philosopher::dineWithStdLock` (strategy 2), run by
thread `i`: think; `std::lock` of both forks, adopted by two `lock_guard`s;
eat; at the end of the loop body the guards unlock the right and then the
left fork. -/
def Philosopher.dineWithStdLock (p : Philosopher) (i : Nat) (t : Table) : Option Table :=
  match p.pc with
  | Pc.loopHead =>
    some (t.setPhilosopher i { p with pc := if t.stopFlag then Pc.finished else Pc.think })
  | Pc.think => some (t.setPhilosopher i { p with pc := Pc.lockBoth })
  | Pc.lockBoth =>
    (t.lockBoth p.leftFork p.rightFork i).map fun t1 =>
      t1.setPhilosopher i { p with pc := Pc.eat }
  | Pc.eat =>
    some (t.setPhilosopher i
      { p with mealsEaten := wrapInt (p.mealsEaten + 1), pc := Pc.unlockRight })
  | Pc.unlockRight =>
    some ((t.unlockFork p.rightFork).setPhilosopher i { p with pc := Pc.unlockLeft })
  | Pc.unlockLeft =>
    some ((t.unlockFork p.leftFork).setPhilosopher i { p with pc := Pc.loopHead })
  | _ => none

/-- Strategies 2 and 6 (both forks taken by one `std::lock`, the right one
unlocked first): statements at which the thread holds its left fork. -/
def Philosopher.stdLockHoldsLeft (p : Philosopher) : Bool :=
  decide (p.pc = Pc.eat ∨ p.pc = Pc.leave ∨ p.pc = Pc.unlockRight ∨ p.pc = Pc.unlockLeft)

/-- Strategies 2 and 6: statements at which the thread holds its right fork. -/
def Philosopher.stdLockHoldsRight (p : Philosopher) : Bool :=
  decide (p.pc = Pc.eat ∨ p.pc = Pc.leave ∨ p.pc = Pc.unlockRight)

/-- Thread `i`, which runs philosopher `p`, has locked its left or its right
fork. -/
def Table.holdsFork (t : Table) (i : Nat) (p : Philosopher) : Bool :=
  decide (t.forks[p.leftFork]? = some (some i) ∨ t.forks[p.rightFork]? = some (some i))

/-- Forks are held only inside a cycle: a thread that is at the test of
`while (!stopFlag)`, at `think()` or past the loop has locked neither of its
forks, and a thread at `eat()` has locked both. -/
def Table.ForksInsideCycle (t : Table) : Prop :=
  ∀ (i : Nat) (p : Philosopher), t.philosophers[i]? = some p →
    ((p.pc = Pc.loopHead ∨ p.pc = Pc.think ∨ p.pc = Pc.finished) →
      t.holdsFork i p = false) ∧
    (p.pc = Pc.eat →
      t.forks[p.leftFork]? = some (some i) ∧ t.forks[p.rightFork]? = some (some i))

/-! ## Recruit filter: the indices a worker examines (`ex2/ex20.cpp`, lines 91-103) -/

/-- The loop of `filterRecruitsRange` again, recording instead of the fit
recruits the indices `i` at which the body runs, that is at which
`allRecruits[i]` is examined. -/
def filterRecruitsRange_examined_loop (allRecruits : List Recruit) (stop : Int) :
    Nat → Int → List Nat → List Nat
  | 0, _, examined => examined
  | fuel + 1, i, examined =>
    if i < stop ∧ 0 ≤ i ∧ i < allRecruits.length then
      match allRecruits[i.toNat]? with
      | none => examined
      | some _ =>
        filterRecruitsRange_examined_loop allRecruits stop fuel (wrapInt (i + 1))
          (examined ++ [i.toNat])
    else examined

/-- Indices of `allRecruits` that the call `filterRecruitsRange(start, end)`
examines, in the order in which it examines them. -/
def filterRecruitsRange_examined (allRecruits : List Recruit) (start stop : Int) : List Nat :=
  filterRecruitsRange_examined_loop allRecruits stop allRecruits.length start []

/-- Indices examined by the `i`-th worker thread of
`filterRecruitsMultiThread`. -/
def filterRecruitsMultiThread_examined (recruits : List Recruit) (numThreads : Int)
    (i : Nat) : List Nat :=
  filterRecruitsRange_examined recruits (chunkBounds recruits numThreads i).1
    (chunkBounds recruits numThreads i).2

/-! ## `ThreadRaceTest::testWithMonitor` (`ex1/RaceTest.h`, lines 229-260) -/

/-- Statement a thread of `testWithMonitor` is about to execute: the test
`j < raceLength`, the constructor of `unique_lock` (`mtx.lock()`), the
evaluation of the predicate of `cv.wait` with the mutex held, the wake-up
inside `cv.wait` (the thread has released the mutex and is blocked on the
condition variable), `ready = false`, the write of `results[i]`,
`ready = true`, `lock.unlock()`, `cv.notify_one()` with `++j`, or none any
more. -/
inductive MonitorPc where
  | loopTest
  | lock
  | wait
  | blocked
  | clearReady
  | write
  | setReady
  | unlock
  | notify
  | done
deriving DecidableEq, Repr

/-- A thread of `testWithMonitor`: its loop variable `j` and where it is. -/
structure RaceThread where
  j : Int
  pc : MonitorPc
deriving DecidableEq, Repr

/-- The objects the threads of `testWithMonitor` share: `mtx` (`none` when
free, `some i` when locked by thread `i`), `ready`, `results`. -/
structure MonitorTest where
  mtx : Option Nat
  ready : Bool
  results : List Char
  threads : List RaceThread
deriving DecidableEq, Repr

/-- State in which the `numThreads` threads are started: `ready = true`,
`results.assign(numThreads, ' ')`. -/
def MonitorTest.init (numThreads : Nat) : MonitorTest :=
  { mtx := none, ready := true, results := List.replicate numThreads ' ',
    threads := List.replicate numThreads { j := 0, pc := MonitorPc.loopTest } }

/-- Thread `i` executes its next statement; `c` is what `generateRandomChar()`
returns when that statement is the write. -/
inductive MonitorTestOp where
  | run (i : Nat) (c : Char)
deriving DecidableEq, Repr

/-- Store the new state of thread `i`. -/
def MonitorTest.setThread (s : MonitorTest) (i : Nat) (th : RaceThread) : MonitorTest :=
  { s with threads := s.threads.set i th }

/-- One statement of the thread body of `testWithMonitor`.  `mtx.lock()`
completes only on a free mutex.  `cv.wait(lock, pred)` is
`while (!pred()) cv.wait(lock)`: with `ready` true it returns with the mutex
held, otherwise it releases the mutex and blocks; a blocked thread that wakes
up (notified or spuriously) takes the mutex again when it is free and
evaluates the predicate again. -/
def testWithMonitor (raceLength : Int) (s : MonitorTest) : MonitorTestOp → Option MonitorTest
  | MonitorTestOp.run i c =>
    match s.threads[i]? with
    | none => none
    | some th =>
      match th.pc with
      | MonitorPc.loopTest =>
        some (s.setThread i
          { th with pc := if th.j < raceLength then MonitorPc.lock else MonitorPc.done })
      | MonitorPc.lock =>
        match s.mtx with
        | none => some ({ s with mtx := some i }.setThread i { th with pc := MonitorPc.wait })
        | some _ => none
      | MonitorPc.wait =>
        if s.ready then some (s.setThread i { th with pc := MonitorPc.clearReady })
        else some ({ s with mtx := none }.setThread i { th with pc := MonitorPc.blocked })
      | MonitorPc.blocked =>
        match s.mtx with
        | none => some ({ s with mtx := some i }.setThread i { th with pc := MonitorPc.wait })
        | some _ => none
      | MonitorPc.clearReady =>
        some ({ s with ready := false }.setThread i { th with pc := MonitorPc.write })
      | MonitorPc.write =>
        some ({ s with results := s.results.set i c }.setThread i
          { th with pc := MonitorPc.setReady })
      | MonitorPc.setReady =>
        some ({ s with ready := true }.setThread i { th with pc := MonitorPc.unlock })
      | MonitorPc.unlock =>
        some ({ s with mtx := none }.setThread i { th with pc := MonitorPc.notify })
      | MonitorPc.notify =>
        some (s.setThread i { j := wrapInt (th.j + 1), pc := MonitorPc.loopTest })
      | MonitorPc.done => none

/-- The thread is between `mtx.lock()` and `lock.unlock()` with the mutex
held. -/
def RaceThread.holdsMutex (th : RaceThread) : Bool :=
  decide (th.pc = MonitorPc.wait ∨ th.pc = MonitorPc.clearReady ∨ th.pc = MonitorPc.write ∨
    th.pc = MonitorPc.setReady ∨ th.pc = MonitorPc.unlock)

/-- The thread is between `ready = false` and `ready = true`. -/
def RaceThread.busy (th : RaceThread) : Bool :=
  decide (th.pc = MonitorPc.write ∨ th.pc = MonitorPc.setReady)

/-- Invariant of `testWithMonitor`: `ready` is true while the mutex is free;
thread `i` is between its lock and its unlock exactly when the mutex is locked
by `i`, and then `ready` is false exactly between its two assignments; no
thread is blocked on the condition variable. -/
def MonitorTest.Inv (s : MonitorTest) : Prop :=
  (s.mtx = none → s.ready = true) ∧
  (∀ (i : Nat) (th : RaceThread), s.threads[i]? = some th →
    (th.holdsMutex = true ↔ s.mtx = some i) ∧
    th.pc ≠ MonitorPc.blocked ∧
    (s.mtx = some i → s.ready = !th.busy))

/-! ## Strategy 3 on the shared table (`ex3/philosophers.cpp`, lines 104-158)

The statements of `dineWithTimeout` as steps on the shared forks.  A call of
`try_lock_for` either locks the mutex, which it can do only when the mutex is
free, or returns `false` after its timeout, which it may do in any state. -/

/-- Statement a thread running `dineWithTimeout` is about to execute: the test
of `while (!stopFlag)`, `think()` with the initialisation of `gotForks` and
`attempts`, the test of the attempt loop, `leftFork.try_lock_for`,
`rightFork.try_lock_for`, the `leftFork.unlock()` after a timeout on the
right fork, the block `if (!gotForks)` with `attempts++` and the sleep, the
test `if (gotForks)`, `eat()`, the two unlocks, the message that the
philosopher goes hungry, or none any more. -/
inductive TimeoutPc where
  | loopHead
  | think
  | attemptTest
  | tryLeft
  | tryRight
  | releaseLeft
  | backoff
  | branch
  | eat
  | unlockRight
  | unlockLeft
  | hungry
  | finished
deriving DecidableEq, Repr

/-- A `Philosopher` object run by `dineWithTimeout`, with the local variables
`gotForks` and `attempts` of the loop body and the position of the thread. -/
structure TimeoutPhilosopher where
  id : Nat
  leftFork : Nat
  rightFork : Nat
  mealsEaten : Int
  gotForks : Bool
  attempts : Int
  pc : TimeoutPc
deriving DecidableEq, Repr

/-- The objects shared by the threads of strategy 3: `forks` and `stopFlag`. -/
structure TimeoutTable where
  forks : List (Option Nat)
  stopFlag : Bool
  philosophers : List TimeoutPhilosopher
deriving DecidableEq, Repr

/-- State in which the threads of strategy 3 are started, for `n`
philosophers (`gotForks` and `attempts` are assigned before they are read). -/
def TimeoutTable.init (n : Nat) : TimeoutTable :=
  { forks := List.replicate n none, stopFlag := false,
    philosophers := (List.range n).map fun i =>
      { id := i, leftFork := i, rightFork := (i + 1) % n, mealsEaten := 0,
        gotForks := false, attempts := 0, pc := TimeoutPc.loopHead } }

/-- A `try_lock_for` on `forks[k]` by thread `i` that acquires the mutex:
possible only when the mutex is free. -/
def TimeoutTable.lockFork (t : TimeoutTable) (k i : Nat) : Option TimeoutTable :=
  match t.forks[k]? with
  | some none => some { t with forks := t.forks.set k (some i) }
  | _ => none

/-- Call `forks[k].unlock()`. -/
def TimeoutTable.unlockFork (t : TimeoutTable) (k : Nat) : TimeoutTable :=
  { t with forks := t.forks.set k none }

/-- Store the new state of the philosopher run by thread `i`. -/
def TimeoutTable.setPhilosopher (t : TimeoutTable) (i : Nat) (p : TimeoutPhilosopher) :
    TimeoutTable :=
  { t with philosophers := t.philosophers.set i p }

/-- One statement of `Philosopher::dineWithTimeout` (strategy 3), run by
thread `i`; at a `try_lock_for` this is the case in which the mutex is
acquired. -/
def TimeoutPhilosopher.dineWithTimeout (p : TimeoutPhilosopher) (i : Nat) (t : TimeoutTable) :
    Option TimeoutTable :=
  match p.pc with
  | TimeoutPc.loopHead =>
    some (t.setPhilosopher i
      { p with pc := if t.stopFlag then TimeoutPc.finished else TimeoutPc.think })
  | TimeoutPc.think =>
    some (t.setPhilosopher i
      { p with gotForks := false, attempts := 0, pc := TimeoutPc.attemptTest })
  | TimeoutPc.attemptTest =>
    some (t.setPhilosopher i
      { p with pc := if !p.gotForks && !t.stopFlag && decide (p.attempts < 3)
                     then TimeoutPc.tryLeft else TimeoutPc.branch })
  | TimeoutPc.tryLeft =>
    (t.lockFork p.leftFork i).map fun t1 =>
      t1.setPhilosopher i { p with pc := TimeoutPc.tryRight }
  | TimeoutPc.tryRight =>
    (t.lockFork p.rightFork i).map fun t1 =>
      t1.setPhilosopher i { p with gotForks := true, pc := TimeoutPc.backoff }
  | TimeoutPc.releaseLeft =>
    some ((t.unlockFork p.leftFork).setPhilosopher i { p with pc := TimeoutPc.backoff })
  | TimeoutPc.backoff =>
    some (t.setPhilosopher i
      { p with attempts := if !p.gotForks then wrapInt (p.attempts + 1) else p.attempts,
               pc := TimeoutPc.attemptTest })
  | TimeoutPc.branch =>
    some (t.setPhilosopher i
      { p with pc := if p.gotForks then TimeoutPc.eat else TimeoutPc.hungry })
  | TimeoutPc.eat =>
    some (t.setPhilosopher i
      { p with mealsEaten := wrapInt (p.mealsEaten + 1), pc := TimeoutPc.unlockRight })
  | TimeoutPc.unlockRight =>
    some ((t.unlockFork p.rightFork).setPhilosopher i { p with pc := TimeoutPc.unlockLeft })
  | TimeoutPc.unlockLeft =>
    some ((t.unlockFork p.leftFork).setPhilosopher i { p with pc := TimeoutPc.loopHead })
  | TimeoutPc.hungry => some (t.setPhilosopher i { p with pc := TimeoutPc.loopHead })
  | TimeoutPc.finished => none

/-- A `try_lock_for` of thread `i` returns `false`: after the one on the left
fork the thread goes on to `if (!gotForks)`, after the one on the right fork
to the `leftFork.unlock()` of the `else` branch. -/
def TimeoutPhilosopher.tryLockExpires (p : TimeoutPhilosopher) (i : Nat) (t : TimeoutTable) :
    Option TimeoutTable :=
  match p.pc with
  | TimeoutPc.tryLeft => some (t.setPhilosopher i { p with pc := TimeoutPc.backoff })
  | TimeoutPc.tryRight => some (t.setPhilosopher i { p with pc := TimeoutPc.releaseLeft })
  | _ => none

/-- Steps of strategy 3: the main thread sets `stopFlag = true`, thread `i`
executes its next statement (acquiring the mutex when that is a
`try_lock_for`), or the `try_lock_for` thread `i` is in times out. -/
inductive TimeoutOp where
  | stop
  | run (i : Nat)
  | expire (i : Nat)
deriving DecidableEq, Repr

/-- Step relation of the philosophers running strategy 3. -/
def TimeoutTable.step (t : TimeoutTable) : TimeoutOp → Option TimeoutTable
  | TimeoutOp.stop => some { t with stopFlag := true }
  | TimeoutOp.run i =>
    match t.philosophers[i]? with
    | none => none
    | some p => p.dineWithTimeout i t
  | TimeoutOp.expire i =>
    match t.philosophers[i]? with
    | none => none
    | some p => p.tryLockExpires i t

/-- Strategy 3: the thread is at a statement of the attempt loop, or at the
test after it, where what it holds is told by `gotForks`. -/
def TimeoutPhilosopher.betweenAttempts (p : TimeoutPhilosopher) : Bool :=
  decide (p.pc = TimeoutPc.attemptTest ∨ p.pc = TimeoutPc.backoff ∨ p.pc = TimeoutPc.branch)

/-- Strategy 3: statements at which the thread holds its left fork. -/
def TimeoutPhilosopher.holdsLeft (p : TimeoutPhilosopher) : Bool :=
  decide (p.pc = TimeoutPc.tryRight ∨ p.pc = TimeoutPc.releaseLeft ∨ p.pc = TimeoutPc.eat ∨
    p.pc = TimeoutPc.unlockRight ∨ p.pc = TimeoutPc.unlockLeft) ||
  (p.betweenAttempts && p.gotForks)

/-- Strategy 3: statements at which the thread holds its right fork. -/
def TimeoutPhilosopher.holdsRight (p : TimeoutPhilosopher) : Bool :=
  decide (p.pc = TimeoutPc.eat ∨ p.pc = TimeoutPc.unlockRight) ||
  (p.betweenAttempts && p.gotForks)

/-- The philosopher of a strategy-3 thread seen as a `Philosopher` at a
statement of strategy 1 at which the same forks are held: `eat()` with both,
`rightFork.lock()` with the left one only, `think()` with none. -/
def TimeoutPhilosopher.toPhilosopher (p : TimeoutPhilosopher) : Philosopher :=
  { id := p.id, leftFork := p.leftFork, rightFork := p.rightFork, mealsEaten := p.mealsEaten,
    pc := if p.holdsRight then Pc.eat else if p.holdsLeft then Pc.lockRight else Pc.think }

/-- Invariant of strategy 3 on a ring of `n` philosophers: the forks follow
the statements the threads are at, and inside an attempt `gotForks` is
false. -/
def TimeoutInv (n : Nat) (t : TimeoutTable) : Prop :=
  ForksInv n Philosopher.leftFirstHoldsLeft Philosopher.leftFirstHoldsRight
    t.forks (t.philosophers.map TimeoutPhilosopher.toPhilosopher) ∧
  (∀ (i : Nat) (p : TimeoutPhilosopher), t.philosophers[i]? = some p →
    (p.pc = TimeoutPc.tryLeft ∨ p.pc = TimeoutPc.tryRight ∨ p.pc = TimeoutPc.releaseLeft) →
    p.gotForks = false)

/-- Strategy 3: the thread is inside `eat()`. -/
def TimeoutPhilosopher.eating (p : TimeoutPhilosopher) : Bool := decide (p.pc = TimeoutPc.eat)

/-- Neighbours never eat together, for the five philosophers of
`runPhilosophersTest`: a thread inside `eat()` has locked both its forks, two
philosophers next to each other on the ring are not both inside `eat()`, and
at most two philosophers are. -/
def Table.NeighboursApart (t : Table) : Prop :=
  (∀ (i : Nat) (p : Philosopher), t.philosophers[i]? = some p → p.eating = true →
    t.forks[p.leftFork]? = some (some i) ∧ t.forks[p.rightFork]? = some (some i)) ∧
  (∀ (i : Nat) (p q : Philosopher), t.philosophers[i]? = some p →
    t.philosophers[(i + 1) % NUM_PHILOSOPHERS]? = some q →
    ¬ (p.eating = true ∧ q.eating = true)) ∧
  t.philosophers.countP Philosopher.eating ≤ 2

/-- Neighbours never eat together under strategy 3. -/
def TimeoutTable.NeighboursApart (t : TimeoutTable) : Prop :=
  (∀ (i : Nat) (p : TimeoutPhilosopher), t.philosophers[i]? = some p → p.eating = true →
    t.forks[p.leftFork]? = some (some i) ∧ t.forks[p.rightFork]? = some (some i)) ∧
  (∀ (i : Nat) (p q : TimeoutPhilosopher), t.philosophers[i]? = some p →
    t.philosophers[(i + 1) % NUM_PHILOSOPHERS]? = some q →
    ¬ (p.eating = true ∧ q.eating = true)) ∧
  t.philosophers.countP TimeoutPhilosopher.eating ≤ 2

/-! ## Generic lemmas -/

theorem wrapInt_eq_self {x : Int} (h1 : -2147483648 ≤ x) (h2 : x ≤ 2147483647) :
    wrapInt x = x := by
  unfold wrapInt
  omega

theorem runSched_invariant {σ α : Type} (step : σ → α → Option σ) (Inv : σ → Prop)
    (hstep : ∀ s a s', Inv s → step s a = some s' → Inv s')
    (sched : List α) : ∀ s s', Inv s → runSched step s sched = some s' → Inv s' := by
  induction sched with
  | nil =>
    intro s s' hs h
    simp only [runSched, Option.some.injEq] at h
    exact h ▸ hs
  | cons a rest ih =>
    intro s s' hs h
    simp only [runSched] at h
    cases hsa : step s a with
    | none => simp [hsa] at h
    | some s1 =>
      simp only [hsa] at h
      exact ih s1 s' (hstep s a s1 hs hsa) h

theorem runSched_append {σ α : Type} (step : σ → α → Option σ) (xs ys : List α) :
    ∀ s, runSched step s (xs ++ ys) = (runSched step s xs).bind (fun t => runSched step t ys) := by
  induction xs with
  | nil => intro s; simp [runSched]
  | cons a rest ih =>
    intro s
    simp only [List.cons_append, runSched]
    cases step s a with
    | none => simp
    | some s1 => simpa using ih s1

/-! ## Semaphore: permit accounting -/

theorem Semaphore.run_accounting (sched : List SemOp) :
    ∀ (s0 s : Semaphore), 0 ≤ s0.count →
      runSched Semaphore.step s0 sched = some s →
      (∀ k, k ≤ sched.length →
        s0.count + releases (sched.take k) - acquires (sched.take k) ≤ INT_MAX) →
      s.count = s0.count + releases sched - acquires sched ∧ 0 ≤ s.count := by
  induction sched with
  | nil =>
    intro s0 s h0 hrun _
    simp only [runSched, Option.some.injEq] at hrun
    subst hrun
    simp [releases, acquires, h0]
  | cons a rest ih =>
    intro s0 s h0 hrun hb
    have hnil := hb 0 (Nat.zero_le _)
    have hone := hb 1 (by simp)
    simp only [releases, acquires, INT_MAX, List.take_zero, List.take_succ_cons,
      List.count_nil, List.count_cons] at hnil hone
    simp only [runSched] at hrun
    cases a with
    | acquire =>
      simp only [Semaphore.step, Semaphore.acquire] at hrun
      by_cases hpos : s0.count > 0
      · simp only [hpos, if_true] at hrun
        have hw : wrapInt (s0.count - 1) = s0.count - 1 :=
          wrapInt_eq_self (by omega) (by simp at hnil; omega)
        rw [hw] at hrun
        have := ih { count := s0.count - 1 } s (by simp; omega) hrun (by
          intro k hk
          have := hb (k + 1) (by simpa using hk)
          simp only [releases, acquires, List.take_succ_cons, List.count_cons] at this ⊢
          simp at this ⊢
          omega)
        simp only [releases, acquires, List.count_cons] at this ⊢
        simp at this ⊢
        omega
      · simp [hpos] at hrun
    | release =>
      simp only [Semaphore.step, Semaphore.release] at hrun
      have hw : wrapInt (s0.count + 1) = s0.count + 1 :=
        wrapInt_eq_self (by omega) (by simp at hone; omega)
      rw [hw] at hrun
      have := ih { count := s0.count + 1 } s (by simp; omega) hrun (by
        intro k hk
        have := hb (k + 1) (by simpa using hk)
        simp only [releases, acquires, List.take_succ_cons, List.count_cons] at this ⊢
        simp at this ⊢
        omega)
      simp only [releases, acquires, List.count_cons] at this ⊢
      simp at this ⊢
      omega

/-- C2 (as stated): with initial count `INT_MAX` a single `release` leaves the
`int` counter at `INT_MIN`, so `count >= 0` and
`count = c0 + releases - acquires` both fail in a reachable state. -/
theorem Semaphore.accounting_overflow_counterexample :
    (0 : Int) ≤ INT_MAX ∧
    runSched Semaphore.step (Semaphore.new INT_MAX) [SemOp.release]
      = some { count := INT_MIN } ∧
    ¬ ((0 : Int) ≤ INT_MIN) ∧
    INT_MIN ≠ INT_MAX + releases [SemOp.release] - acquires [SemOp.release] := by
  decide

/-- C2 (amended): for every initial count `c0 >= 0` and every schedule of
completed `acquire`/`release` calls during which the permit total
`c0 + releases - acquires` never exceeds `INT_MAX`, the state reached has
`count = c0 + releases - acquires` and `count >= 0`, the completed acquires
never exceed `c0` plus the releases, and an `acquire` never completes from a
state with `count == 0` (nor with a negative count). -/
theorem Semaphore.permit_accounting (c0 : Int) (sched : List SemOp) (s : Semaphore)
    (h0 : 0 ≤ c0)
    (hrun : runSched Semaphore.step (Semaphore.new c0) sched = some s)
    (hbound : ∀ k, k ≤ sched.length →
      c0 + releases (sched.take k) - acquires (sched.take k) ≤ INT_MAX) :
    s.count = c0 + releases sched - acquires sched ∧ 0 ≤ s.count ∧
    (acquires sched : Int) ≤ c0 + releases sched ∧
    (∀ t : Semaphore, t.count ≤ 0 → Semaphore.step t SemOp.acquire = none) := by
  have h := Semaphore.run_accounting sched (Semaphore.new c0) s h0 hrun hbound
  simp only [Semaphore.new] at h
  refine ⟨h.1, h.2, by omega, ?_⟩
  intro t ht
  simp only [Semaphore.step, Semaphore.acquire]
  rw [if_neg (by omega)]

/-- C2 witness: `Semaphore(1)` after acquire, release, release holds 2 permits. -/
theorem Semaphore.permit_accounting_witness :
    ({ count := 2 } : Semaphore).count
        = 1 + releases [SemOp.acquire, SemOp.release, SemOp.release]
            - acquires [SemOp.acquire, SemOp.release, SemOp.release] ∧
    0 ≤ ({ count := 2 } : Semaphore).count ∧
    (acquires [SemOp.acquire, SemOp.release, SemOp.release] : Int)
        ≤ 1 + releases [SemOp.acquire, SemOp.release, SemOp.release] ∧
    (∀ t : Semaphore, t.count ≤ 0 → Semaphore.step t SemOp.acquire = none) :=
  Semaphore.permit_accounting 1 [SemOp.acquire, SemOp.release, SemOp.release]
    { count := 2 } (by decide) (by decide) (by decide)

/-! ## Lists of threads -/

theorem countP_set_add {α : Type} (p : α → Bool) (l : List α) (i : Nat) (t a : α)
    (h : l[i]? = some t) :
    (l.set i a).countP p + (if p t then 1 else 0) = l.countP p + (if p a then 1 else 0) := by
  obtain ⟨hi, ht⟩ := List.getElem?_eq_some.mp h
  have h1 := List.countP_set p l i a hi
  have h2 := List.boole_getElem_le_countP p l i hi
  rw [ht] at h1 h2
  omega

theorem countP_lt_length_of_fail {α : Type} (p : α → Bool) (l : List α) (j : Nat) (u : α)
    (h : l[j]? = some u) (hp : p u = false) : l.countP p + 1 ≤ l.length := by
  have hle := List.countP_le_length p (l := l)
  have hne : l.countP p ≠ l.length := by
    intro heq
    have := (List.countP_eq_length.mp heq) u (List.getElem?_mem h)
    rw [hp] at this
    exact Bool.false_ne_true this
  omega

theorem countP_two_fail {α : Type} (p : α → Bool) (l : List α) :
    ∀ (i j : Nat) (t u : α), l[i]? = some t → l[j]? = some u → i ≠ j →
      p t = false → p u = false → l.countP p + 2 ≤ l.length := by
  induction l with
  | nil => intro i j t u h; simp at h
  | cons x xs ih =>
    intro i j t u hi hj hij ht hu
    cases i with
    | zero =>
      cases j with
      | zero => exact absurd rfl hij
      | succ j =>
        simp only [List.getElem?_cons_zero, Option.some.injEq] at hi
        simp only [List.getElem?_cons_succ] at hj
        have := countP_lt_length_of_fail p xs j u hj hu
        subst hi
        simp only [List.countP_cons, ht, List.length_cons]
        simp
        omega
    | succ i =>
      simp only [List.getElem?_cons_succ] at hi
      cases j with
      | zero =>
        simp only [List.getElem?_cons_zero, Option.some.injEq] at hj
        have := countP_lt_length_of_fail p xs i t hi ht
        subst hj
        simp only [List.countP_cons, hu, List.length_cons]
        simp
        omega
      | succ j =>
        simp only [List.getElem?_cons_succ] at hj
        have := ih i j t u hi hj (by omega) ht hu
        simp only [List.countP_cons, List.length_cons]
        split <;> omega

theorem all_of_countP_succ {α : Type} (p : α → Bool) (l : List α) (i : Nat) (t : α)
    (h : l[i]? = some t) (hp : p t = false) (hc : l.countP p + 1 = l.length) :
    ∀ j u, j ≠ i → l[j]? = some u → p u = true := by
  intro j u hji hj
  cases hpu : p u with
  | true => rfl
  | false =>
    have := countP_two_fail p l i j t u h hj (Ne.symm hji) hp hpu
    omega

/-! ## Barrier: rendezvous -/

theorem wrapInt_succ (x : Int) : wrapInt (wrapInt x + 1) = wrapInt (x + 1) := by
  unfold wrapInt
  omega

theorem BarrierSys.barrier_inv_init (total : Int) (h : 0 < total) :
    BarrierSys.Inv total (BarrierSys.init total) := by
  refine ⟨0, by simp [BarrierSys.init, Barrier.new, wrapInt], rfl, ?_, ?_, ?_⟩
  · simp only [BarrierSys.init, List.length_replicate]
    omega
  · intro j t hj
    have := List.getElem?_mem hj
    simp only [BarrierSys.init, List.mem_replicate] at this
    left
    rw [this.2]
    exact ⟨rfl, rfl⟩
  · have : List.countP (BarrierThread.arrivedNow 0) (BarrierSys.init total).threads = 0 := by
      rw [List.countP_eq_zero]
      intro a ha
      simp only [BarrierSys.init, List.mem_replicate] at ha
      rw [ha.2]
      decide
    rw [this]
    simp [BarrierSys.init, Barrier.new]

theorem BarrierSys.barrier_inv_step (total : Int) (hpos : 0 < total) (hmax : total ≤ INT_MAX)
    (s : BarrierSys) (a : BarrierOp) (s' : BarrierSys)
    (hinv : BarrierSys.Inv total s) (hstep : BarrierSys.step s a = some s') :
    BarrierSys.Inv total s' := by
  obtain ⟨G, hgen, htot, hlen, hth, hcnt⟩ := hinv
  have hcle := List.countP_le_length (BarrierThread.arrivedNow G) (l := s.threads)
  cases a with
  | arrive i =>
    simp only [BarrierSys.step] at hstep
    cases hi : s.threads[i]? with
    | none => simp [hi] at hstep
    | some t =>
      simp only [hi] at hstep
      cases hw : t.waiting with
      | some g => simp [hw] at hstep
      | none =>
        simp only [hw] at hstep
        have hcalls : t.calls = G := by
          rcases hth i t hi with h | h
          · exact h.2
          · rw [hw] at h; exact absurd h.1 (by simp)
        have hnot : BarrierThread.arrivedNow G t = false := by
          simp [BarrierThread.arrivedNow, hw]
        have hk := countP_lt_length_of_fail _ s.threads i t hi hnot
        have hwrap : wrapInt (s.barrier.count - 1) = s.barrier.count - 1 :=
          wrapInt_eq_self (by omega) (by simp only [INT_MAX] at hmax; omega)
        simp only [Barrier.arrive_and_wait, hwrap] at hstep
        by_cases hz : s.barrier.count - 1 = 0
        · simp only [hz, if_true, Option.some.injEq] at hstep
          subst hstep
          have hall := all_of_countP_succ _ s.threads i t hi hnot (by omega)
          have hth' : ∀ (j : Nat) (u : BarrierThread),
              (s.threads.set i { calls := t.calls + 1, waiting := none })[j]? = some u →
              u.ok (G + 1) := by
            intro j u hj
            rw [List.getElem?_set] at hj
            by_cases hij : i = j
            · simp only [hij, if_true] at hj
              split at hj
              · simp only [Option.some.injEq] at hj
                subst hj
                left
                exact ⟨rfl, by simp [hcalls]⟩
              · simp at hj
            · simp only [hij, if_false] at hj
              have hu := hall j u (Ne.symm hij) hj
              simp only [BarrierThread.arrivedNow, Bool.and_eq_true, beq_iff_eq] at hu
              rcases hth j u hj with h | h
              · rw [h.1] at hu; simp at hu
              · right
                exact ⟨h.1, Or.inr (by omega)⟩
          refine ⟨G + 1, ?_, htot, by simpa using hlen, hth', ?_⟩
          · simp only [hgen]
            rw [wrapInt_succ]
            simp
          · have : List.countP (BarrierThread.arrivedNow (G + 1))
                (s.threads.set i { calls := t.calls + 1, waiting := none }) = 0 := by
              rw [List.countP_eq_zero]
              intro u hu
              obtain ⟨j, hj⟩ := List.mem_iff_getElem?.mp hu
              rcases hth' j u hj with h | h
              · simp [BarrierThread.arrivedNow, h.1]
              · rw [List.getElem?_set] at hj
                by_cases hij : i = j
                · simp only [hij, if_true] at hj
                  split at hj
                  · simp only [Option.some.injEq] at hj
                    subst hj
                    simp [BarrierThread.arrivedNow]
                  · simp at hj
                · simp only [hij, if_false] at hj
                  have hu2 := hall j u (Ne.symm hij) hj
                  simp only [BarrierThread.arrivedNow, Bool.and_eq_true, beq_iff_eq] at hu2
                  simp [BarrierThread.arrivedNow, hu2.2]
            rw [this]
            simp [htot]
        · simp only [hz, if_false, Option.some.injEq] at hstep
          subst hstep
          have hadd := countP_set_add (BarrierThread.arrivedNow G) s.threads i t
            { calls := t.calls, waiting := some s.barrier.generation } hi
          have hnew : BarrierThread.arrivedNow G
              { calls := t.calls, waiting := some s.barrier.generation } = true := by
            simp [BarrierThread.arrivedNow, hcalls]
          rw [hnot, hnew] at hadd
          simp only [Bool.false_eq_true, if_false, if_true, Nat.add_zero] at hadd
          refine ⟨G, hgen, htot, by simpa using hlen, ?_, ?_⟩
          · intro j u hj
            rw [List.getElem?_set] at hj
            by_cases hij : i = j
            · simp only [hij, if_true] at hj
              split at hj
              · simp only [Option.some.injEq] at hj
                subst hj
                right
                exact ⟨by simp [hgen, hcalls], Or.inl hcalls⟩
              · simp at hj
            · simp only [hij, if_false] at hj
              exact hth j u hj
          · simp only [hadd]
            push_cast
            omega
  | wake i =>
    simp only [BarrierSys.step] at hstep
    cases hi : s.threads[i]? with
    | none => simp [hi] at hstep
    | some t =>
      simp only [hi] at hstep
      cases hw : t.waiting with
      | none => simp [hw] at hstep
      | some g =>
        simp only [hw] at hstep
        by_cases hp : s.barrier.wait_pred g = true
        · simp only [hp, if_true, Option.some.injEq] at hstep
          subst hstep
          simp only [Barrier.wait_pred, decide_eq_true_eq] at hp
          have hcalls : t.calls + 1 = G := by
            rcases hth i t hi with h | h
            · rw [hw] at h; exact absurd h.1 (by simp)
            · rcases h.2 with h2 | h2
              · exfalso
                apply hp
                have := h.1
                rw [hw] at this
                simp only [Option.some.injEq] at this
                rw [this, hgen, h2]
              · exact h2
          have hnot : BarrierThread.arrivedNow G t = false := by
            simp only [BarrierThread.arrivedNow, Bool.and_eq_false_iff]
            right
            simp
            omega
          have hadd := countP_set_add (BarrierThread.arrivedNow G) s.threads i t
            { calls := t.calls + 1, waiting := none } hi
          have hnew : BarrierThread.arrivedNow G
              { calls := t.calls + 1, waiting := none } = false := by
            simp [BarrierThread.arrivedNow]
          rw [hnot, hnew] at hadd
          simp only [Bool.false_eq_true, if_false, Nat.add_zero] at hadd
          refine ⟨G, hgen, htot, by simpa using hlen, ?_, ?_⟩
          · intro j u hj
            rw [List.getElem?_set] at hj
            by_cases hij : i = j
            · simp only [hij, if_true] at hj
              split at hj
              · simp only [Option.some.injEq] at hj
                subst hj
                left
                exact ⟨rfl, hcalls⟩
              · simp at hj
            · simp only [hij, if_false] at hj
              exact hth j u hj
          · simp only [hadd]
            exact hcnt
        · simp [hp] at hstep

theorem BarrierSys.barrier_inv_reachable (total : Int) (hpos : 0 < total) (hmax : total ≤ INT_MAX)
    (sched : List BarrierOp) (s : BarrierSys)
    (hrun : runSched BarrierSys.step (BarrierSys.init total) sched = some s) :
    BarrierSys.Inv total s :=
  runSched_invariant BarrierSys.step (BarrierSys.Inv total)
    (fun s a s' h hs => BarrierSys.barrier_inv_step total hpos hmax s a s' h hs)
    sched _ _ (BarrierSys.barrier_inv_init total hpos) hrun

/-- C1: a `Barrier(total)` with `0 < total` (an `int`) used by `total` threads
that each call `arrive_and_wait` repeatedly: in every reachable state, a
thread that has returned from `g` calls implies that every thread has
performed the arrival step of its `g`-th call, and a thread that has returned
from `g + 1` calls implies that every thread has returned from `g` calls
(generation `g + 1` is not released before generation `g` has completed). -/
theorem BarrierSys.rendezvous (total : Int) (sched : List BarrierOp) (s : BarrierSys)
    (hpos : 0 < total) (hmax : total ≤ INT_MAX)
    (hrun : runSched BarrierSys.step (BarrierSys.init total) sched = some s) :
    (s.threads.length : Int) = total ∧
    ∀ t ∈ s.threads, ∀ u ∈ s.threads, ∀ g : Nat,
      (g ≤ t.calls → g ≤ u.arrivals) ∧ (g + 1 ≤ t.calls → g ≤ u.calls) := by
  obtain ⟨G, _, _, hlen, hth, _⟩ := BarrierSys.barrier_inv_reachable total hpos hmax sched s hrun
  refine ⟨hlen, ?_⟩
  intro t ht u hu g
  obtain ⟨i, hi⟩ := List.mem_iff_getElem?.mp ht
  obtain ⟨j, hj⟩ := List.mem_iff_getElem?.mp hu
  have h1 := hth i t hi
  have h2 := hth j u hj
  simp only [BarrierThread.ok] at h1 h2
  simp only [BarrierThread.arrivals]
  rcases h1 with ⟨_, h1⟩ | ⟨_, h1 | h1⟩ <;> rcases h2 with ⟨hw, h2⟩ | ⟨hw, h2 | h2⟩ <;>
    simp only [hw, Option.isSome_some, Option.isSome_none, if_true, Bool.false_eq_true,
      if_false] <;> constructor <;> omega

/-- C1 witness: two threads on `Barrier(2)`; after both arrived and the
waiting one woke up, both have returned from one call. -/
theorem BarrierSys.rendezvous_witness :
    (([{ calls := 1, waiting := none }, { calls := 1, waiting := none }] :
        List BarrierThread).length : Int) = 2 ∧
    ∀ t ∈ ([{ calls := 1, waiting := none }, { calls := 1, waiting := none }] :
        List BarrierThread),
      ∀ u ∈ ([{ calls := 1, waiting := none }, { calls := 1, waiting := none }] :
        List BarrierThread), ∀ g : Nat,
      (g ≤ t.calls → g ≤ u.arrivals) ∧ (g + 1 ≤ t.calls → g ≤ u.calls) :=
  BarrierSys.rendezvous 2
    [BarrierOp.arrive 0, BarrierOp.arrive 1, BarrierOp.wake 0]
    { barrier := { count := 2, generation := 1, total := 2 },
      threads := [{ calls := 1, waiting := none }, { calls := 1, waiting := none }] }
    (by decide) (by decide) (by decide)

/-! ## Workers: mutual exclusion -/

theorem two_le_countP {α : Type} (p : α → Bool) (l : List α) (i j : Nat) (t u : α)
    (hi : l[i]? = some t) (hj : l[j]? = some u) (hij : i ≠ j)
    (ht : p t = true) (hu : p u = true) : 2 ≤ l.countP p := by
  have h := countP_two_fail (fun a => !p a) l i j t u hi hj hij (by simp [ht]) (by simp [hu])
  have h2 := List.length_eq_countP_add_countP p l
  have h3 : List.countP (fun a => decide ¬p a = true) l = List.countP (fun a => !p a) l := by
    congr 1; funext a; cases p a <;> rfl
  omega

theorem WorkerSys.worker_inv_init {L : Type} (free held : L) (n : Nat) :
    WorkerSys.Inv free held (WorkerSys.init free n) := by
  refine ⟨Or.inl ⟨?_, rfl⟩, by simp [WorkerSys.init], ?_⟩
  · rw [List.countP_eq_zero]
    intro a ha
    simp only [WorkerSys.init, List.mem_replicate] at ha
    rw [ha.2]
    decide
  · intro i w hi
    obtain ⟨hlt, hw⟩ := List.getElem?_eq_some.mp hi
    simp only [WorkerSys.init, List.length_replicate] at hlt
    simp only [WorkerSys.init, List.getElem_replicate] at hw
    subst hw
    simp [WorkerSys.init, List.getElem?_replicate, hlt]

theorem WorkerSys.worker_inv_step {L : Type} (acq : L → Option L) (rel : L → L) (free held : L)
    (hfree : acq free = some held) (hheld : acq held = none) (hrel : rel held = free)
    (s : WorkerSys L) (a : WorkerOp) (s' : WorkerSys L)
    (hinv : WorkerSys.Inv free held s) (hstep : WorkerSys.step acq rel s a = some s') :
    WorkerSys.Inv free held s' := by
  obtain ⟨hmx, hlen, hdata⟩ := hinv
  cases a with
  | acquire i =>
    simp only [WorkerSys.step] at hstep
    cases hi : s.workers[i]? with
    | none => simp [hi] at hstep
    | some w =>
      simp only [hi] at hstep
      split at hstep
      · rename_i hpc
        cases hacq : acq s.lock with
        | none => simp [hacq] at hstep
        | some l =>
          simp only [hacq, Option.some.injEq] at hstep
          subst hstep
          have hadd := countP_set_add Worker.inCS s.workers i w
            { iter := w.iter, pc := WorkerPc.locked, last := w.last } hi
          have hw : Worker.inCS w = false := by simp [Worker.inCS, hpc.1]
          have hn : Worker.inCS { iter := w.iter, pc := WorkerPc.locked, last := w.last } = true :=
            rfl
          rw [hw, hn] at hadd
          simp only [Bool.false_eq_true, if_false, if_true, Nat.add_zero] at hadd
          refine ⟨?_, by simpa using hlen, ?_⟩
          · rcases hmx with ⟨hc, hl⟩ | ⟨hc, hl⟩
            · right
              rw [hl, hfree] at hacq
              simp only [Option.some.injEq] at hacq
              refine ⟨?_, hacq.symm⟩
              show List.countP Worker.inCS (s.workers.set i _) = 1
              omega
            · rw [hl, hheld] at hacq
              simp at hacq
          · intro j u hj
            rw [List.getElem?_set] at hj
            by_cases hij : i = j
            · simp only [hij, if_true] at hj
              split at hj
              · simp only [Option.some.injEq] at hj
                subst hj
                subst hij
                exact hdata i w hi
              · simp at hj
            · simp only [hij, if_false] at hj
              exact hdata j u hj
      · simp at hstep
  | write i r =>
    simp only [WorkerSys.step] at hstep
    cases hi : s.workers[i]? with
    | none => simp [hi] at hstep
    | some w =>
      simp only [hi] at hstep
      split at hstep
      · rename_i hpc
        simp only [Option.some.injEq] at hstep
        subst hstep
        have hadd := countP_set_add Worker.inCS s.workers i w
          { iter := w.iter, pc := WorkerPc.wrote, last := 33 + r % 94 } hi
        have hw : Worker.inCS w = true := by simp [Worker.inCS, hpc]
        have hn : Worker.inCS { iter := w.iter, pc := WorkerPc.wrote, last := 33 + r % 94 } = true :=
          rfl
        rw [hw, hn] at hadd
        simp only [if_true, Nat.add_right_cancel_iff] at hadd
        refine ⟨?_, by simpa using hlen, ?_⟩
        · show (List.countP Worker.inCS (s.workers.set i _) = 0 ∧ _) ∨
            (List.countP Worker.inCS (s.workers.set i _) = 1 ∧ _)
          rw [hadd]
          exact hmx
        · intro j u hj
          rw [List.getElem?_set] at hj
          rw [List.getElem?_set]
          by_cases hij : i = j
          · simp only [hij, if_true] at hj ⊢
            rw [hlen]
            split at hj
            · simp only [Option.some.injEq] at hj
              subst hj
              rename_i hlt
              simp [hlt]
            · simp at hj
          · simp only [hij, if_false] at hj ⊢
            exact hdata j u hj
      · simp at hstep
  | release i =>
    simp only [WorkerSys.step] at hstep
    cases hi : s.workers[i]? with
    | none => simp [hi] at hstep
    | some w =>
      simp only [hi] at hstep
      split at hstep
      · rename_i hpc
        simp only [Option.some.injEq] at hstep
        subst hstep
        have hadd := countP_set_add Worker.inCS s.workers i w
          { iter := w.iter + 1, pc := WorkerPc.idle, last := w.last } hi
        have hw : Worker.inCS w = true := by simp [Worker.inCS, hpc]
        have hn : Worker.inCS { iter := w.iter + 1, pc := WorkerPc.idle, last := w.last } = false :=
          rfl
        rw [hw, hn] at hadd
        simp only [if_true, Bool.false_eq_true, if_false, Nat.add_zero] at hadd
        refine ⟨?_, by simpa using hlen, ?_⟩
        · rcases hmx with ⟨hc, hl⟩ | ⟨hc, hl⟩
          · omega
          · left
            refine ⟨?_, by simp [hl, hrel]⟩
            show List.countP Worker.inCS (s.workers.set i _) = 0
            omega
        · intro j u hj
          rw [List.getElem?_set] at hj
          by_cases hij : i = j
          · simp only [hij, if_true] at hj
            split at hj
            · simp only [Option.some.injEq] at hj
              subst hj
              subst hij
              exact hdata i w hi
            · simp at hj
          · simp only [hij, if_false] at hj
            exact hdata j u hj
      · simp at hstep

theorem WorkerSys.worker_inv_reachable {L : Type} (acq : L → Option L) (rel : L → L) (free held : L)
    (hfree : acq free = some held) (hheld : acq held = none) (hrel : rel held = free)
    (n : Nat) (sched : List WorkerOp) (s : WorkerSys L)
    (hrun : runSched (WorkerSys.step acq rel) (WorkerSys.init free n) sched = some s) :
    WorkerSys.Inv free held s :=
  runSched_invariant (WorkerSys.step acq rel) (WorkerSys.Inv free held)
    (fun s a s' h hs => WorkerSys.worker_inv_step acq rel free held hfree hheld hrel s a s' h hs)
    sched _ _ (WorkerSys.worker_inv_init free held n) hrun

theorem WorkerSys.exclusive {L : Type} (s : WorkerSys L)
    (h : s.workers.countP Worker.inCS ≤ 1) (i j : Nat) (wi wj : Worker) (hij : i ≠ j)
    (hi : s.workers[i]? = some wi) (hj : s.workers[j]? = some wj) :
    ¬ (wi.inCS = true ∧ wj.inCS = true) := by
  intro hboth
  have := two_le_countP Worker.inCS s.workers i j wi wj hi hj hij hboth.1 hboth.2
  omega

/-- C3: `Semaphore(1)` shared by `n` workers running the loop of
`semaphore_worker` (acquire; write own slot; release): in every reachable
state the number of workers between their acquire and their release plus
`count` is 1, so at most one worker is there and no two distinct workers are
there together; and every slot `data[i]` holds the character worker `i`
wrote last (no write is lost or overwritten by another worker). -/
theorem semaphore_worker_mutex (n : Nat) (sched : List WorkerOp) (s : WorkerSys Semaphore)
    (hrun : runSched semaphore_worker (WorkerSys.init (Semaphore.new 1) n) sched = some s) :
    (s.workers.countP Worker.inCS : Int) + s.lock.count = 1 ∧
    s.workers.countP Worker.inCS ≤ 1 ∧
    (∀ (i j : Nat) (wi wj : Worker), i ≠ j → s.workers[i]? = some wi →
      s.workers[j]? = some wj → ¬ (wi.inCS = true ∧ wj.inCS = true)) ∧
    (∀ (i : Nat) (w : Worker), s.workers[i]? = some w → s.data[i]? = some w.last) := by
  have hinv := WorkerSys.worker_inv_reachable Semaphore.acquire Semaphore.release
    (Semaphore.new 1) (Semaphore.new 0) (by decide) (by decide) (by decide) n sched s hrun
  obtain ⟨hmx, _, hdata⟩ := hinv
  have hle : s.workers.countP Worker.inCS ≤ 1 := by
    rcases hmx with h | h <;> omega
  refine ⟨?_, hle, fun i j wi wj hij hi hj => WorkerSys.exclusive s hle i j wi wj hij hi hj,
    hdata⟩
  rcases hmx with ⟨hc, hl⟩ | ⟨hc, hl⟩ <;> rw [hc, hl] <;> decide

/-- C3 witness: two workers; worker 0 completed one iteration (it wrote
`33 + 7 % 94 = 40`), then worker 1 acquired. -/
theorem semaphore_worker_mutex_witness :
    ((([{ iter := 1, pc := WorkerPc.idle, last := 40 },
        { iter := 0, pc := WorkerPc.locked, last := 32 }] : List Worker).countP
          Worker.inCS : Nat) : Int) + (Semaphore.new 0).count = 1 ∧
    ([{ iter := 1, pc := WorkerPc.idle, last := 40 },
      { iter := 0, pc := WorkerPc.locked, last := 32 }] : List Worker).countP Worker.inCS ≤ 1 ∧
    (∀ (i j : Nat) (wi wj : Worker), i ≠ j →
      ([{ iter := 1, pc := WorkerPc.idle, last := 40 },
        { iter := 0, pc := WorkerPc.locked, last := 32 }] : List Worker)[i]? = some wi →
      ([{ iter := 1, pc := WorkerPc.idle, last := 40 },
        { iter := 0, pc := WorkerPc.locked, last := 32 }] : List Worker)[j]? = some wj →
      ¬ (wi.inCS = true ∧ wj.inCS = true)) ∧
    (∀ (i : Nat) (w : Worker),
      ([{ iter := 1, pc := WorkerPc.idle, last := 40 },
        { iter := 0, pc := WorkerPc.locked, last := 32 }] : List Worker)[i]? = some w →
      ([40, 32] : List Nat)[i]? = some w.last) :=
  semaphore_worker_mutex 2
    [WorkerOp.acquire 0, WorkerOp.write 0 7, WorkerOp.release 0, WorkerOp.acquire 1]
    { lock := Semaphore.new 0, data := [40, 32],
      workers := [{ iter := 1, pc := WorkerPc.idle, last := 40 },
                  { iter := 0, pc := WorkerPc.locked, last := 32 }] }
    (by decide)

/-- C4: a fresh `Monitor` has `available == true`; `enter` completes only
from a state with `available == true` and sets it to `false`; `exit` sets it
to `true`; and for `n` threads running the loop of `monitor_worker`
(enter; write; exit), in every reachable state at most one thread is between
its `enter` and its `exit`, no two distinct threads are, and
`available == true` exactly when no thread is. -/
theorem monitor_worker_mutex (n : Nat) (sched : List WorkerOp) (s : WorkerSys Monitor)
    (hrun : runSched monitor_worker (WorkerSys.init Monitor.new n) sched = some s) :
    Monitor.new.available = true ∧
    (∀ m m1 : Monitor, m.enter = some m1 → m.available = true ∧ m1.available = false) ∧
    (∀ m : Monitor, m.available = false → m.enter = none) ∧
    (∀ m : Monitor, m.exit.available = true) ∧
    s.workers.countP Worker.inCS ≤ 1 ∧
    (∀ (i j : Nat) (wi wj : Worker), i ≠ j → s.workers[i]? = some wi →
      s.workers[j]? = some wj → ¬ (wi.inCS = true ∧ wj.inCS = true)) ∧
    (s.lock.available = true ↔ s.workers.countP Worker.inCS = 0) := by
  have hinv := WorkerSys.worker_inv_reachable Monitor.enter Monitor.exit
    Monitor.new { available := false } (by decide) (by decide) (by decide) n sched s hrun
  obtain ⟨hmx, _, _⟩ := hinv
  have hle : s.workers.countP Worker.inCS ≤ 1 := by
    rcases hmx with h | h <;> omega
  refine ⟨rfl, ?_, ?_, fun _ => rfl, hle,
    fun i j wi wj hij hi hj => WorkerSys.exclusive s hle i j wi wj hij hi hj, ?_⟩
  · intro m m1 h
    simp only [Monitor.enter] at h
    split at h
    · rename_i ha
      simp only [Option.some.injEq] at h
      exact ⟨ha, by rw [← h]⟩
    · simp at h
  · intro m h
    simp [Monitor.enter, h]
  · rcases hmx with ⟨hc, hl⟩ | ⟨hc, hl⟩ <;> rw [hc, hl] <;> decide

/-- C4 witness: two threads; thread 0 went through the gate once, then
thread 1 entered. -/
theorem monitor_worker_mutex_witness :
    Monitor.new.available = true ∧
    (∀ m m1 : Monitor, m.enter = some m1 → m.available = true ∧ m1.available = false) ∧
    (∀ m : Monitor, m.available = false → m.enter = none) ∧
    (∀ m : Monitor, m.exit.available = true) ∧
    ([{ iter := 1, pc := WorkerPc.idle, last := 40 },
      { iter := 0, pc := WorkerPc.locked, last := 32 }] : List Worker).countP Worker.inCS ≤ 1 ∧
    (∀ (i j : Nat) (wi wj : Worker), i ≠ j →
      ([{ iter := 1, pc := WorkerPc.idle, last := 40 },
        { iter := 0, pc := WorkerPc.locked, last := 32 }] : List Worker)[i]? = some wi →
      ([{ iter := 1, pc := WorkerPc.idle, last := 40 },
        { iter := 0, pc := WorkerPc.locked, last := 32 }] : List Worker)[j]? = some wj →
      ¬ (wi.inCS = true ∧ wj.inCS = true)) ∧
    (({ available := false } : Monitor).available = true ↔
      ([{ iter := 1, pc := WorkerPc.idle, last := 40 },
        { iter := 0, pc := WorkerPc.locked, last := 32 }] : List Worker).countP
          Worker.inCS = 0) :=
  monitor_worker_mutex 2
    [WorkerOp.acquire 0, WorkerOp.write 0 7, WorkerOp.release 0, WorkerOp.acquire 1]
    { lock := { available := false }, data := [40, 32],
      workers := [{ iter := 1, pc := WorkerPc.idle, last := 40 },
                  { iter := 0, pc := WorkerPc.locked, last := 32 }] }
    (by decide)

/-! ## Spin lock -/

theorem spinlock_worker_step (s : WorkerSys Spinlock) (a : WorkerOp) (s' : WorkerSys Spinlock)
    (h : spinlock_worker s a = some s') :
    s' = s ∨ WorkerSys.step Spinlock.lock_step Spinlock.unlock s a = some s' := by
  cases a with
  | write i r => exact Or.inr h
  | release i => exact Or.inr h
  | acquire i =>
    simp only [spinlock_worker] at h
    simp only [WorkerSys.step]
    cases hi : s.workers[i]? with
    | none => simp [hi] at h
    | some w =>
      simp only [hi] at h ⊢
      split at h
      · rename_i hpc
        simp only [hpc, and_self, if_true]
        cases hf : s.lock.flag with
        | true =>
          left
          simp only [Spinlock.spin, test_and_set, hf, Option.some.injEq] at h
          rw [← h]
          cases s with
          | mk lock data workers =>
            cases lock with
            | mk flag =>
              simp only at hf
              simp [hf]
        | false =>
          right
          simp only [Spinlock.spin, test_and_set, hf] at h
          simp only [Spinlock.lock_step, Spinlock.spin, test_and_set, hf]
          exact h
      · simp at h

theorem Spinlock.lock_spins (fuel : Nat) : ∀ sp : Spinlock, sp.flag = true →
    Spinlock.lock fuel sp = none := by
  induction fuel with
  | zero => intro sp _; rfl
  | succ k ih =>
    intro sp h
    simp only [Spinlock.lock, Spinlock.spin, test_and_set, h]
    exact ih _ rfl

/-- C5: with the flag a boolean and `test_and_set` returning the previous
value, `Spinlock::lock` returns only when started on an unset flag, i.e. on a
`test_and_set` that observed the flag unset, and leaves it set (and from an
unset flag it does return); `unlock` clears the flag; and for `n` threads
running the loop of `spinlock_worker` (spin until taken; write; clear), in
every reachable state at most one thread is between lock and unlock, no two
distinct threads are, and the flag is set exactly when one is. -/
theorem spinlock_worker_mutex (n : Nat) (sched : List WorkerOp) (s : WorkerSys Spinlock)
    (hrun : runSched spinlock_worker (WorkerSys.init Spinlock.new n) sched = some s) :
    (∀ sp sp1 : Spinlock, sp.spin = (sp1, false) → sp.flag = false ∧ sp1.flag = true) ∧
    (∀ (fuel : Nat) (sp sp1 : Spinlock), Spinlock.lock fuel sp = some sp1 →
      sp.flag = false ∧ sp1.flag = true) ∧
    (∀ (fuel : Nat) (sp : Spinlock), sp.flag = false →
      Spinlock.lock (fuel + 1) sp = some { flag := true }) ∧
    (∀ sp : Spinlock, sp.unlock.flag = false) ∧
    s.workers.countP Worker.inCS ≤ 1 ∧
    (∀ (i j : Nat) (wi wj : Worker), i ≠ j → s.workers[i]? = some wi →
      s.workers[j]? = some wj → ¬ (wi.inCS = true ∧ wj.inCS = true)) ∧
    (s.lock.flag = true ↔ s.workers.countP Worker.inCS = 1) := by
  have hinv : WorkerSys.Inv Spinlock.new { flag := true } s :=
    runSched_invariant spinlock_worker (WorkerSys.Inv Spinlock.new { flag := true })
      (fun s a s' h hs => by
        rcases spinlock_worker_step s a s' hs with heq | hstep
        · rw [heq]; exact h
        · exact WorkerSys.worker_inv_step Spinlock.lock_step Spinlock.unlock Spinlock.new
            { flag := true } (by decide) (by decide) (by decide) s a s' h hstep)
      sched _ _ (WorkerSys.worker_inv_init Spinlock.new { flag := true } n) hrun
  obtain ⟨hmx, _, _⟩ := hinv
  have hle : s.workers.countP Worker.inCS ≤ 1 := by
    rcases hmx with h | h <;> omega
  have hspin : ∀ sp sp1 : Spinlock, sp.spin = (sp1, false) →
      sp.flag = false ∧ sp1.flag = true := by
    intro sp sp1 h
    simp only [Spinlock.spin, test_and_set, Prod.mk.injEq] at h
    exact ⟨h.2, by rw [← h.1]⟩
  refine ⟨hspin, ?_, ?_, fun _ => rfl, hle,
    fun i j wi wj hij hi hj => WorkerSys.exclusive s hle i j wi wj hij hi hj, ?_⟩
  · intro fuel sp sp1 h
    cases hf : sp.flag with
    | true => rw [Spinlock.lock_spins fuel sp hf] at h; simp at h
    | false =>
      refine ⟨rfl, ?_⟩
      cases fuel with
      | zero => simp [Spinlock.lock] at h
      | succ k =>
        simp only [Spinlock.lock, Spinlock.spin, test_and_set, hf, Option.some.injEq] at h
        rw [← h]
  · intro fuel sp hf
    simp only [Spinlock.lock, Spinlock.spin, test_and_set, hf]
  · rcases hmx with ⟨hc, hl⟩ | ⟨hc, hl⟩ <;> rw [hc, hl] <;> decide

/-- C5 witness: two threads; thread 0 took the lock, thread 1 spun once on
the set flag, thread 0 wrote and unlocked, then thread 1 took the lock. -/
theorem spinlock_worker_mutex_witness :
    (∀ sp sp1 : Spinlock, sp.spin = (sp1, false) → sp.flag = false ∧ sp1.flag = true) ∧
    (∀ (fuel : Nat) (sp sp1 : Spinlock), Spinlock.lock fuel sp = some sp1 →
      sp.flag = false ∧ sp1.flag = true) ∧
    (∀ (fuel : Nat) (sp : Spinlock), sp.flag = false →
      Spinlock.lock (fuel + 1) sp = some { flag := true }) ∧
    (∀ sp : Spinlock, sp.unlock.flag = false) ∧
    ([{ iter := 1, pc := WorkerPc.idle, last := 40 },
      { iter := 0, pc := WorkerPc.locked, last := 32 }] : List Worker).countP Worker.inCS ≤ 1 ∧
    (∀ (i j : Nat) (wi wj : Worker), i ≠ j →
      ([{ iter := 1, pc := WorkerPc.idle, last := 40 },
        { iter := 0, pc := WorkerPc.locked, last := 32 }] : List Worker)[i]? = some wi →
      ([{ iter := 1, pc := WorkerPc.idle, last := 40 },
        { iter := 0, pc := WorkerPc.locked, last := 32 }] : List Worker)[j]? = some wj →
      ¬ (wi.inCS = true ∧ wj.inCS = true)) ∧
    (({ flag := true } : Spinlock).flag = true ↔
      ([{ iter := 1, pc := WorkerPc.idle, last := 40 },
        { iter := 0, pc := WorkerPc.locked, last := 32 }] : List Worker).countP
          Worker.inCS = 1) :=
  spinlock_worker_mutex 2
    [WorkerOp.acquire 0, WorkerOp.acquire 1, WorkerOp.write 0 7, WorkerOp.release 0,
      WorkerOp.acquire 1]
    { lock := { flag := true }, data := [40, 32],
      workers := [{ iter := 1, pc := WorkerPc.idle, last := 40 },
                  { iter := 0, pc := WorkerPc.locked, last := 32 }] }
    (by decide)

/-! ## Barrier: reuse across generations -/

theorem Barrier.after_add (a : Nat) : ∀ (k : Nat) (b : Barrier),
    Barrier.after (a + k) b = Barrier.after k (Barrier.after a b) := by
  induction a with
  | zero => intro k b; simp [Barrier.after]
  | succ a ih =>
    intro k b
    rw [Nat.add_right_comm]
    simp only [Barrier.after]
    exact ih k _

theorem Barrier.after_succ (k : Nat) (b : Barrier) :
    Barrier.after (k + 1) b = (Barrier.after k b).arrive_and_wait.1 := by
  rw [Barrier.after_add k 1 b]
  rfl

theorem Barrier.after_lt (total g : Int) (j : Nat) : ∀ c : Int, (j : Int) < c → c ≤ INT_MAX →
    Barrier.after j { count := c, generation := g, total := total }
      = { count := c - j, generation := g, total := total } := by
  induction j with
  | zero => intro c _ _; simp [Barrier.after]
  | succ j ih =>
    intro c hc hmax
    simp only [INT_MAX] at hmax
    have hw : wrapInt (c - 1) = c - 1 := wrapInt_eq_self (by omega) (by omega)
    have hne : ¬ (c - 1 = 0) := by omega
    simp only [Barrier.after, Barrier.arrive_and_wait, hw, hne, if_false]
    rw [ih (c - 1) (by omega) (by simp only [INT_MAX]; omega)]
    congr 1
    push_cast
    omega

theorem Barrier.after_total (total g : Int) (hpos : 0 < total) (hmax : total ≤ INT_MAX) :
    Barrier.after total.toNat { count := total, generation := g, total := total }
      = { count := total, generation := wrapInt (g + 1), total := total } := by
  obtain ⟨k, hk⟩ : ∃ k : Nat, total.toNat = k + 1 := ⟨total.toNat - 1, by omega⟩
  rw [hk, Barrier.after_succ, Barrier.after_lt total g k total (by omega) hmax]
  have hw : wrapInt (total - k - 1) = 0 := by
    have : total - k - 1 = 0 := by omega
    rw [this]; rfl
  simp only [Barrier.arrive_and_wait, hw, if_true]

theorem Barrier.after_generations (total : Int) (hpos : 0 < total) (hmax : total ≤ INT_MAX)
    (m : Nat) :
    Barrier.after (m * total.toNat) (Barrier.new total)
      = { count := total, generation := wrapInt m, total := total } := by
  induction m with
  | zero => simp [Barrier.after, Barrier.new, wrapInt]
  | succ m ih =>
    rw [Nat.succ_mul, Barrier.after_add, ih, Barrier.after_total total _ hpos hmax,
      wrapInt_succ]
    simp

theorem wrapInt_ne_succ (x : Int) : wrapInt x ≠ wrapInt (x + 1) := by
  unfold wrapInt
  omega

theorem sum_map_set {α : Type} (f : α → Nat) (l : List α) : ∀ (i : Nat) (t a : α),
    l[i]? = some t → ((l.set i a).map f).sum + f t = (l.map f).sum + f a := by
  induction l with
  | nil => intro i t a h; simp at h
  | cons x xs ih =>
    intro i t a h
    cases i with
    | zero =>
      simp only [List.getElem?_cons_zero, Option.some.injEq] at h
      subst h
      simp only [List.set_cons_zero, List.map_cons, List.sum_cons]
      omega
    | succ i =>
      simp only [List.getElem?_cons_succ] at h
      have := ih i t a h
      simp only [List.set_cons_succ, List.map_cons, List.sum_cons]
      omega

theorem BarrierSys.barrier_eq_after (total : Int) (sched : List BarrierOp) (s : BarrierSys)
    (hrun : runSched BarrierSys.step (BarrierSys.init total) sched = some s) :
    s.barrier = Barrier.after s.arrivals (Barrier.new total) := by
  refine runSched_invariant BarrierSys.step
    (fun s => s.barrier = Barrier.after s.arrivals (Barrier.new total)) ?_
    sched _ _ ?_ hrun
  · intro s a s' hinv hstep
    simp only at hinv ⊢
    cases a with
    | arrive i =>
      simp only [BarrierSys.step] at hstep
      cases hi : s.threads[i]? with
      | none => simp [hi] at hstep
      | some t =>
        simp only [hi] at hstep
        cases hw : t.waiting with
        | some g => simp [hw] at hstep
        | none =>
          simp only [hw] at hstep
          have harr : t.arrivals = t.calls := by simp [BarrierThread.arrivals, hw]
          cases hres : s.barrier.arrive_and_wait with
          | mk b w =>
            have hb : b = s.barrier.arrive_and_wait.1 := by rw [hres]
            cases w with
            | none =>
              simp only [hres, Option.some.injEq] at hstep
              subst hstep
              have hsum := sum_map_set BarrierThread.arrivals s.threads i t
                { calls := t.calls + 1, waiting := none } hi
              have hnew : BarrierThread.arrivals { calls := t.calls + 1, waiting := none }
                  = t.calls + 1 := by simp [BarrierThread.arrivals]
              have : BarrierSys.arrivals { barrier := b, threads := (s.threads.set i
                  { calls := t.calls + 1, waiting := none }) } = s.arrivals + 1 := by
                simp only [BarrierSys.arrivals]
                omega
              rw [this, Barrier.after_succ, ← hinv, hb]
            | some g =>
              simp only [hres, Option.some.injEq] at hstep
              subst hstep
              have hsum := sum_map_set BarrierThread.arrivals s.threads i t
                { calls := t.calls, waiting := some g } hi
              have hnew : BarrierThread.arrivals { calls := t.calls, waiting := some g }
                  = t.calls + 1 := by simp [BarrierThread.arrivals]
              have : BarrierSys.arrivals { barrier := b, threads := (s.threads.set i
                  { calls := t.calls, waiting := some g }) } = s.arrivals + 1 := by
                simp only [BarrierSys.arrivals]
                omega
              rw [this, Barrier.after_succ, ← hinv, hb]
    | wake i =>
      simp only [BarrierSys.step] at hstep
      cases hi : s.threads[i]? with
      | none => simp [hi] at hstep
      | some t =>
        simp only [hi] at hstep
        cases hw : t.waiting with
        | none => simp [hw] at hstep
        | some g =>
          simp only [hw] at hstep
          split at hstep
          · simp only [Option.some.injEq] at hstep
            subst hstep
            have harr : t.arrivals = t.calls + 1 := by simp [BarrierThread.arrivals, hw]
            have hsum := sum_map_set BarrierThread.arrivals s.threads i t
              { calls := t.calls + 1, waiting := none } hi
            have hnew : BarrierThread.arrivals { calls := t.calls + 1, waiting := none }
                = t.calls + 1 := by simp [BarrierThread.arrivals]
            have : BarrierSys.arrivals { barrier := s.barrier, threads := (s.threads.set i
                { calls := t.calls + 1, waiting := none }) } = s.arrivals := by
              simp only [BarrierSys.arrivals]
              omega
            rw [this]
            exact hinv
          · simp at hstep
  · simp [BarrierSys.init, BarrierSys.arrivals, Barrier.after, BarrierThread.arrivals]

theorem BarrierSys.waiters_released (total : Int) (s : BarrierSys)
    (hinv : BarrierSys.Inv total s) (hcount : s.barrier.count = total) :
    ∀ t ∈ s.threads, ∀ g : Int, t.waiting = some g → s.barrier.wait_pred g = true := by
  obtain ⟨G, hgen, _, _, hth, hcnt⟩ := hinv
  have hzero : s.threads.countP (BarrierThread.arrivedNow G) = 0 := by omega
  rw [List.countP_eq_zero] at hzero
  intro t ht g hg
  obtain ⟨i, hi⟩ := List.mem_iff_getElem?.mp ht
  have hnot := hzero t ht
  simp only [BarrierThread.arrivedNow, hg, Option.isSome_some, Bool.true_and, beq_iff_eq]
    at hnot
  rcases hth i t hi with h | h
  · rw [hg] at h; exact absurd h.1 (by simp)
  · have hcalls : t.calls + 1 = G := by
      rcases h.2 with h2 | h2
      · exact absurd h2 hnot
      · exact h2
    have hgv : g = wrapInt t.calls := by
      have := h.1
      rw [hg] at this
      simpa using this
    simp only [Barrier.wait_pred, decide_eq_true_eq, hgen, hgv, ← hcalls]
    push_cast
    exact wrapInt_ne_succ _

/-- C6: for `0 < total` (an `int`) and every number `m` of completed
generations, a `Barrier(total)` that has taken `m * total` arrivals is in the
state of a fresh `Barrier(total)` except for `generation` (which is `m` as an
`int`); for each of the next `total` arrivals the state is that of a fresh
barrier after as many arrivals, except for `generation`, and the arrival
blocks or releases as on a fresh barrier: the first `total - 1` block, the
last one releases.  In the system of `total` threads the barrier is always
the fresh barrier after the arrivals performed so far, and whenever their
number is `m * total`, `count == total` and every thread still inside
`cv.wait` has its predicate true (no arrived thread remains blocked). -/
theorem Barrier.reusable (total : Int) (hpos : 0 < total) (hmax : total ≤ INT_MAX) (m : Nat) :
    Barrier.after (m * total.toNat) (Barrier.new total)
      = { count := total, generation := wrapInt m, total := total } ∧
    (∀ j : Nat, j < total.toNat →
      Barrier.after (m * total.toNat + j) (Barrier.new total)
        = { Barrier.after j (Barrier.new total) with generation := wrapInt m } ∧
      (Barrier.after (m * total.toNat + j) (Barrier.new total)).blocks
        = (Barrier.after j (Barrier.new total)).blocks ∧
      (Barrier.after j (Barrier.new total)).blocks = decide (j + 1 < total.toNat)) ∧
    (∀ (sched : List BarrierOp) (s : BarrierSys),
      runSched BarrierSys.step (BarrierSys.init total) sched = some s →
      s.barrier = Barrier.after s.arrivals (Barrier.new total) ∧
      (s.arrivals = m * total.toNat →
        s.barrier.count = total ∧
        ∀ t ∈ s.threads, ∀ g : Int, t.waiting = some g → s.barrier.wait_pred g = true)) := by
  have hA := Barrier.after_generations total hpos hmax m
  refine ⟨hA, ?_, ?_⟩
  · intro j hj
    have h1 : Barrier.after (m * total.toNat + j) (Barrier.new total)
        = { count := total - j, generation := wrapInt m, total := total } := by
      rw [Barrier.after_add, hA, Barrier.after_lt total _ j total (by omega) hmax]
    have h2 : Barrier.after j (Barrier.new total)
        = { count := total - j, generation := 0, total := total } := by
      simp only [Barrier.new]
      rw [Barrier.after_lt total _ j total (by omega) hmax]
    have hw : wrapInt (total - j - 1) = total - j - 1 :=
      wrapInt_eq_self (by omega) (by simp only [INT_MAX] at hmax; omega)
    refine ⟨by rw [h1, h2], ?_, ?_⟩
    · rw [h1, h2]
      simp only [Barrier.blocks, Barrier.arrive_and_wait, hw]
      by_cases hz : total - (j : Int) - 1 = 0
      · simp only [hz, if_true, Option.isSome_none]
      · simp only [hz, if_false, Option.isSome_some]
    · rw [h2]
      simp only [Barrier.blocks, Barrier.arrive_and_wait, hw]
      by_cases hz : total - (j : Int) - 1 = 0
      · simp only [hz, if_true, Option.isSome_none]
        symm
        rw [decide_eq_false_iff_not]
        omega
      · simp only [hz, if_false, Option.isSome_some]
        symm
        rw [decide_eq_true_eq]
        omega
  · intro sched s hrun
    have hB := BarrierSys.barrier_eq_after total sched s hrun
    refine ⟨hB, ?_⟩
    intro harr
    have hcount : s.barrier.count = total := by
      rw [hB, harr, hA]
    exact ⟨hcount, BarrierSys.waiters_released total s
      (BarrierSys.barrier_inv_reachable total hpos hmax sched s hrun) hcount⟩

/-- C6 witness: `Barrier(2)` after one completed generation. -/
theorem Barrier.reusable_witness :
    Barrier.after (1 * (2 : Int).toNat) (Barrier.new 2)
      = { count := 2, generation := wrapInt (1 : Nat), total := 2 } ∧
    (∀ j : Nat, j < (2 : Int).toNat →
      Barrier.after (1 * (2 : Int).toNat + j) (Barrier.new 2)
        = { Barrier.after j (Barrier.new 2) with generation := wrapInt (1 : Nat) } ∧
      (Barrier.after (1 * (2 : Int).toNat + j) (Barrier.new 2)).blocks
        = (Barrier.after j (Barrier.new 2)).blocks ∧
      (Barrier.after j (Barrier.new 2)).blocks = decide (j + 1 < (2 : Int).toNat)) ∧
    (∀ (sched : List BarrierOp) (s : BarrierSys),
      runSched BarrierSys.step (BarrierSys.init 2) sched = some s →
      s.barrier = Barrier.after s.arrivals (Barrier.new 2) ∧
      (s.arrivals = 1 * (2 : Int).toNat →
        s.barrier.count = 2 ∧
        ∀ t ∈ s.threads, ∀ g : Int, t.waiting = some g → s.barrier.wait_pred g = true)) :=
  Barrier.reusable 2 (by decide) (by decide) 1

/-! ## Dining philosophers: the ring of forks -/

/-- C7: the loop of `runPhilosophersTest` (and of the demonstration in
`main`) gives philosopher `i`, for `i` in 0..4, left fork `forks[i]` and
right fork `forks[(i + 1) % 5]`; so every fork `k` in 0..4 is referenced by
exactly two philosophers, `k` as its left fork and `(k - 1) mod 5` as its
right fork, which are neighbours in the ring, and no philosopher has the same
fork on both sides. -/
theorem fork_ring_wiring :
    (∀ i : Fin NUM_PHILOSOPHERS,
      (makePhilosophers NUM_PHILOSOPHERS)[i.val]? =
        some { id := i.val, leftFork := i.val, rightFork := (i.val + 1) % 5,
               mealsEaten := 0, pc := Pc.loopHead }) ∧
    (makePhilosophers NUM_PHILOSOPHERS).length = 5 ∧
    (∀ k : Fin NUM_PHILOSOPHERS, ∀ p ∈ makePhilosophers NUM_PHILOSOPHERS,
      (p.leftFork = k.val ↔ p.id = k.val) ∧
      (p.rightFork = k.val ↔ p.id = (k.val + 4) % 5)) ∧
    (∀ k : Fin NUM_PHILOSOPHERS,
      (makePhilosophers NUM_PHILOSOPHERS).countP
        (fun p => decide (p.leftFork = k.val ∨ p.rightFork = k.val)) = 2 ∧
      ((k.val + 4) % 5 + 1) % 5 = k.val ∧ (k.val + 4) % 5 ≠ k.val) ∧
    (∀ p ∈ makePhilosophers NUM_PHILOSOPHERS, p.leftFork ≠ p.rightFork) := by
  decide

/-! ## Strategy 1: the circular wait -/

/-- State of strategy 1 in which every philosopher holds its left fork and
is about to lock its right fork. -/
theorem deadlockRisk_stuck_of_eq (t : Table)
    (hf : t.forks = [some 0, some 1, some 2, some 3, some 4])
    (hp : t.philosophers =
      [{ id := 0, leftFork := 0, rightFork := 1, mealsEaten := 0, pc := Pc.lockRight },
       { id := 1, leftFork := 1, rightFork := 2, mealsEaten := 0, pc := Pc.lockRight },
       { id := 2, leftFork := 2, rightFork := 3, mealsEaten := 0, pc := Pc.lockRight },
       { id := 3, leftFork := 3, rightFork := 4, mealsEaten := 0, pc := Pc.lockRight },
       { id := 4, leftFork := 4, rightFork := 0, mealsEaten := 0, pc := Pc.lockRight }]) :
    ∀ i : Nat, Table.step Philosopher.dineWithDeadlockRisk t (TableOp.run i) = none := by
  intro i
  simp only [Table.step, hp]
  by_cases hi : i < 5
  · interval_cases i <;>
      simp [Philosopher.dineWithDeadlockRisk, Table.lockFork, hf]
  · rw [List.getElem?_eq_none (by simp; omega)]

/-- C9: strategy 1 can deadlock.  The schedule in which each of the five
philosophers thinks and takes its left fork reaches a state where every
philosopher `i` holds `forks[i]` and is at `rightFork.lock()` with that fork
held by its neighbour; in that state, and in every state reachable from it
(only `stopFlag` can still change), no philosopher can take a step, so none
reads the stop flag and none terminates. -/
theorem deadlockRisk_can_deadlock :
    ∃ (sched : List TableOp) (t : Table),
      runSched (Table.step Philosopher.dineWithDeadlockRisk) (Table.init NUM_PHILOSOPHERS) sched
        = some t ∧
      (∀ i : Fin NUM_PHILOSOPHERS,
        t.forks[i.val]? = some (some i.val) ∧
        (t.philosophers[i.val]?.map fun p => (p.leftFork, p.rightFork, p.pc))
          = some (i.val, (i.val + 1) % 5, Pc.lockRight) ∧
        t.forks[(i.val + 1) % 5]? = some (some ((i.val + 1) % 5))) ∧
      ∀ (later : List TableOp) (u : Table),
        runSched (Table.step Philosopher.dineWithDeadlockRisk) t later = some u →
        u.forks = t.forks ∧ u.philosophers = t.philosophers ∧
        ∀ i : Nat, Table.step Philosopher.dineWithDeadlockRisk u (TableOp.run i) = none := by
  refine ⟨[TableOp.run 0, TableOp.run 0, TableOp.run 0, TableOp.run 1, TableOp.run 1,
    TableOp.run 1, TableOp.run 2, TableOp.run 2, TableOp.run 2, TableOp.run 3, TableOp.run 3,
    TableOp.run 3, TableOp.run 4, TableOp.run 4, TableOp.run 4],
    { forks := [some 0, some 1, some 2, some 3, some 4], tableMutex := none,
      stopFlag := false, eatingCount := 0,
      philosophers :=
        [{ id := 0, leftFork := 0, rightFork := 1, mealsEaten := 0, pc := Pc.lockRight },
         { id := 1, leftFork := 1, rightFork := 2, mealsEaten := 0, pc := Pc.lockRight },
         { id := 2, leftFork := 2, rightFork := 3, mealsEaten := 0, pc := Pc.lockRight },
         { id := 3, leftFork := 3, rightFork := 4, mealsEaten := 0, pc := Pc.lockRight },
         { id := 4, leftFork := 4, rightFork := 0, mealsEaten := 0, pc := Pc.lockRight }] },
    by decide, by decide, ?_⟩
  intro later u hrun
  have hinv := runSched_invariant (Table.step Philosopher.dineWithDeadlockRisk)
    (fun u => u.forks = [some 0, some 1, some 2, some 3, some 4] ∧ u.philosophers =
      [{ id := 0, leftFork := 0, rightFork := 1, mealsEaten := 0, pc := Pc.lockRight },
       { id := 1, leftFork := 1, rightFork := 2, mealsEaten := 0, pc := Pc.lockRight },
       { id := 2, leftFork := 2, rightFork := 3, mealsEaten := 0, pc := Pc.lockRight },
       { id := 3, leftFork := 3, rightFork := 4, mealsEaten := 0, pc := Pc.lockRight },
       { id := 4, leftFork := 4, rightFork := 0, mealsEaten := 0, pc := Pc.lockRight }])
    (by
      intro s a s' hs hstep
      cases a with
      | stop =>
        simp only [Table.step, Option.some.injEq] at hstep
        subst hstep
        exact hs
      | run i =>
        rw [deadlockRisk_stuck_of_eq s hs.1 hs.2 i] at hstep
        simp at hstep)
    later _ _ ⟨rfl, rfl⟩ hrun
  exact ⟨hinv.1, hinv.2, deadlockRisk_stuck_of_eq u hinv.1 hinv.2⟩

/-! ## Dining philosophers: forks and statements -/

theorem succ_mod_ne (n i : Nat) (hn : 2 ≤ n) (hi : i < n) : (i + 1) % n ≠ i := by
  by_cases h : i + 1 < n
  · rw [Nat.mod_eq_of_lt h]; omega
  · have : i + 1 = n := by omega
    rw [this, Nat.mod_self]; omega

theorem ForksInv.update_pc (n : Nat) (hl hr : Philosopher → Bool)
    (F : List (Option Nat)) (P : List Philosopher) (i : Nat) (p q : Philosopher)
    (hinv : ForksInv n hl hr F P) (hp : P[i]? = some p)
    (hid : q.id = p.id) (hleft : q.leftFork = p.leftFork) (hright : q.rightFork = p.rightFork)
    (hhl : hl q = hl p) (hhr : hr q = hr p) :
    ForksInv n hl hr F (P.set i q) := by
  obtain ⟨hF, hP, hph, hown⟩ := hinv
  refine ⟨hF, by simpa using hP, ?_, hown⟩
  intro j u hj
  rw [List.getElem?_set] at hj
  by_cases hij : i = j
  · simp only [hij, if_true] at hj
    split at hj
    · simp only [Option.some.injEq] at hj
      subst hj
      subst hij
      have := hph i p hp
      rw [hid, hleft, hright, hhl, hhr]
      exact this
    · simp at hj
  · simp only [hij, if_false] at hj
    exact hph j u hj

theorem ForksInv.update_left (n : Nat) (hn : 2 ≤ n) (hl hr : Philosopher → Bool)
    (F : List (Option Nat)) (P : List Philosopher) (i : Nat) (p q : Philosopher)
    (b : Option Nat)
    (hinv : ForksInv n hl hr F P) (hp : P[i]? = some p)
    (hb : (b = some i ∧ F[i]? = some none) ∨ (b = none ∧ F[i]? = some (some i)))
    (hid : q.id = p.id) (hleft : q.leftFork = p.leftFork) (hright : q.rightFork = p.rightFork)
    (hhl : hl q = true ↔ b = some i) (hhr : hr q = hr p) :
    ForksInv n hl hr (F.set i b) (P.set i q) := by
  obtain ⟨hF, hP, hph, hown⟩ := hinv
  have hi : i < n := by
    have := (List.getElem?_eq_some.mp hp).1
    omega
  have hne := succ_mod_ne n i hn hi
  refine ⟨by simpa using hF, by simpa using hP, ?_, ?_⟩
  · intro j u hj
    rw [List.getElem?_set] at hj
    by_cases hij : i = j
    · simp only [hij, if_true] at hj
      split at hj
      · simp only [Option.some.injEq] at hj
        subst hj
        subst hij
        obtain ⟨h1, h2, h3, _, h5⟩ := hph i p hp
        refine ⟨by rw [hleft]; exact h1, by rw [hright]; exact h2, by rw [hid]; exact h3, ?_, ?_⟩
        · rw [List.getElem?_set_self (by omega), hhl]
          simp
        · rw [List.getElem?_set_ne (Ne.symm hne), hhr]
          exact h5
      · simp at hj
    · simp only [hij, if_false] at hj
      obtain ⟨h1, h2, h3, h4, h5⟩ := hph j u hj
      refine ⟨h1, h2, h3, ?_, ?_⟩
      · rw [List.getElem?_set_ne hij]
        exact h4
      · by_cases hk : (j + 1) % n = i
        · rw [hk] at h5 ⊢
          rw [List.getElem?_set_self (by omega)]
          rw [← h5]
          rcases hb with ⟨hb1, hb2⟩ | ⟨hb1, hb2⟩
          · rw [hb1, hb2]
            simp only [Option.some.injEq, reduceCtorEq, iff_false]
            exact hij
          · rw [hb1, hb2]
            simp only [Option.some.injEq, reduceCtorEq, false_iff]
            exact hij
        · rw [List.getElem?_set_ne (Ne.symm hk)]
          exact h5
  · intro k h hk
    by_cases hki : i = k
    · subst hki
      rw [List.getElem?_set_self (by omega)] at hk
      simp only [Option.some.injEq] at hk
      rcases hb with ⟨hb1, _⟩ | ⟨hb1, _⟩
      · rw [hb1] at hk
        simp only [Option.some.injEq] at hk
        subst hk
        exact ⟨hi, Or.inl rfl⟩
      · rw [hb1] at hk
        simp at hk
    · rw [List.getElem?_set_ne hki] at hk
      exact hown k h hk

theorem ForksInv.update_right (n : Nat) (hn : 2 ≤ n) (hl hr : Philosopher → Bool)
    (F : List (Option Nat)) (P : List Philosopher) (i : Nat) (p q : Philosopher)
    (b : Option Nat)
    (hinv : ForksInv n hl hr F P) (hp : P[i]? = some p)
    (hb : (b = some i ∧ F[(i + 1) % n]? = some none) ∨
      (b = none ∧ F[(i + 1) % n]? = some (some i)))
    (hid : q.id = p.id) (hleft : q.leftFork = p.leftFork) (hright : q.rightFork = p.rightFork)
    (hhl : hl q = hl p) (hhr : hr q = true ↔ b = some i) :
    ForksInv n hl hr (F.set ((i + 1) % n) b) (P.set i q) := by
  obtain ⟨hF, hP, hph, hown⟩ := hinv
  have hi : i < n := by
    have := (List.getElem?_eq_some.mp hp).1
    omega
  have hne := succ_mod_ne n i hn hi
  have hlt : (i + 1) % n < n := Nat.mod_lt _ (by omega)
  refine ⟨by simpa using hF, by simpa using hP, ?_, ?_⟩
  · intro j u hj
    rw [List.getElem?_set] at hj
    by_cases hij : i = j
    · simp only [hij, if_true] at hj
      split at hj
      · simp only [Option.some.injEq] at hj
        subst hj
        subst hij
        obtain ⟨h1, h2, h3, h4, _⟩ := hph i p hp
        refine ⟨by rw [hleft]; exact h1, by rw [hright]; exact h2, by rw [hid]; exact h3, ?_, ?_⟩
        · rw [List.getElem?_set_ne hne, hhl]
          exact h4
        · rw [List.getElem?_set_self (by omega), hhr]
          simp
      · simp at hj
    · simp only [hij, if_false] at hj
      obtain ⟨h1, h2, h3, h4, h5⟩ := hph j u hj
      have hcase : ∀ m : Nat, (m = (i + 1) % n →
          ((F.set ((i + 1) % n) b)[m]? = some (some j) ↔ F[m]? = some (some j))) := by
        intro m hm
        rw [hm, List.getElem?_set_self (by omega)]
        rcases hb with ⟨hb1, hb2⟩ | ⟨hb1, hb2⟩
        · rw [hb1, hb2]
          simp only [Option.some.injEq, reduceCtorEq, iff_false]
          exact hij
        · rw [hb1, hb2]
          simp only [Option.some.injEq, reduceCtorEq, false_iff]
          exact hij
      refine ⟨h1, h2, h3, ?_, ?_⟩
      · by_cases hk : j = (i + 1) % n
        · rw [hcase j hk]; exact h4
        · rw [List.getElem?_set_ne (Ne.symm hk)]; exact h4
      · by_cases hk : (j + 1) % n = (i + 1) % n
        · rw [hcase _ hk]; exact h5
        · rw [List.getElem?_set_ne (Ne.symm hk)]; exact h5
  · intro k h hk
    by_cases hki : (i + 1) % n = k
    · subst hki
      rw [List.getElem?_set_self (by omega)] at hk
      simp only [Option.some.injEq] at hk
      rcases hb with ⟨hb1, _⟩ | ⟨hb1, _⟩
      · rw [hb1] at hk
        simp only [Option.some.injEq] at hk
        subst hk
        exact ⟨hi, Or.inr rfl⟩
      · rw [hb1] at hk
        simp at hk
    · rw [List.getElem?_set_ne hki] at hk
      exact hown k h hk

/-! ## Strategy 5: odd/even ordering -/

theorem ordering_init_inv :
    ForksInv 5 Philosopher.orderingHoldsLeft Philosopher.orderingHoldsRight
      (Table.init NUM_PHILOSOPHERS).forks (Table.init NUM_PHILOSOPHERS).philosophers := by
  refine ⟨by decide, by decide, ?_, ?_⟩
  · intro i p hp
    have hi : i < 5 := by
      have := (List.getElem?_eq_some.mp hp).1
      simpa [Table.init, makePhilosophers, NUM_PHILOSOPHERS] using this
    interval_cases i <;>
      simp [Table.init, makePhilosophers, NUM_PHILOSOPHERS, List.range, List.range.loop] at hp <;>
      subst hp <;> decide
  · intro k h hk
    have := List.getElem?_mem hk
    simp [Table.init] at this

theorem ordering_inv_step (t : Table) (a : TableOp) (t' : Table)
    (hinv : ForksInv 5 Philosopher.orderingHoldsLeft Philosopher.orderingHoldsRight
      t.forks t.philosophers)
    (hstep : Table.step Philosopher.dineWithOrdering t a = some t') :
    ForksInv 5 Philosopher.orderingHoldsLeft Philosopher.orderingHoldsRight
      t'.forks t'.philosophers := by
  cases a with
  | stop =>
    simp only [Table.step, Option.some.injEq] at hstep
    subst hstep
    exact hinv
  | run i =>
    simp only [Table.step] at hstep
    cases hi : t.philosophers[i]? with
    | none => simp [hi] at hstep
    | some p =>
      simp only [hi] at hstep
      obtain ⟨h1, h2, h3, h4, h5⟩ := hinv.2.2.1 i p hi
      have hF := hinv.1
      have hlt : i < 5 := by
        have := (List.getElem?_eq_some.mp hi).1
        have := hinv.2.1
        omega
      have hrt : (i + 1) % 5 < 5 := Nat.mod_lt _ (by omega)
      cases hpc : p.pc <;>
        simp only [Philosopher.dineWithOrdering, hpc, Option.some.injEq, reduceCtorEq] at hstep
      case loopHead =>
        subst hstep
        refine ForksInv.update_pc 5 _ _ t.forks t.philosophers i p _ hinv hi rfl rfl rfl ?_ ?_
        · simp only [Philosopher.orderingHoldsLeft, hpc]
          split <;> split <;> simp
        · simp only [Philosopher.orderingHoldsRight, hpc]
          split <;> split <;> simp
      case think =>
        subst hstep
        refine ForksInv.update_pc 5 _ _ t.forks t.philosophers i p _ hinv hi rfl rfl rfl ?_ ?_
        · simp only [Philosopher.orderingHoldsLeft, hpc]
          split <;> simp
        · simp only [Philosopher.orderingHoldsRight, hpc]
          split <;> simp
      case eat =>
        subst hstep
        refine ForksInv.update_pc 5 _ _ t.forks t.philosophers i p _ hinv hi rfl rfl rfl ?_ ?_
        · simp only [Philosopher.orderingHoldsLeft, hpc]
          split <;> simp
        · simp only [Philosopher.orderingHoldsRight, hpc]
          split <;> simp
      case lockLeft =>
        rw [h1] at hstep
        simp only [Table.lockFork] at hstep
        cases hf : t.forks[i]? with
        | none => simp [hf] at hstep
        | some o =>
          cases o with
          | some x => simp [hf] at hstep
          | none =>
            simp only [hf, Option.map_some', Option.some.injEq] at hstep
            subst hstep
            refine ForksInv.update_left 5 (by omega) _ _ t.forks t.philosophers i p _ (some i)
              hinv hi (Or.inl ⟨rfl, hf⟩) rfl h1.symm rfl ?_ ?_
            · simp only [Philosopher.orderingHoldsLeft]
              split <;> simp
            · simp only [Philosopher.orderingHoldsRight, hpc]
              split <;> simp
      case lockRight =>
        rw [h2] at hstep
        simp only [Table.lockFork] at hstep
        cases hf : t.forks[(i + 1) % 5]? with
        | none => simp [hf] at hstep
        | some o =>
          cases o with
          | some x => simp [hf] at hstep
          | none =>
            simp only [hf, Option.map_some', Option.some.injEq] at hstep
            subst hstep
            refine ForksInv.update_right 5 (by omega) _ _ t.forks t.philosophers i p _ (some i)
              hinv hi (Or.inl ⟨rfl, hf⟩) rfl rfl h2.symm ?_ ?_
            · simp only [Philosopher.orderingHoldsLeft, hpc]
              split <;> simp
            · simp only [Philosopher.orderingHoldsRight]
              split <;> simp
      case unlockLeft =>
        rw [h1] at hstep
        subst hstep
        have hheld : t.forks[i]? = some (some i) := by
          rw [h4]
          simp only [Philosopher.orderingHoldsLeft, hpc]
          split <;> simp
        refine ForksInv.update_left 5 (by omega) _ _ t.forks t.philosophers i p _ none
          hinv hi (Or.inr ⟨rfl, hheld⟩) rfl h1.symm rfl ?_ ?_
        · simp only [Philosopher.orderingHoldsLeft]
          split <;> simp
        · simp only [Philosopher.orderingHoldsRight, hpc]
          split <;> simp
      case unlockRight =>
        rw [h2] at hstep
        subst hstep
        have hheld : t.forks[(i + 1) % 5]? = some (some i) := by
          rw [h5]
          simp only [Philosopher.orderingHoldsRight, hpc]
          split <;> simp
        refine ForksInv.update_right 5 (by omega) _ _ t.forks t.philosophers i p _ none
          hinv hi (Or.inr ⟨rfl, hheld⟩) rfl rfl h2.symm ?_ ?_
        · simp only [Philosopher.orderingHoldsLeft, hpc]
          split <;> simp
        · simp only [Philosopher.orderingHoldsRight]
          split <;> simp

theorem lockFork_eq_none (t : Table) (k i : Nat) (hk : k < t.forks.length)
    (h : t.lockFork k i = none) : ∃ x : Nat, t.forks[k]? = some (some x) := by
  simp only [Table.lockFork] at h
  rw [List.getElem?_eq_getElem hk] at h ⊢
  cases hv : t.forks[k] with
  | none => simp [hv] at h
  | some x => exact ⟨x, rfl⟩

/-- In a state of strategy 5 where no philosopher can take a step, the thread
that has locked a fork holds it as its first fork and finds its second fork
locked. -/
theorem ordering_holder_blocked (t : Table)
    (hinv : ForksInv 5 Philosopher.orderingHoldsLeft Philosopher.orderingHoldsRight
      t.forks t.philosophers)
    (hstuck : ∀ j : Nat, Table.step Philosopher.dineWithOrdering t (TableOp.run j) = none)
    (k h : Nat) (hk : t.forks[k]? = some (some h)) :
    h < 5 ∧ k = orderingFirst h ∧ ∃ x : Nat, t.forks[orderingSecond h]? = some (some x) := by
  obtain ⟨hlt, hkh⟩ := hinv.2.2.2 k h hk
  have hlen : h < t.philosophers.length := by rw [hinv.2.1]; exact hlt
  have hp : t.philosophers[h]? = some t.philosophers[h] := List.getElem?_eq_getElem hlen
  generalize t.philosophers[h] = p at hp
  obtain ⟨h1, h2, h3, h4, h5⟩ := hinv.2.2.1 h p hp
  have hs := hstuck h
  simp only [Table.step, hp] at hs
  have hrt : (h + 1) % 5 < t.forks.length := by rw [hinv.1]; exact Nat.mod_lt _ (by omega)
  have hlf : h < t.forks.length := by rw [hinv.1]; exact hlt
  refine ⟨hlt, ?_⟩
  by_cases hpar : h % 2 = 0
  · simp only [orderingFirst, orderingSecond, hpar, if_true]
    rcases hkh with hkh | hkh
    · rw [hkh] at hk
      have hl := h4.mp hk
      simp only [Philosopher.orderingHoldsLeft, h3, hpar, if_true, decide_eq_true_eq] at hl
      rcases hl with hpc | hpc | hpc | hpc <;>
        simp only [Philosopher.dineWithOrdering, hpc, reduceCtorEq, Option.map_eq_none'] at hs
      rw [h2] at hs
      exact ⟨hkh, lockFork_eq_none t _ h hrt hs⟩
    · rw [hkh] at hk
      have hr := h5.mp hk
      simp only [Philosopher.orderingHoldsRight, h3, hpar, if_true, decide_eq_true_eq] at hr
      rcases hr with hpc | hpc <;>
        simp only [Philosopher.dineWithOrdering, hpc, reduceCtorEq] at hs
  · simp only [orderingFirst, orderingSecond, hpar, if_false]
    rcases hkh with hkh | hkh
    · rw [hkh] at hk
      have hl := h4.mp hk
      simp only [Philosopher.orderingHoldsLeft, h3, hpar, if_false, decide_eq_true_eq] at hl
      rcases hl with hpc | hpc <;>
        simp only [Philosopher.dineWithOrdering, hpc, reduceCtorEq] at hs
    · rw [hkh] at hk
      have hr := h5.mp hk
      simp only [Philosopher.orderingHoldsRight, h3, hpar, if_false, decide_eq_true_eq] at hr
      rcases hr with hpc | hpc | hpc | hpc <;>
        simp only [Philosopher.dineWithOrdering, hpc, reduceCtorEq, Option.map_eq_none'] at hs
      rw [h1] at hs
      exact ⟨hkh, lockFork_eq_none t _ h hlf hs⟩

theorem ordering_chain_impossible :
    ∀ a b c : Fin 5, orderingSecond a.val = orderingFirst b.val →
      orderingSecond b.val = orderingFirst c.val → False := by
  decide

/-- In a state of strategy 5 where no philosopher can take a step, no fork is
locked. -/
theorem ordering_stuck_forks_free (t : Table)
    (hinv : ForksInv 5 Philosopher.orderingHoldsLeft Philosopher.orderingHoldsRight
      t.forks t.philosophers)
    (hstuck : ∀ j : Nat, Table.step Philosopher.dineWithOrdering t (TableOp.run j) = none)
    (k h : Nat) (hk : t.forks[k]? = some (some h)) : False := by
  obtain ⟨ha, _, b, hb⟩ := ordering_holder_blocked t hinv hstuck k h hk
  obtain ⟨hb1, hb2, c, hc⟩ := ordering_holder_blocked t hinv hstuck _ b hb
  obtain ⟨hc1, hc2, _, _⟩ := ordering_holder_blocked t hinv hstuck _ c hc
  exact ordering_chain_impossible ⟨h, ha⟩ ⟨b, hb1⟩ ⟨c, hc1⟩ hb2 hc2

theorem ordering_blocked_no_step (t : Table) (i : Nat) (hb : t.blockedOnFork i = true) :
    Table.step Philosopher.dineWithOrdering t (TableOp.run i) = none := by
  simp only [Table.blockedOnFork] at hb
  simp only [Table.step]
  cases hp : t.philosophers[i]? with
  | none => rfl
  | some p =>
    simp only [hp] at hb ⊢
    cases hpc : p.pc <;> simp only [hpc, decide_eq_true_eq, Bool.false_eq_true] at hb
    case lockLeft =>
      simp only [Philosopher.dineWithOrdering, hpc, Table.lockFork, Option.map_eq_none']
    case lockRight =>
      simp only [Philosopher.dineWithOrdering, hpc, Table.lockFork, Option.map_eq_none']

theorem ordering_blocked_fork_held (t : Table)
    (hinv : ForksInv 5 Philosopher.orderingHoldsLeft Philosopher.orderingHoldsRight
      t.forks t.philosophers) (i : Nat) (hb : t.blockedOnFork i = true) :
    ∃ k x : Nat, t.forks[k]? = some (some x) := by
  simp only [Table.blockedOnFork] at hb
  cases hp : t.philosophers[i]? with
  | none => simp [hp] at hb
  | some p =>
    simp only [hp] at hb
    obtain ⟨h1, h2, _, _, _⟩ := hinv.2.2.1 i p hp
    have hi : i < 5 := by
      have := (List.getElem?_eq_some.mp hp).1
      have := hinv.2.1
      omega
    have held : ∀ k : Nat, k < 5 → t.forks[k]? ≠ some none →
        ∃ x : Nat, t.forks[k]? = some (some x) := by
      intro k hk hne
      have hkl : k < t.forks.length := by rw [hinv.1]; exact hk
      rw [List.getElem?_eq_getElem hkl] at hne ⊢
      cases hv : t.forks[k] with
      | none => rw [hv] at hne; exact absurd rfl hne
      | some x => exact ⟨x, rfl⟩
    cases hpc : p.pc <;> simp only [hpc, decide_eq_true_eq, Bool.false_eq_true] at hb
    case lockLeft =>
      rw [h1] at hb
      exact ⟨i, held i hi hb⟩
    case lockRight =>
      rw [h2] at hb
      exact ⟨(i + 1) % 5, held _ (Nat.mod_lt _ (by omega)) hb⟩

/-- C8: strategy 5 on the ring of five philosophers (even `id`: left fork
then right fork, odd `id`: right then left).  In every reachable state a
philosopher that is blocked on a fork cannot take a step, not all five
philosophers are blocked on a fork, and whenever some philosopher is blocked
on a fork, some philosopher can take a step. -/
theorem ordering_deadlock_free (sched : List TableOp) (t : Table)
    (hrun : runSched (Table.step Philosopher.dineWithOrdering) (Table.init NUM_PHILOSOPHERS)
      sched = some t) :
    (∀ i : Nat, t.blockedOnFork i = true →
      Table.step Philosopher.dineWithOrdering t (TableOp.run i) = none) ∧
    (¬ ∀ i : Fin NUM_PHILOSOPHERS, t.blockedOnFork i.val = true) ∧
    ((∃ i : Nat, t.blockedOnFork i = true) →
      ∃ j : Nat, j < NUM_PHILOSOPHERS ∧
        (Table.step Philosopher.dineWithOrdering t (TableOp.run j)).isSome = true) := by
  have hinv : ForksInv 5 Philosopher.orderingHoldsLeft Philosopher.orderingHoldsRight
      t.forks t.philosophers :=
    runSched_invariant (Table.step Philosopher.dineWithOrdering)
      (fun t => ForksInv 5 Philosopher.orderingHoldsLeft Philosopher.orderingHoldsRight
        t.forks t.philosophers)
      (fun s a s' h hs => ordering_inv_step s a s' h hs) sched _ _ ordering_init_inv hrun
  have hprogress : (∃ i : Nat, t.blockedOnFork i = true) →
      ∃ j : Nat, j < NUM_PHILOSOPHERS ∧
        (Table.step Philosopher.dineWithOrdering t (TableOp.run j)).isSome = true := by
    intro ⟨i, hb⟩
    by_contra hno
    have hstuck : ∀ j : Nat,
        Table.step Philosopher.dineWithOrdering t (TableOp.run j) = none := by
      intro j
      by_cases hj : j < NUM_PHILOSOPHERS
      · cases hs : Table.step Philosopher.dineWithOrdering t (TableOp.run j) with
        | none => rfl
        | some u => exact absurd ⟨j, hj, by rw [hs]; rfl⟩ hno
      · simp only [Table.step]
        rw [List.getElem?_eq_none (by rw [hinv.2.1]; simp only [NUM_PHILOSOPHERS] at hj; omega)]
    obtain ⟨k, x, hk⟩ := ordering_blocked_fork_held t hinv i hb
    exact ordering_stuck_forks_free t hinv hstuck k x hk
  refine ⟨fun i hb => ordering_blocked_no_step t i hb, ?_, hprogress⟩
  intro hall
  obtain ⟨j, hj, hs⟩ := hprogress ⟨0, hall ⟨0, by decide⟩⟩
  rw [ordering_blocked_no_step t j (hall ⟨j, hj⟩)] at hs
  simp at hs

/-- C8 witness: philosopher 1 holds fork 2 (its right fork, which it takes
first) and philosopher 2 is blocked on it. -/
theorem ordering_deadlock_free_witness :
    Table.blockedOnFork
      { forks := [none, none, some 1, none, none], tableMutex := none, stopFlag := false,
        eatingCount := 0,
        philosophers :=
          [{ id := 0, leftFork := 0, rightFork := 1, mealsEaten := 0, pc := Pc.loopHead },
           { id := 1, leftFork := 1, rightFork := 2, mealsEaten := 0, pc := Pc.lockLeft },
           { id := 2, leftFork := 2, rightFork := 3, mealsEaten := 0, pc := Pc.lockLeft },
           { id := 3, leftFork := 3, rightFork := 4, mealsEaten := 0, pc := Pc.loopHead },
           { id := 4, leftFork := 4, rightFork := 0, mealsEaten := 0, pc := Pc.loopHead }] }
      2 = true ∧
    ∃ j : Nat, j < NUM_PHILOSOPHERS ∧
      (Table.step Philosopher.dineWithOrdering
        { forks := [none, none, some 1, none, none], tableMutex := none, stopFlag := false,
          eatingCount := 0,
          philosophers :=
            [{ id := 0, leftFork := 0, rightFork := 1, mealsEaten := 0, pc := Pc.loopHead },
             { id := 1, leftFork := 1, rightFork := 2, mealsEaten := 0, pc := Pc.lockLeft },
             { id := 2, leftFork := 2, rightFork := 3, mealsEaten := 0, pc := Pc.lockLeft },
             { id := 3, leftFork := 3, rightFork := 4, mealsEaten := 0, pc := Pc.loopHead },
             { id := 4, leftFork := 4, rightFork := 0, mealsEaten := 0, pc := Pc.loopHead }] }
        (TableOp.run j)).isSome = true :=
  ⟨by decide,
   (ordering_deadlock_free
      [TableOp.run 1, TableOp.run 1, TableOp.run 1, TableOp.run 2, TableOp.run 2]
      { forks := [none, none, some 1, none, none], tableMutex := none, stopFlag := false,
        eatingCount := 0,
        philosophers :=
          [{ id := 0, leftFork := 0, rightFork := 1, mealsEaten := 0, pc := Pc.loopHead },
           { id := 1, leftFork := 1, rightFork := 2, mealsEaten := 0, pc := Pc.lockLeft },
           { id := 2, leftFork := 2, rightFork := 3, mealsEaten := 0, pc := Pc.lockLeft },
           { id := 3, leftFork := 3, rightFork := 4, mealsEaten := 0, pc := Pc.loopHead },
           { id := 4, leftFork := 4, rightFork := 0, mealsEaten := 0, pc := Pc.loopHead }] }
      (by decide)).2.2 ⟨2, by decide⟩⟩

/-! ## Strategy 6: admission counter -/

theorem conditionVariable_inv_step (maxEating : Int) (hmax : maxEating ≤ INT_MAX)
    (t : Table) (a : TableOp) (t' : Table)
    (hinv : t.eatingCount = (t.philosophers.countP Philosopher.counted : Nat) ∧
      t.eatingCount ≤ maxEating)
    (hstep : Table.step (Philosopher.dineWithConditionVariable maxEating) t a = some t') :
    t'.eatingCount = (t'.philosophers.countP Philosopher.counted : Nat) ∧
      t'.eatingCount ≤ maxEating := by
  obtain ⟨hcnt, hle⟩ := hinv
  simp only [INT_MAX] at hmax
  cases a with
  | stop =>
    simp only [Table.step, Option.some.injEq] at hstep
    subst hstep
    exact ⟨hcnt, hle⟩
  | run i =>
    simp only [Table.step] at hstep
    cases hi : t.philosophers[i]? with
    | none => simp [hi] at hstep
    | some p =>
      simp only [hi] at hstep
      have hadd := fun q => countP_set_add Philosopher.counted t.philosophers i p q hi
      cases hpc : p.pc <;>
        simp only [Philosopher.dineWithConditionVariable, hpc, Option.some.injEq,
          reduceCtorEq] at hstep
      case loopHead =>
        subst hstep
        have := hadd { p with pc := if t.stopFlag then Pc.finished else Pc.think }
        have hq : Philosopher.counted
            { p with pc := if t.stopFlag then Pc.finished else Pc.think } = false := by
          simp only [Philosopher.counted]; split <;> simp
        have hp : Philosopher.counted p = false := by simp [Philosopher.counted, hpc]
        rw [hq, hp] at this
        simp only [Table.setPhilosopher]
        exact ⟨by omega, hle⟩
      case think =>
        subst hstep
        have := hadd { p with pc := Pc.waitPlace }
        have hq : Philosopher.counted { p with pc := Pc.waitPlace } = false := by
          simp [Philosopher.counted]
        have hp : Philosopher.counted p = false := by simp [Philosopher.counted, hpc]
        rw [hq, hp] at this
        simp only [Table.setPhilosopher]
        exact ⟨by omega, hle⟩
      case waitPlace =>
        split at hstep
        · rename_i hlt
          simp only [Option.some.injEq] at hstep
          subst hstep
          have := hadd { p with pc := Pc.lockBoth }
          have hq : Philosopher.counted { p with pc := Pc.lockBoth } = true := by
            simp [Philosopher.counted]
          have hp : Philosopher.counted p = false := by simp [Philosopher.counted, hpc]
          rw [hq, hp] at this
          simp only [Bool.false_eq_true, if_false, if_true] at this
          have hw : wrapInt (t.eatingCount + 1) = t.eatingCount + 1 :=
            wrapInt_eq_self (by omega) (by omega)
          simp only [Table.setPhilosopher, hw]
          exact ⟨by omega, by omega⟩
        · simp at hstep
      case lockBoth =>
        cases hl : t.lockBoth p.leftFork p.rightFork i with
        | none => simp [hl] at hstep
        | some t1 =>
          simp only [hl, Option.map_some', Option.some.injEq] at hstep
          subst hstep
          have h1 : t1.eatingCount = t.eatingCount ∧ t1.philosophers = t.philosophers := by
            simp only [Table.lockBoth] at hl
            split at hl
            · split at hl
              · simp at hl
              · simp only [Option.some.injEq] at hl
                subst hl
                exact ⟨rfl, rfl⟩
            · simp at hl
          have := hadd { p with pc := Pc.eat }
          have hq : Philosopher.counted { p with pc := Pc.eat } = true := by
            simp [Philosopher.counted]
          have hp : Philosopher.counted p = true := by simp [Philosopher.counted, hpc]
          rw [hq, hp] at this
          simp only [Table.setPhilosopher, h1.1, h1.2]
          exact ⟨by omega, hle⟩
      case eat =>
        subst hstep
        have := hadd { p with mealsEaten := wrapInt (p.mealsEaten + 1), pc := Pc.leave }
        have hq : Philosopher.counted
            { p with mealsEaten := wrapInt (p.mealsEaten + 1), pc := Pc.leave } = true := by
          simp [Philosopher.counted]
        have hp : Philosopher.counted p = true := by simp [Philosopher.counted, hpc]
        rw [hq, hp] at this
        simp only [Table.setPhilosopher]
        exact ⟨by omega, hle⟩
      case leave =>
        subst hstep
        have := hadd { p with pc := Pc.unlockRight }
        have hq : Philosopher.counted { p with pc := Pc.unlockRight } = false := by
          simp [Philosopher.counted]
        have hp : Philosopher.counted p = true := by simp [Philosopher.counted, hpc]
        rw [hq, hp] at this
        simp only [Bool.false_eq_true, if_false, if_true] at this
        have hw : wrapInt (t.eatingCount - 1) = t.eatingCount - 1 :=
          wrapInt_eq_self (by omega) (by omega)
        simp only [Table.setPhilosopher, hw]
        exact ⟨by omega, by omega⟩
      case unlockRight =>
        subst hstep
        have := hadd { p with pc := Pc.unlockLeft }
        have hq : Philosopher.counted { p with pc := Pc.unlockLeft } = false := by
          simp [Philosopher.counted]
        have hp : Philosopher.counted p = false := by simp [Philosopher.counted, hpc]
        rw [hq, hp] at this
        simp only [Table.setPhilosopher, Table.unlockFork]
        exact ⟨by omega, hle⟩
      case unlockLeft =>
        subst hstep
        have := hadd { p with pc := Pc.loopHead }
        have hq : Philosopher.counted { p with pc := Pc.loopHead } = false := by
          simp [Philosopher.counted]
        have hp : Philosopher.counted p = false := by simp [Philosopher.counted, hpc]
        rw [hq, hp] at this
        simp only [Table.setPhilosopher, Table.unlockFork]
        exact ⟨by omega, hle⟩

theorem conditionVariable_init_inv (n : Nat) :
    (Table.init n).philosophers.countP Philosopher.counted = 0 := by
  rw [List.countP_eq_zero]
  intro p hp
  simp only [Table.init, makePhilosophers, List.mem_map] at hp
  obtain ⟨i, _, rfl⟩ := hp
  simp [Philosopher.counted]

/-- C10: strategy 6 with any cap `0 <= maxEating` (an `int`) and any number
`n` of philosophers: in every reachable state
`0 <= eatingCount <= maxEating`, and the number of philosophers inside
`eat()` is at most `eatingCount`, hence at most `maxEating`. -/
theorem conditionVariable_admission_cap (maxEating : Int) (n : Nat) (sched : List TableOp)
    (t : Table) (h0 : 0 ≤ maxEating) (hmax : maxEating ≤ INT_MAX)
    (hrun : runSched (Table.step (Philosopher.dineWithConditionVariable maxEating))
      (Table.init n) sched = some t) :
    0 ≤ t.eatingCount ∧ t.eatingCount ≤ maxEating ∧
    (t.philosophers.countP Philosopher.eating : Int) ≤ t.eatingCount ∧
    (t.philosophers.countP Philosopher.eating : Int) ≤ maxEating := by
  have hinv := runSched_invariant (Table.step (Philosopher.dineWithConditionVariable maxEating))
    (fun t => t.eatingCount = (t.philosophers.countP Philosopher.counted : Nat) ∧
      t.eatingCount ≤ maxEating)
    (fun s a s' h hs => conditionVariable_inv_step maxEating hmax s a s' h hs) sched _ _
    (by
      refine ⟨?_, h0⟩
      rw [conditionVariable_init_inv n]
      rfl) hrun
  obtain ⟨hcnt, hle⟩ := hinv
  have hmono : t.philosophers.countP Philosopher.eating
      ≤ t.philosophers.countP Philosopher.counted := by
    apply List.countP_mono_left
    intro p _ hp
    simp only [Philosopher.eating, decide_eq_true_eq] at hp
    simp [Philosopher.counted, hp]
  refine ⟨by omega, hle, by omega, by omega⟩

/-- C10 witness: cap 2, five philosophers, philosopher 0 was admitted, took
both forks and is eating. -/
theorem conditionVariable_admission_cap_witness :
    (0 : Int) ≤ 1 ∧ (1 : Int) ≤ 2 ∧
    ((([{ id := 0, leftFork := 0, rightFork := 1, mealsEaten := 0, pc := Pc.eat },
        { id := 1, leftFork := 1, rightFork := 2, mealsEaten := 0, pc := Pc.loopHead },
        { id := 2, leftFork := 2, rightFork := 3, mealsEaten := 0, pc := Pc.loopHead },
        { id := 3, leftFork := 3, rightFork := 4, mealsEaten := 0, pc := Pc.loopHead },
        { id := 4, leftFork := 4, rightFork := 0, mealsEaten := 0, pc := Pc.loopHead }] :
        List Philosopher).countP Philosopher.eating : Nat) : Int) ≤ 1 ∧
    ((([{ id := 0, leftFork := 0, rightFork := 1, mealsEaten := 0, pc := Pc.eat },
        { id := 1, leftFork := 1, rightFork := 2, mealsEaten := 0, pc := Pc.loopHead },
        { id := 2, leftFork := 2, rightFork := 3, mealsEaten := 0, pc := Pc.loopHead },
        { id := 3, leftFork := 3, rightFork := 4, mealsEaten := 0, pc := Pc.loopHead },
        { id := 4, leftFork := 4, rightFork := 0, mealsEaten := 0, pc := Pc.loopHead }] :
        List Philosopher).countP Philosopher.eating : Nat) : Int) ≤ 2 :=
  conditionVariable_admission_cap 2 5
    [TableOp.run 0, TableOp.run 0, TableOp.run 0, TableOp.run 0]
    { forks := [some 0, some 0, none, none, none], tableMutex := none, stopFlag := false,
      eatingCount := 1,
      philosophers :=
        [{ id := 0, leftFork := 0, rightFork := 1, mealsEaten := 0, pc := Pc.eat },
         { id := 1, leftFork := 1, rightFork := 2, mealsEaten := 0, pc := Pc.loopHead },
         { id := 2, leftFork := 2, rightFork := 3, mealsEaten := 0, pc := Pc.loopHead },
         { id := 3, leftFork := 3, rightFork := 4, mealsEaten := 0, pc := Pc.loopHead },
         { id := 4, leftFork := 4, rightFork := 0, mealsEaten := 0, pc := Pc.loopHead }] }
    (by decide) (by decide) (by decide)

/-! ## Dining philosophers: the initial state -/

theorem makePhilosophers_getElem (n i : Nat) (p : Philosopher)
    (h : (makePhilosophers n)[i]? = some p) :
    i < n ∧ p = { id := i, leftFork := i, rightFork := (i + 1) % n, mealsEaten := 0,
                  pc := Pc.loopHead } := by
  simp only [makePhilosophers, List.getElem?_map, Option.map_eq_some'] at h
  obtain ⟨j, hj, rfl⟩ := h
  obtain ⟨hlt, hv⟩ := List.getElem?_eq_some.mp hj
  simp only [List.length_range] at hlt
  simp only [List.getElem_range] at hv
  subst hv
  exact ⟨hlt, rfl⟩

theorem forksInv_init (n : Nat) (hl hr : Philosopher → Bool)
    (h0 : ∀ p : Philosopher, p.pc = Pc.loopHead → hl p = false ∧ hr p = false) :
    ForksInv n hl hr (Table.init n).forks (Table.init n).philosophers := by
  refine ⟨by simp [Table.init], by simp [Table.init, makePhilosophers], ?_, ?_⟩
  · intro i p hp
    obtain ⟨hi, rfl⟩ := makePhilosophers_getElem n i p hp
    obtain ⟨h1, h2⟩ := h0
      { id := i, leftFork := i, rightFork := (i + 1) % n, mealsEaten := 0, pc := Pc.loopHead }
      rfl
    refine ⟨rfl, rfl, rfl, ?_, ?_⟩
    · rw [h1]
      simp [Table.init, List.getElem?_replicate]
    · rw [h2]
      simp [Table.init, List.getElem?_replicate]
  · intro k h hk
    have := List.getElem?_mem hk
    simp [Table.init] at this
/-! ## Strategy 4: one philosopher at the table -/

theorem semaphore_table_update (P : List Philosopher) (M N : Option Nat) (i : Nat)
    (_p q : Philosopher)
    (hB : ∀ (j : Nat) (u : Philosopher), P[j]? = some u →
      u.semaphorePc = true ∧ (u.atTable = true ↔ M = some j))
    (hq1 : q.semaphorePc = true) (hq2 : q.atTable = true ↔ N = some i)
    (hoth : ∀ j : Nat, j ≠ i → (N = some j ↔ M = some j)) :
    ∀ (j : Nat) (u : Philosopher), (P.set i q)[j]? = some u →
      u.semaphorePc = true ∧ (u.atTable = true ↔ N = some j) := by
  intro j u hj
  rw [List.getElem?_set] at hj
  by_cases hij : i = j
  · simp only [hij, if_true] at hj
    split at hj
    · simp only [Option.some.injEq] at hj
      subst hj
      subst hij
      exact ⟨hq1, hq2⟩
    · simp at hj
  · simp only [hij, if_false] at hj
    obtain ⟨h1, h2⟩ := hB j u hj
    exact ⟨h1, by rw [hoth j (Ne.symm hij)]; exact h2⟩

theorem semaphore_inv_step (n : Nat) (hn : 2 ≤ n) (t : Table) (a : TableOp) (t' : Table)
    (hinv : SemaphoreInv n t)
    (hstep : Table.step Philosopher.dineWithSemaphore t a = some t') :
    SemaphoreInv n t' := by
  obtain ⟨hF, hB, hC⟩ := hinv
  cases a with
  | stop =>
    simp only [Table.step, Option.some.injEq] at hstep
    subst hstep
    exact ⟨hF, hB, hC⟩
  | run i =>
    simp only [Table.step] at hstep
    cases hi : t.philosophers[i]? with
    | none => simp [hi] at hstep
    | some p =>
      simp only [hi] at hstep
      obtain ⟨h1, h2, h3, h4, h5⟩ := hF.2.2.1 i p hi
      obtain ⟨hb1, hb2⟩ := hB i p hi
      have hlt : i < n := by
        have := (List.getElem?_eq_some.mp hi).1
        have := hF.2.1
        omega
      have hsame : ∀ j : Nat, j ≠ i → (t.tableMutex = some j ↔ t.tableMutex = some j) :=
        fun _ _ => Iff.rfl
      cases hpc : p.pc <;>
        simp only [Philosopher.dineWithSemaphore, hpc, Option.some.injEq, reduceCtorEq] at hstep
      case loopHead =>
        subst hstep
        refine ⟨ForksInv.update_pc n _ _ t.forks t.philosophers i p _ hF hi rfl rfl rfl ?_ ?_,
          semaphore_table_update t.philosophers t.tableMutex t.tableMutex i p _ hB ?_ ?_ hsame,
          hC⟩
        · simp only [Philosopher.leftFirstHoldsLeft, hpc]; split <;> simp
        · simp only [Philosopher.leftFirstHoldsRight, hpc]; split <;> simp
        · simp only [Philosopher.semaphorePc, Philosopher.atTable]; split <;> simp
        · rw [← hb2]
          simp only [Philosopher.atTable, hpc]; split <;> simp
      case think =>
        subst hstep
        refine ⟨ForksInv.update_pc n _ _ t.forks t.philosophers i p _ hF hi rfl rfl rfl ?_ ?_,
          semaphore_table_update t.philosophers t.tableMutex t.tableMutex i p _ hB ?_ ?_ hsame,
          hC⟩
        · simp [Philosopher.leftFirstHoldsLeft, hpc]
        · simp [Philosopher.leftFirstHoldsRight, hpc]
        · simp [Philosopher.semaphorePc, Philosopher.atTable]
        · rw [← hb2]
          simp [Philosopher.atTable, hpc]
      case eat =>
        subst hstep
        refine ⟨ForksInv.update_pc n _ _ t.forks t.philosophers i p _ hF hi rfl rfl rfl ?_ ?_,
          semaphore_table_update t.philosophers t.tableMutex t.tableMutex i p _ hB ?_ ?_ hsame,
          hC⟩
        · simp [Philosopher.leftFirstHoldsLeft, hpc]
        · simp [Philosopher.leftFirstHoldsRight, hpc]
        · simp [Philosopher.semaphorePc, Philosopher.atTable]
        · rw [← hb2]
          simp [Philosopher.atTable, hpc]
      case lockTable =>
        cases hm : t.tableMutex with
        | some x => simp [hm] at hstep
        | none =>
          simp only [hm, Option.some.injEq] at hstep
          subst hstep
          refine ⟨ForksInv.update_pc n _ _ t.forks t.philosophers i p _ hF hi rfl rfl rfl ?_ ?_,
            semaphore_table_update t.philosophers t.tableMutex (some i) i p _ hB ?_ ?_ ?_, ?_⟩
          · simp [Philosopher.leftFirstHoldsLeft, hpc]
          · simp [Philosopher.leftFirstHoldsRight, hpc]
          · simp [Philosopher.semaphorePc, Philosopher.atTable]
          · simp [Philosopher.atTable]
          · intro j hj
            rw [hm]
            simp only [Option.some.injEq, reduceCtorEq, iff_false]
            exact fun h => hj h.symm
          · intro h hh
            simp only [Table.setPhilosopher, Option.some.injEq] at hh
            omega
      case unlockTable =>
        subst hstep
        have hm : t.tableMutex = some i := hb2.mp (by simp [Philosopher.atTable, hpc])
        refine ⟨ForksInv.update_pc n _ _ t.forks t.philosophers i p _ hF hi rfl rfl rfl ?_ ?_,
          semaphore_table_update t.philosophers t.tableMutex none i p _ hB ?_ ?_ ?_, ?_⟩
        · simp [Philosopher.leftFirstHoldsLeft, hpc]
        · simp [Philosopher.leftFirstHoldsRight, hpc]
        · simp [Philosopher.semaphorePc, Philosopher.atTable]
        · simp [Philosopher.atTable]
        · intro j hj
          rw [hm]
          simp only [Option.some.injEq, reduceCtorEq, false_iff]
          exact fun h => hj h.symm
        · intro h hh
          simp [Table.setPhilosopher] at hh
      case lockLeft =>
        rw [h1] at hstep
        simp only [Table.lockFork] at hstep
        cases hf : t.forks[i]? with
        | none => simp [hf] at hstep
        | some o =>
          cases o with
          | some x => simp [hf] at hstep
          | none =>
            simp only [hf, Option.map_some', Option.some.injEq] at hstep
            subst hstep
            refine ⟨ForksInv.update_left n hn _ _ t.forks t.philosophers i p _ (some i)
                hF hi (Or.inl ⟨rfl, hf⟩) rfl h1.symm rfl ?_ ?_,
              semaphore_table_update t.philosophers t.tableMutex t.tableMutex i p _ hB ?_ ?_
                hsame, hC⟩
            · simp [Philosopher.leftFirstHoldsLeft]
            · simp [Philosopher.leftFirstHoldsRight, hpc]
            · simp [Philosopher.semaphorePc, Philosopher.atTable]
            · rw [← hb2]
              simp [Philosopher.atTable, hpc]
      case lockRight =>
        rw [h2] at hstep
        simp only [Table.lockFork] at hstep
        cases hf : t.forks[(i + 1) % n]? with
        | none => simp [hf] at hstep
        | some o =>
          cases o with
          | some x => simp [hf] at hstep
          | none =>
            simp only [hf, Option.map_some', Option.some.injEq] at hstep
            subst hstep
            refine ⟨ForksInv.update_right n hn _ _ t.forks t.philosophers i p _ (some i)
                hF hi (Or.inl ⟨rfl, hf⟩) rfl rfl h2.symm ?_ ?_,
              semaphore_table_update t.philosophers t.tableMutex t.tableMutex i p _ hB ?_ ?_
                hsame, hC⟩
            · simp [Philosopher.leftFirstHoldsLeft, hpc]
            · simp [Philosopher.leftFirstHoldsRight]
            · simp [Philosopher.semaphorePc, Philosopher.atTable]
            · rw [← hb2]
              simp [Philosopher.atTable, hpc]
      case unlockLeft =>
        rw [h1] at hstep
        subst hstep
        have hheld : t.forks[i]? = some (some i) := by
          rw [h4]; simp [Philosopher.leftFirstHoldsLeft, hpc]
        refine ⟨ForksInv.update_left n hn _ _ t.forks t.philosophers i p _ none
            hF hi (Or.inr ⟨rfl, hheld⟩) rfl h1.symm rfl ?_ ?_,
          semaphore_table_update t.philosophers t.tableMutex t.tableMutex i p _ hB ?_ ?_
            hsame, hC⟩
        · simp [Philosopher.leftFirstHoldsLeft]
        · simp [Philosopher.leftFirstHoldsRight, hpc]
        · simp [Philosopher.semaphorePc, Philosopher.atTable]
        · rw [← hb2]
          simp [Philosopher.atTable, hpc]
      case unlockRight =>
        rw [h2] at hstep
        subst hstep
        have hheld : t.forks[(i + 1) % n]? = some (some i) := by
          rw [h5]; simp [Philosopher.leftFirstHoldsRight, hpc]
        refine ⟨ForksInv.update_right n hn _ _ t.forks t.philosophers i p _ none
            hF hi (Or.inr ⟨rfl, hheld⟩) rfl rfl h2.symm ?_ ?_,
          semaphore_table_update t.philosophers t.tableMutex t.tableMutex i p _ hB ?_ ?_
            hsame, hC⟩
        · simp [Philosopher.leftFirstHoldsLeft, hpc]
        · simp [Philosopher.leftFirstHoldsRight]
        · simp [Philosopher.semaphorePc, Philosopher.atTable]
        · rw [← hb2]
          simp [Philosopher.atTable, hpc]
theorem semaphore_inv_reachable (n : Nat) (hn : 2 ≤ n) (sched : List TableOp) (t : Table)
    (hrun : runSched (Table.step Philosopher.dineWithSemaphore) (Table.init n) sched = some t) :
    SemaphoreInv n t := by
  refine runSched_invariant (Table.step Philosopher.dineWithSemaphore) (SemaphoreInv n)
    (fun s a s' h hs => semaphore_inv_step n hn s a s' h hs) sched _ _ ?_ hrun
  refine ⟨forksInv_init n _ _ ?_, ?_, ?_⟩
  · intro p hp
    simp [Philosopher.leftFirstHoldsLeft, Philosopher.leftFirstHoldsRight, hp]
  · intro i p hp
    obtain ⟨_, rfl⟩ := makePhilosophers_getElem n i p hp
    simp [Philosopher.semaphorePc, Philosopher.atTable, Table.init]
  · intro h hh
    simp [Table.init] at hh

/-- Strategy 4: a locked fork is locked by the thread that has locked the
table mutex. -/
theorem semaphore_fork_owner (n : Nat) (t : Table) (hinv : SemaphoreInv n t) (k h : Nat)
    (hk : t.forks[k]? = some (some h)) : t.tableMutex = some h := by
  obtain ⟨hF, hB, _⟩ := hinv
  obtain ⟨hlt, hkh⟩ := hF.2.2.2 k h hk
  have hlen : h < t.philosophers.length := by rw [hF.2.1]; exact hlt
  have hp : t.philosophers[h]? = some t.philosophers[h] := List.getElem?_eq_getElem hlen
  generalize t.philosophers[h] = p at hp
  obtain ⟨_, _, _, h4, h5⟩ := hF.2.2.1 h p hp
  obtain ⟨_, hb2⟩ := hB h p hp
  apply hb2.mp
  rcases hkh with hkh | hkh
  · rw [hkh] at hk
    have := h4.mp hk
    simp only [Philosopher.leftFirstHoldsLeft, decide_eq_true_eq] at this
    simp only [Philosopher.atTable, decide_eq_true_eq]
    tauto
  · rw [hkh] at hk
    have := h5.mp hk
    simp only [Philosopher.leftFirstHoldsRight, decide_eq_true_eq] at this
    simp only [Philosopher.atTable, decide_eq_true_eq]
    tauto

theorem semaphore_not_blocked (n : Nat) (t : Table) (hinv : SemaphoreInv n t) (i : Nat) :
    t.blockedOnFork i = false := by
  cases hb : t.blockedOnFork i with
  | false => rfl
  | true =>
    exfalso
    obtain ⟨hF, hB, _⟩ := hinv
    simp only [Table.blockedOnFork] at hb
    cases hp : t.philosophers[i]? with
    | none => simp [hp] at hb
    | some p =>
      simp only [hp] at hb
      obtain ⟨h1, h2, _, h4, h5⟩ := hF.2.2.1 i p hp
      obtain ⟨_, hb2⟩ := hB i p hp
      have hi : i < n := by
        have := (List.getElem?_eq_some.mp hp).1
        have := hF.2.1
        omega
      have hn : 0 < n := by omega
      have held : ∀ k : Nat, k < n → t.forks[k]? ≠ some none →
          t.forks[k]? = some (some i) := by
        intro k hk hne
        have hkl : k < t.forks.length := by rw [hF.1]; exact hk
        rw [List.getElem?_eq_getElem hkl] at hne
        cases hv : t.forks[k] with
        | none => rw [hv] at hne; exact absurd rfl hne
        | some x =>
          have hx : t.forks[k]? = some (some x) := by
            rw [List.getElem?_eq_getElem hkl, hv]
          have h6 := semaphore_fork_owner n t ⟨hF, hB, by assumption⟩ k x hx
          have h7 : t.tableMutex = some i := hb2.mp (by
            cases hpc : p.pc <;> simp [hpc] at hb <;> simp [Philosopher.atTable, hpc])
          rw [h7] at h6
          simp only [Option.some.injEq] at h6
          rw [hx, h6]
      cases hpc : p.pc <;> simp only [hpc, decide_eq_true_eq, Bool.false_eq_true] at hb
      case lockLeft =>
        rw [h1] at hb
        have := h4.mp (held i hi hb)
        simp [Philosopher.leftFirstHoldsLeft, hpc] at this
      case lockRight =>
        rw [h2] at hb
        have := h5.mp (held _ (Nat.mod_lt _ hn) hb)
        simp [Philosopher.leftFirstHoldsRight, hpc] at this
theorem semaphore_progress (n : Nat) (t : Table) (hinv : SemaphoreInv n t)
    (i : Nat) (p : Philosopher) (hp : t.philosophers[i]? = some p)
    (hfin : p.pc ≠ Pc.finished) :
    ∃ j : Nat, j < n ∧
      (Table.step Philosopher.dineWithSemaphore t (TableOp.run j)).isSome = true := by
  have hnb := semaphore_not_blocked n t hinv
  obtain ⟨hF, hB, hC⟩ := hinv
  cases hm : t.tableMutex with
  | none =>
    obtain ⟨hb1, hb2⟩ := hB i p hp
    have hi : i < n := by
      have := (List.getElem?_eq_some.mp hp).1
      have := hF.2.1
      omega
    have hnot : p.atTable = false := by
      cases h : p.atTable with
      | false => rfl
      | true => rw [hb2.mp h] at hm; simp at hm
    refine ⟨i, hi, ?_⟩
    simp only [Philosopher.semaphorePc, hnot, Bool.or_false, decide_eq_true_eq] at hb1
    rcases hb1 with hpc | hpc | hpc | hpc
    · simp [Table.step, hp, Philosopher.dineWithSemaphore, hpc]
    · simp [Table.step, hp, Philosopher.dineWithSemaphore, hpc]
    · simp [Table.step, hp, Philosopher.dineWithSemaphore, hpc, hm]
    · exact absurd hpc hfin
  | some h =>
    have hlt : h < n := hC h hm
    have hlen : h < t.philosophers.length := by rw [hF.2.1]; exact hlt
    have hq : t.philosophers[h]? = some t.philosophers[h] := List.getElem?_eq_getElem hlen
    generalize t.philosophers[h] = q at hq
    obtain ⟨_, hb2⟩ := hB h q hq
    have hat := hb2.mpr hm
    have hfree := hnb h
    simp only [Table.blockedOnFork, hq] at hfree
    refine ⟨h, hlt, ?_⟩
    simp only [Philosopher.atTable, decide_eq_true_eq] at hat
    rcases hat with hpc | hpc | hpc | hpc | hpc | hpc
    · simp only [hpc, decide_eq_false_iff_not, not_not] at hfree
      simp [Table.step, hq, Philosopher.dineWithSemaphore, hpc, Table.lockFork, hfree]
    · simp only [hpc, decide_eq_false_iff_not, not_not] at hfree
      simp [Table.step, hq, Philosopher.dineWithSemaphore, hpc, Table.lockFork, hfree]
    · simp [Table.step, hq, Philosopher.dineWithSemaphore, hpc]
    · simp [Table.step, hq, Philosopher.dineWithSemaphore, hpc]
    · simp [Table.step, hq, Philosopher.dineWithSemaphore, hpc]
    · simp [Table.step, hq, Philosopher.dineWithSemaphore, hpc]

/-- C11: strategy 4 on a ring of `n >= 2` philosophers (the program has 5).
The table mutex is locked before either fork and unlocked after both forks
are unlocked, so in every reachable state: a fork that is locked is locked by
the thread that has locked the table mutex, and a philosopher inside `eat()`
is that thread, hence at most one philosopher holds any fork or is eating;
no philosopher is blocked on a fork; and as long as some philosopher has not
left its loop, some philosopher can take a step (no reachable state is a
deadlock). -/
theorem semaphore_serialises (n : Nat) (hn : 2 ≤ n) (sched : List TableOp) (t : Table)
    (hrun : runSched (Table.step Philosopher.dineWithSemaphore) (Table.init n) sched = some t) :
    (∀ k h : Nat, t.forks[k]? = some (some h) → t.tableMutex = some h) ∧
    (∀ (i : Nat) (p : Philosopher), t.philosophers[i]? = some p → p.eating = true →
      t.tableMutex = some i) ∧
    (∀ (i j : Nat) (p q : Philosopher), t.philosophers[i]? = some p →
      t.philosophers[j]? = some q →
      ((∃ k : Nat, t.forks[k]? = some (some i)) ∨ p.eating = true) →
      ((∃ k : Nat, t.forks[k]? = some (some j)) ∨ q.eating = true) → i = j) ∧
    (∀ i : Nat, t.blockedOnFork i = false) ∧
    ((∃ (i : Nat) (p : Philosopher), t.philosophers[i]? = some p ∧ p.pc ≠ Pc.finished) →
      ∃ j : Nat, j < n ∧
        (Table.step Philosopher.dineWithSemaphore t (TableOp.run j)).isSome = true) := by
  have hinv := semaphore_inv_reachable n hn sched t hrun
  have hfork := semaphore_fork_owner n t hinv
  have heat : ∀ (i : Nat) (p : Philosopher), t.philosophers[i]? = some p → p.eating = true →
      t.tableMutex = some i := by
    intro i p hp he
    apply (hinv.2.1 i p hp).2.mp
    simp only [Philosopher.eating, decide_eq_true_eq] at he
    simp [Philosopher.atTable, he]
  refine ⟨hfork, heat, ?_, semaphore_not_blocked n t hinv, ?_⟩
  · intro i j p q hp hq hi hj
    have h1 : t.tableMutex = some i := by
      rcases hi with ⟨k, hk⟩ | he
      · exact hfork k i hk
      · exact heat i p hp he
    have h2 : t.tableMutex = some j := by
      rcases hj with ⟨k, hk⟩ | he
      · exact hfork k j hk
      · exact heat j q hq he
    rw [h1] at h2
    simpa using h2
  · intro ⟨i, p, hp, hfin⟩
    exact semaphore_progress n t hinv i p hp hfin

/-- C11 witness: five philosophers; philosopher 1 has locked the table mutex
and its left fork, philosopher 2 waits for the table mutex. -/
theorem semaphore_serialises_witness :
    Table.blockedOnFork
      { forks := [none, some 1, none, none, none], tableMutex := some 1, stopFlag := false,
        eatingCount := 0,
        philosophers :=
          [{ id := 0, leftFork := 0, rightFork := 1, mealsEaten := 0, pc := Pc.loopHead },
           { id := 1, leftFork := 1, rightFork := 2, mealsEaten := 0, pc := Pc.lockRight },
           { id := 2, leftFork := 2, rightFork := 3, mealsEaten := 0, pc := Pc.lockTable },
           { id := 3, leftFork := 3, rightFork := 4, mealsEaten := 0, pc := Pc.loopHead },
           { id := 4, leftFork := 4, rightFork := 0, mealsEaten := 0, pc := Pc.loopHead }] }
      1 = false :=
  (semaphore_serialises 5 (by decide)
    [TableOp.run 1, TableOp.run 1, TableOp.run 1, TableOp.run 2, TableOp.run 2, TableOp.run 1]
    { forks := [none, some 1, none, none, none], tableMutex := some 1, stopFlag := false,
      eatingCount := 0,
      philosophers :=
        [{ id := 0, leftFork := 0, rightFork := 1, mealsEaten := 0, pc := Pc.loopHead },
         { id := 1, leftFork := 1, rightFork := 2, mealsEaten := 0, pc := Pc.lockRight },
         { id := 2, leftFork := 2, rightFork := 3, mealsEaten := 0, pc := Pc.lockTable },
         { id := 3, leftFork := 3, rightFork := 4, mealsEaten := 0, pc := Pc.loopHead },
         { id := 4, leftFork := 4, rightFork := 0, mealsEaten := 0, pc := Pc.loopHead }] }
    (by decide)).2.2.2.1 1

/-! ## Strategy 3: the attempt loop -/

theorem heldAfter_append (h : Bool × Bool) (xs ys : List TimeoutEvent) :
    heldAfter h (xs ++ ys) = heldAfter (heldAfter h xs) ys := by
  simp [heldAfter, List.foldl_append]

theorem allAllowed_append (xs : List TimeoutEvent) : ∀ (h : Bool × Bool) (ys : List TimeoutEvent),
    allAllowed h (xs ++ ys) = (allAllowed h xs && allAllowed (heldAfter h xs) ys) := by
  induction xs with
  | nil => intro h ys; simp [allAllowed, heldAfter]
  | cons e rest ih =>
    intro h ys
    show (e.allowed h && allAllowed (e.holds h) (rest ++ ys)) = _
    rw [ih]
    simp [allAllowed, heldAfter, Bool.and_assoc]

/-- What the attempt loop does when started with `gotForks == false` and
`0 <= attempts <= 3`, given enough fuel. -/
theorem attemptLoop_spec (stop left right : Nat → Bool) :
    ∀ (fuel : Nat) (a : Int), 0 ≤ a → a ≤ 3 → 4 ≤ (fuel : Int) + a →
    ∃ (g : Bool) (a1 : Int) (done : List TimeoutEvent),
      attemptLoop stop left right fuel false a = some (g, a1, done) ∧
      a ≤ a1 ∧ a1 ≤ 3 ∧
      (done.countP TimeoutEvent.isTryLeft : Int) = (a1 - a) + (if g then 1 else 0) ∧
      done.countP TimeoutEvent.isTryRight ≤ done.countP TimeoutEvent.isTryLeft ∧
      allAllowed (false, false) done = true ∧
      heldAfter (false, false) done = (g, g) ∧
      (g = false → a1 = 3 ∨ stop a1.toNat = true) ∧
      (g = true → a1 < 3 ∧ left a1.toNat = true ∧ right a1.toNat = true) ∧
      (TimeoutEvent.tryRight true ∈ done → g = true) ∧
      (∀ e ∈ done, e ≠ TimeoutEvent.eat ∧ e ≠ TimeoutEvent.hungry ∧ e ≠ TimeoutEvent.think ∧
        e ≠ TimeoutEvent.unlockRight) := by
  intro fuel
  induction fuel with
  | zero => intro a h0 h3 hf; omega
  | succ k ih =>
    intro a h0 h3 hf
    simp only [attemptLoop, Bool.false_eq_true, if_false]
    cases hs : stop a.toNat with
    | true =>
      refine ⟨false, a, [TimeoutEvent.readStop true], by simp, le_refl _, h3, by simp
        [TimeoutEvent.isTryLeft], by simp [TimeoutEvent.isTryRight], by decide, by decide,
        fun _ => Or.inr hs, by simp, by simp, by simp⟩
    | false =>
      simp only [Bool.false_eq_true, if_false]
      by_cases ha : a < 3
      · simp only [ha, if_true]
        have hw : wrapInt (a + 1) = a + 1 := wrapInt_eq_self (by omega) (by omega)
        cases hl : left a.toNat with
        | false =>
          obtain ⟨g, a1, rest, hrun, h1, h2, h3', h4, h5, h6, h7, h8, h9, h10⟩ :=
            ih (a + 1) (by omega) (by omega) (by push_cast at hf ⊢; omega)
          by_cases hlt : a + 1 < 3
          · refine ⟨g, a1, TimeoutEvent.readStop false ::
              ([TimeoutEvent.tryLeft false] ++ [TimeoutEvent.sleep]) ++ rest, ?_, by omega, h2,
              ?_, ?_, ?_, ?_, h7, h8, ?_, ?_⟩
            · simp [attemptBody, hw, hlt, hrun]
            · simp only [List.cons_append, List.nil_append, List.countP_cons,
                TimeoutEvent.isTryLeft]
              simp
              omega
            · simp only [List.cons_append, List.nil_append, List.countP_cons,
                TimeoutEvent.isTryLeft, TimeoutEvent.isTryRight]
              simp
              omega
            · simp only [List.cons_append, List.nil_append, allAllowed,
                TimeoutEvent.allowed, TimeoutEvent.holds]
              simpa using h5
            · simp only [List.cons_append, List.nil_append, heldAfter, List.foldl_cons,
                TimeoutEvent.holds]
              simpa [heldAfter] using h6
            · intro hmem
              apply h9
              simpa using hmem
            · intro e he
              simp only [List.cons_append, List.nil_append, List.mem_cons] at he
              rcases he with rfl | rfl | rfl | he
              · simp
              · simp
              · simp
              · exact h10 e he
          · refine ⟨g, a1, TimeoutEvent.readStop false :: [TimeoutEvent.tryLeft false] ++ rest,
              ?_, by omega, h2, ?_, ?_, ?_, ?_, h7, h8, ?_, ?_⟩
            · simp [attemptBody, hw, hlt, hrun]
            · simp only [List.cons_append, List.nil_append, List.countP_cons,
                TimeoutEvent.isTryLeft]
              simp
              omega
            · simp only [List.cons_append, List.nil_append, List.countP_cons,
                TimeoutEvent.isTryLeft, TimeoutEvent.isTryRight]
              simp
              omega
            · simp only [List.cons_append, List.nil_append, allAllowed,
                TimeoutEvent.allowed, TimeoutEvent.holds]
              simpa using h5
            · simp only [List.cons_append, List.nil_append, heldAfter, List.foldl_cons,
                TimeoutEvent.holds]
              simpa [heldAfter] using h6
            · intro hmem
              apply h9
              simpa using hmem
            · intro e he
              simp only [List.cons_append, List.nil_append, List.mem_cons] at he
              rcases he with rfl | rfl | he
              · simp
              · simp
              · exact h10 e he
        | true =>
          cases hr : right a.toNat with
          | true =>
            obtain ⟨k1, hk1⟩ : ∃ k1 : Nat, k = k1 + 1 := ⟨k - 1, by omega⟩
            refine ⟨true, a, [TimeoutEvent.readStop false, TimeoutEvent.tryLeft true,
              TimeoutEvent.tryRight true], ?_, le_refl _, h3, ?_, ?_, by decide, by decide,
              by simp, fun _ => ⟨ha, hl, hr⟩, fun _ => rfl, by simp⟩
            · simp [attemptBody, hk1, attemptLoop]
            · simp [TimeoutEvent.isTryLeft]
            · simp [TimeoutEvent.isTryLeft, TimeoutEvent.isTryRight]
          | false =>
            obtain ⟨g, a1, rest, hrun, h1, h2, h3', h4, h5, h6, h7, h8, h9, h10⟩ :=
              ih (a + 1) (by omega) (by omega) (by push_cast at hf ⊢; omega)
            by_cases hlt : a + 1 < 3
            · refine ⟨g, a1, TimeoutEvent.readStop false ::
                ([TimeoutEvent.tryLeft true, TimeoutEvent.tryRight false,
                  TimeoutEvent.unlockLeft] ++ [TimeoutEvent.sleep]) ++ rest, ?_, by omega, h2,
                ?_, ?_, ?_, ?_, h7, h8, ?_, ?_⟩
              · simp [attemptBody, hw, hlt, hrun]
              · simp only [List.cons_append, List.nil_append, List.countP_cons,
                  TimeoutEvent.isTryLeft]
                simp
                omega
              · simp only [List.cons_append, List.nil_append, List.countP_cons,
                  TimeoutEvent.isTryLeft, TimeoutEvent.isTryRight]
                simp
                omega
              · simp only [List.cons_append, List.nil_append, allAllowed,
                  TimeoutEvent.allowed, TimeoutEvent.holds]
                simpa using h5
              · simp only [List.cons_append, List.nil_append, heldAfter, List.foldl_cons,
                  TimeoutEvent.holds]
                simpa [heldAfter] using h6
              · intro hmem
                apply h9
                simpa using hmem
              · intro e he
                simp only [List.cons_append, List.nil_append, List.mem_cons] at he
                rcases he with rfl | rfl | rfl | rfl | rfl | he
                · simp
                · simp
                · simp
                · simp
                · simp
                · exact h10 e he
            · refine ⟨g, a1, TimeoutEvent.readStop false ::
                [TimeoutEvent.tryLeft true, TimeoutEvent.tryRight false,
                  TimeoutEvent.unlockLeft] ++ rest, ?_, by omega, h2,
                ?_, ?_, ?_, ?_, h7, h8, ?_, ?_⟩
              · simp [attemptBody, hw, hlt, hrun]
              · simp only [List.cons_append, List.nil_append, List.countP_cons,
                  TimeoutEvent.isTryLeft]
                simp
                omega
              · simp only [List.cons_append, List.nil_append, List.countP_cons,
                  TimeoutEvent.isTryLeft, TimeoutEvent.isTryRight]
                simp
                omega
              · simp only [List.cons_append, List.nil_append, allAllowed,
                  TimeoutEvent.allowed, TimeoutEvent.holds]
                simpa using h5
              · simp only [List.cons_append, List.nil_append, heldAfter, List.foldl_cons,
                  TimeoutEvent.holds]
                simpa [heldAfter] using h6
              · intro hmem
                apply h9
                simpa using hmem
              · intro e he
                simp only [List.cons_append, List.nil_append, List.mem_cons] at he
                rcases he with rfl | rfl | rfl | rfl | he
                · simp
                · simp
                · simp
                · simp
                · exact h10 e he
      · have : a = 3 := by omega
        simp only [ha, if_false]
        refine ⟨false, a, [TimeoutEvent.readStop false], rfl, le_refl _, h3, by simp
          [TimeoutEvent.isTryLeft], by simp [TimeoutEvent.isTryRight], by decide, by decide,
          fun _ => Or.inl this, by simp, by simp, by simp⟩
theorem allAllowed_getElem (events : List TimeoutEvent) : ∀ (h : Bool × Bool),
    allAllowed h events = true → ∀ (k : Nat) (e : TimeoutEvent), events[k]? = some e →
      e.allowed (heldAfter h (events.take k)) = true := by
  induction events with
  | nil => intro h _ k e he; simp at he
  | cons x rest ih =>
    intro h hall k e he
    simp only [allAllowed, Bool.and_eq_true] at hall
    cases k with
    | zero =>
      simp only [List.getElem?_cons_zero, Option.some.injEq] at he
      subst he
      simpa [heldAfter] using hall.1
    | succ k =>
      simp only [List.getElem?_cons_succ] at he
      have := ih (x.holds h) hall.2 k e he
      simpa [heldAfter] using this

theorem attemptBody_cases (l r : Bool) (a : Int) (h0 : 0 ≤ a) (ha : a < 3) :
    (attemptBody l r a = (true, a, [TimeoutEvent.tryLeft true, TimeoutEvent.tryRight true])) ∨
    (∃ done : List TimeoutEvent, attemptBody l r a = (false, a + 1, done) ∧ done.length ≤ 4) := by
  have hw : wrapInt (a + 1) = a + 1 := wrapInt_eq_self (by omega) (by omega)
  cases l <;> cases r <;> simp only [attemptBody, hw, Bool.false_eq_true, if_false, if_true]
  · right
    split
    · exact ⟨_, rfl, by simp⟩
    · exact ⟨_, rfl, by simp⟩
  · right
    split
    · exact ⟨_, rfl, by simp⟩
    · exact ⟨_, rfl, by simp⟩
  · right
    split
    · exact ⟨_, rfl, by simp⟩
    · exact ⟨_, rfl, by simp⟩
  · left
    trivial

theorem attemptLoop_length (stop left right : Nat → Bool) :
    ∀ (fuel : Nat) (a : Int) (g : Bool) (a1 : Int) (done : List TimeoutEvent),
      0 ≤ a → a ≤ 3 → attemptLoop stop left right fuel false a = some (g, a1, done) →
      (done.length : Int) ≤ 5 * (3 - a) + 1 := by
  intro fuel
  induction fuel with
  | zero => intro a g a1 done _ _ h; simp [attemptLoop] at h
  | succ k ih =>
    intro a g a1 done h0 h3 h
    simp only [attemptLoop, Bool.false_eq_true, if_false] at h
    split at h
    · simp only [Option.some.injEq, Prod.mk.injEq] at h
      obtain ⟨_, _, rfl⟩ := h
      simp
      omega
    · split at h
      · rename_i ha
        rcases attemptBody_cases (left a.toNat) (right a.toNat) a h0 ha with hb | ⟨d, hb, hd⟩
        · rw [hb] at h
          simp only at h
          cases k with
          | zero => simp [attemptLoop] at h
          | succ k1 =>
            simp only [attemptLoop, if_true, Option.some.injEq, Prod.mk.injEq] at h
            obtain ⟨_, _, rfl⟩ := h
            simp
            omega
        · rw [hb] at h
          simp only at h
          cases hrec : attemptLoop stop left right k false (a + 1) with
          | none => simp [hrec] at h
          | some res =>
            obtain ⟨g3, a3, rest⟩ := res
            simp only [hrec, Option.some.injEq, Prod.mk.injEq] at h
            obtain ⟨_, _, rfl⟩ := h
            have := ih (a + 1) g3 a3 rest (by omega) (by omega) hrec
            simp only [List.length_cons, List.length_append]
            push_cast
            omega
      · simp only [Option.some.injEq, Prod.mk.injEq] at h
        obtain ⟨_, _, rfl⟩ := h
        simp
        omega
/-- One hunger cycle with at least four evaluations of the loop condition
allowed: the outcome of the attempt loop and the shape of what was done. -/
theorem dineWithTimeout_cycle_spec (stop left right : Nat → Bool) (extra : Nat) :
    ∃ (g : Bool) (a : Int) (done : List TimeoutEvent),
      dineWithTimeout_cycle stop left right (4 + extra) = some (g, a, TimeoutEvent.think ::
        done ++ (if g then [TimeoutEvent.eat, TimeoutEvent.unlockRight, TimeoutEvent.unlockLeft]
          else [TimeoutEvent.hungry])) ∧
      0 ≤ a ∧ a ≤ 3 ∧
      (done.countP TimeoutEvent.isTryLeft : Int) = a + (if g then 1 else 0) ∧
      done.countP TimeoutEvent.isTryRight ≤ done.countP TimeoutEvent.isTryLeft ∧
      allAllowed (false, false) done = true ∧
      heldAfter (false, false) done = (g, g) ∧
      (g = false → a = 3 ∨ stop a.toNat = true) ∧
      (g = true → a < 3 ∧ left a.toNat = true ∧ right a.toNat = true) ∧
      (TimeoutEvent.tryRight true ∈ done → g = true) ∧
      (∀ e ∈ done, e ≠ TimeoutEvent.eat ∧ e ≠ TimeoutEvent.hungry ∧ e ≠ TimeoutEvent.think ∧
        e ≠ TimeoutEvent.unlockRight) ∧
      done.length ≤ 16 := by
  obtain ⟨g, a, done, hrun, h1, h2, h3, h4, h5, h6, h7, h8, h9, h10⟩ :=
    attemptLoop_spec stop left right (4 + extra) 0 (le_refl _) (by decide)
      (by push_cast; omega)
  have hlen := attemptLoop_length stop left right (4 + extra) 0 g a done (le_refl _)
    (by decide) hrun
  refine ⟨g, a, done, ?_, h1, h2, by simpa using h3, h4, h5, h6, h7, h8, h9, h10, by omega⟩
  simp only [dineWithTimeout_cycle, hrun]

/-- C12: in a hunger cycle of `dineWithTimeout`, whatever `try_lock_for`
returns and whatever values of `stopFlag` are read, the attempt loop
terminates within four evaluations of its condition, at most 3 timed attempts
are made on the left fork and at most 3 on the right fork, at most 20 actions
are performed in the cycle (none of them a blocking `lock()`), and the cycle
ends either with `eat()` followed by the two unlocks (and no hungry message)
or with the hungry message (and no `eat()`). -/
theorem dineWithTimeout_bounded (stop left right : Nat → Bool) (extra : Nat) :
    ∃ (g : Bool) (a : Int) (events : List TimeoutEvent),
      dineWithTimeout_cycle stop left right (4 + extra) = some (g, a, events) ∧
      events.countP TimeoutEvent.isTryLeft ≤ 3 ∧
      events.countP TimeoutEvent.isTryRight ≤ 3 ∧
      events.length ≤ 20 ∧
      ((∃ done : List TimeoutEvent, events = TimeoutEvent.think :: done ++
          [TimeoutEvent.eat, TimeoutEvent.unlockRight, TimeoutEvent.unlockLeft] ∧
          TimeoutEvent.hungry ∉ events) ∨
       (∃ done : List TimeoutEvent, events = TimeoutEvent.think :: done ++
          [TimeoutEvent.hungry] ∧ TimeoutEvent.eat ∉ events)) := by
  obtain ⟨g, a, done, hrun, h0, h1, h3, h4, _, _, _, h8, _, h10, hlen⟩ :=
    dineWithTimeout_cycle_spec stop left right extra
  have hL : done.countP TimeoutEvent.isTryLeft ≤ 3 := by
    cases g with
    | true =>
      have := (h8 rfl).1
      simp only [if_true] at h3
      omega
    | false =>
      simp only [Bool.false_eq_true, if_false] at h3
      omega
  refine ⟨g, a, _, hrun, ?_, ?_, ?_, ?_⟩
  · cases g <;>
      simp [List.countP_cons, List.countP_append, TimeoutEvent.isTryLeft] <;> exact hL
  · cases g <;>
      simp [List.countP_cons, List.countP_append, TimeoutEvent.isTryRight] <;> omega
  · cases g <;> simp <;> omega
  · cases g with
    | true =>
      left
      refine ⟨done, by simp, ?_⟩
      intro h
      simp at h
      exact (h10 _ h).2.1 rfl
    | false =>
      right
      refine ⟨done, by simp, ?_⟩
      intro h
      simp at h
      exact (h10 _ h).1 rfl
/-- C18: in a hunger cycle of `dineWithTimeout`, whatever `try_lock_for`
returns and whatever values of `stopFlag` are read: at the exit of the
attempt loop the thread holds both forks when `gotForks` is true and neither
when it is false; whenever it sleeps between attempts, evaluates the loop
condition after a failed attempt (reads `stopFlag`), thinks or reports that it
goes hungry it holds no fork, and right after a timed-out attempt on the left
fork it holds none; `eat()` happens with both forks held; `eat()` and the
unlock of the right fork happen exactly when `gotForks` is true, and the
cycle ends with no fork held. -/
theorem dineWithTimeout_releases (stop left right : Nat → Bool) (extra : Nat) :
    ∃ (g : Bool) (a : Int) (done events : List TimeoutEvent),
      dineWithTimeout_cycle stop left right (4 + extra) = some (g, a, events) ∧
      events = TimeoutEvent.think :: done ++
        (if g then [TimeoutEvent.eat, TimeoutEvent.unlockRight, TimeoutEvent.unlockLeft]
         else [TimeoutEvent.hungry]) ∧
      heldAfter (false, false) (TimeoutEvent.think :: done) = (g, g) ∧
      (∀ (k : Nat) (e : TimeoutEvent), events[k]? = some e →
        (e = TimeoutEvent.sleep ∨ e = TimeoutEvent.hungry ∨ e = TimeoutEvent.think ∨
          e = TimeoutEvent.readStop true ∨ e = TimeoutEvent.readStop false) →
        heldAfter (false, false) (events.take k) = (false, false)) ∧
      (∀ k : Nat, events[k]? = some (TimeoutEvent.tryLeft false) →
        heldAfter (false, false) (events.take (k + 1)) = (false, false)) ∧
      (∀ k : Nat, events[k]? = some TimeoutEvent.eat →
        heldAfter (false, false) (events.take k) = (true, true)) ∧
      (TimeoutEvent.eat ∈ events ↔ g = true) ∧
      (TimeoutEvent.unlockRight ∈ events ↔ g = true) ∧
      heldAfter (false, false) events = (false, false) := by
  obtain ⟨g, a, done, hrun, _, _, _, _, h5, h6, _, _, _, h10, _⟩ :=
    dineWithTimeout_cycle_spec stop left right extra
  have hall : allAllowed (false, false) (TimeoutEvent.think :: done ++
      (if g then [TimeoutEvent.eat, TimeoutEvent.unlockRight, TimeoutEvent.unlockLeft]
       else [TimeoutEvent.hungry])) = true := by
    show (TimeoutEvent.allowed (false, false) TimeoutEvent.think &&
      allAllowed (false, false) (done ++ _)) = true
    rw [allAllowed_append, h5, h6]
    cases g <;> decide
  have hidx := allAllowed_getElem _ (false, false) hall
  refine ⟨g, a, done, _, hrun, rfl, ?_, ?_, ?_, ?_, ?_, ?_, ?_⟩
  · simpa [heldAfter, TimeoutEvent.holds] using h6
  · intro k e he hcase
    have := hidx k e he
    rcases hcase with rfl | rfl | rfl | rfl | rfl <;>
      simpa [TimeoutEvent.allowed] using this
  · intro k he
    have h1 := hidx k _ he
    simp only [TimeoutEvent.allowed, beq_iff_eq] at h1
    have h2 : (TimeoutEvent.think :: done ++
        (if g then [TimeoutEvent.eat, TimeoutEvent.unlockRight, TimeoutEvent.unlockLeft]
         else [TimeoutEvent.hungry])).take (k + 1)
        = (TimeoutEvent.think :: done ++
        (if g then [TimeoutEvent.eat, TimeoutEvent.unlockRight, TimeoutEvent.unlockLeft]
         else [TimeoutEvent.hungry])).take k ++ [TimeoutEvent.tryLeft false] := by
      rw [List.take_succ, he]
      rfl
    rw [h2, heldAfter_append, h1]
    rfl
  · intro k he
    have := hidx k _ he
    simpa [TimeoutEvent.allowed] using this
  · cases g with
    | true => simp
    | false =>
      simp only [Bool.false_eq_true, if_false, iff_false]
      intro h
      simp at h
      exact (h10 _ h).1 rfl
  · cases g with
    | true => simp
    | false =>
      simp only [Bool.false_eq_true, if_false, iff_false]
      intro h
      simp at h
      exact (h10 _ h).2.2.2 rfl
  · have : heldAfter (false, false) (TimeoutEvent.think :: done ++
        (if g then [TimeoutEvent.eat, TimeoutEvent.unlockRight, TimeoutEvent.unlockLeft]
         else [TimeoutEvent.hungry]))
        = heldAfter (heldAfter (false, false) done)
          (if g then [TimeoutEvent.eat, TimeoutEvent.unlockRight, TimeoutEvent.unlockLeft]
           else [TimeoutEvent.hungry]) := by
      show heldAfter (TimeoutEvent.holds (false, false) TimeoutEvent.think) (done ++ _) = _
      rw [heldAfter_append]
      rfl
    rw [this, h6]
    cases g <;> decide

/-- C19 (as stated): with `stopFlag` read as set by the first test of the
attempt loop, the cycle ends with the hungry message although no attempt was
made (fewer than 3 failed attempts). -/
theorem dineWithTimeout_hungry_early :
    dineWithTimeout_cycle (fun _ => true) (fun _ => true) (fun _ => true) 4
      = some (false, 0,
          [TimeoutEvent.think, TimeoutEvent.readStop true, TimeoutEvent.hungry]) ∧
    [TimeoutEvent.think, TimeoutEvent.readStop true, TimeoutEvent.hungry].countP
      TimeoutEvent.isTryLeft = 0 := by
  decide

/-- C19 (amended): in a hunger cycle of `dineWithTimeout` the philosopher goes
hungry (hungry message, no `eat()`) exactly when the attempt loop ends with
`gotForks == false`, and then either `attempts == 3`, exactly 3 attempts were
made and none acquired both forks, or `attempts < 3` and the test of the
attempt loop read `stopFlag` as set after that many failed attempts; so when
`stopFlag` is read as unset throughout, it goes hungry only after 3 failed
attempts, and after fewer it retries. -/
theorem dineWithTimeout_gives_up (stop left right : Nat → Bool) (extra : Nat) :
    ∃ (g : Bool) (a : Int) (events : List TimeoutEvent),
      dineWithTimeout_cycle stop left right (4 + extra) = some (g, a, events) ∧
      (TimeoutEvent.hungry ∈ events ↔ g = false) ∧
      (TimeoutEvent.eat ∈ events ↔ g = true) ∧
      (g = false →
        (events.countP TimeoutEvent.isTryLeft : Int) = a ∧
        TimeoutEvent.tryRight true ∉ events ∧
        (a = 3 ∨ (0 ≤ a ∧ a < 3 ∧ stop a.toNat = true))) ∧
      (g = false → (∀ k : Nat, k ≤ 3 → stop k = false) →
        events.countP TimeoutEvent.isTryLeft = 3) := by
  obtain ⟨g, a, done, hrun, h0, h1, h3, _, _, _, h7, _, h9, h10, _⟩ :=
    dineWithTimeout_cycle_spec stop left right extra
  have hcount : g = false →
      ((TimeoutEvent.think :: done ++
        (if g then [TimeoutEvent.eat, TimeoutEvent.unlockRight, TimeoutEvent.unlockLeft]
         else [TimeoutEvent.hungry])).countP TimeoutEvent.isTryLeft : Int) = a := by
    intro hg
    subst hg
    simp only [Bool.false_eq_true, if_false] at h3 ⊢
    simp only [List.countP_cons, List.countP_append, TimeoutEvent.isTryLeft,
      List.countP_nil]
    simp
    omega
  refine ⟨g, a, _, hrun, ?_, ?_, ?_, ?_⟩
  · cases g with
    | false => simp
    | true =>
      simp only [if_true, reduceCtorEq, iff_false]
      intro h
      simp at h
      exact (h10 _ h).2.1 rfl
  · cases g with
    | true => simp
    | false =>
      simp only [Bool.false_eq_true, if_false, iff_false]
      intro h
      simp at h
      exact (h10 _ h).1 rfl
  · intro hg
    refine ⟨hcount hg, ?_, ?_⟩
    · intro h
      subst hg
      simp at h
      have := h9 h
      simp at this
    · rcases h7 hg with h | h
      · exact Or.inl h
      · by_cases h3' : a = 3
        · exact Or.inl h3'
        · exact Or.inr ⟨h0, by omega, h⟩
  · intro hg hstop
    have hc := hcount hg
    rcases h7 hg with h | h
    · rw [h] at hc
      exact_mod_cast hc
    · have := hstop a.toNat (by omega)
      rw [this] at h
      simp at h

/-! ## The watchdog of `main` -/

theorem main_allFinished_false (threads : List ThreadHandle)
    (h : ∃ x ∈ threads, x.joined = false) : main_allFinished threads = false := by
  induction threads with
  | nil => simp at h
  | cons x rest ih =>
    simp only [main_allFinished, ThreadHandle.joinable]
    by_cases hx : x.joined = false
    · simp [hx]
    · simp only [Bool.not_eq_false] at hx
      simp only [hx, Bool.not_true, Bool.false_eq_true, if_false]
      apply ih
      obtain ⟨y, hy, hj⟩ := h
      simp only [List.mem_cons] at hy
      rcases hy with rfl | hy
      · rw [hx] at hj; simp at hj
      · exact ⟨y, hy, hj⟩

theorem main_poll_false (threadsAt : Nat → List ThreadHandle)
    (h : ∀ i : Nat, ∃ x ∈ threadsAt i, x.joined = false) :
    ∀ (n i : Nat), main_poll threadsAt (n + 1) i true = false := by
  intro n
  induction n with
  | zero =>
    intro i
    simp [main_poll, main_allFinished_false (threadsAt i) (h i)]
  | succ n ih =>
    intro i
    simp only [main_poll, main_allFinished_false (threadsAt i) (h i), Bool.false_eq_true,
      if_false]
    have := ih (i + 1)
    simp only [main_poll, main_allFinished_false (threadsAt (i + 1)) (h (i + 1)),
      Bool.false_eq_true, if_false] at this
    simp only [main_poll, main_allFinished_false (threadsAt (i + 1)) (h (i + 1)),
      Bool.false_eq_true, if_false]
    exact this

/-- C13 (the code at the failing input): the watchdog reports a deadlock and
exits with status 1 whenever some thread has not been joined at every poll,
whether or not the threads have terminated; in particular when all five
philosopher threads have terminated before the first poll (none is joined
before the check, as in `main`). -/
theorem main_watchdog_reports_deadlock :
    (∀ threadsAt : Nat → List ThreadHandle,
      (∀ i : Nat, ∃ x ∈ threadsAt i, x.joined = false) →
      main_watchdog threadsAt = (WatchdogReport.deadlock, 1)) ∧
    main_watchdog (fun _ => List.replicate 5 { terminated := true, joined := false })
      = (WatchdogReport.deadlock, 1) := by
  have hgen : ∀ threadsAt : Nat → List ThreadHandle,
      (∀ i : Nat, ∃ x ∈ threadsAt i, x.joined = false) →
      main_watchdog threadsAt = (WatchdogReport.deadlock, 1) := by
    intro threadsAt h
    simp only [main_watchdog, main_poll_false threadsAt h 19 0]
    rfl
  exact ⟨hgen, by decide⟩

/-! ## Spin-wait -/

theorem testWithSpinWait_yields_run (j : Int) (n : Nat) :
    testWithSpinWait_yields j (List.replicate n false ++ [true])
      = if j % 100 = 0 then n else 0 := by
  induction n with
  | zero => simp [testWithSpinWait_yields]
  | succ n ih =>
    show (if j % 100 = 0 then 1 else 0) +
      testWithSpinWait_yields j (List.replicate n false ++ [true]) = _
    rw [ih]
    split <;> omega

/-- C20 (the code at the failing input): in a run of `n` failed
`compare_exchange_weak` calls of one acquisition the thread yields after every
failure when `j % 100 == 0` and never otherwise, since `j` is the index of the
outer loop and does not change while the thread spins; with `j = 1` and 200
failures there is no yield, with `j = 0` there are 200. -/
theorem testWithSpinWait_yields_by_outer_index :
    (∀ (j : Int) (n : Nat),
      testWithSpinWait_yields j (List.replicate n false ++ [true])
        = if j % 100 = 0 then n else 0) ∧
    testWithSpinWait_yields 1 (List.replicate 200 false ++ [true]) = 0 ∧
    testWithSpinWait_yields 0 (List.replicate 200 false ++ [true]) = 200 ∧
    (200 : Nat) / 100 = 2 :=
  ⟨testWithSpinWait_yields_run, by rw [testWithSpinWait_yields_run]; decide,
    by rw [testWithSpinWait_yields_run]; decide, by decide⟩
/-! ## Monitor and semaphore side by side -/

theorem Monitor.corresponds_acquire (m : Monitor) (s : Semaphore)
    (hc : m.corresponds s = true) :
    (m.enter = none ∧ s.acquire = none) ∨
    (∃ (m1 : Monitor) (s1 : Semaphore), m.enter = some m1 ∧ s.acquire = some s1 ∧
      m1.corresponds s1 = true) := by
  simp only [Monitor.corresponds] at hc
  cases ha : m.available with
  | true =>
    simp only [ha, if_true, decide_eq_true_eq] at hc
    right
    refine ⟨{ available := false }, { count := 0 }, by simp [Monitor.enter, ha], ?_, by decide⟩
    simp only [Semaphore.acquire, hc]
    decide
  | false =>
    simp only [ha, Bool.false_eq_true, if_false, decide_eq_true_eq] at hc
    left
    exact ⟨by simp [Monitor.enter, ha], by simp [Semaphore.acquire, hc]⟩

theorem Monitor.corresponds_release (m : Monitor) (s : Semaphore)
    (hc : m.corresponds s = true) (ht : m.available = false) :
    m.exit.corresponds s.release = true := by
  simp only [Monitor.corresponds, ht, Bool.false_eq_true, if_false, decide_eq_true_eq] at hc
  simp only [Monitor.corresponds, Monitor.exit, Semaphore.release, hc]
  decide

/-- C14 (as stated): `exit` on a fresh monitor leaves `available == true`,
`release` on `Semaphore(1)` makes `count == 2`, a state that corresponds to no
monitor state; after it two `acquire` calls complete on the semaphore while
the second `enter` blocks on the monitor. -/
theorem Monitor.binary_semaphore_counterexample :
    Monitor.new.corresponds (Semaphore.new 1) = true ∧
    runSched Monitor.step Monitor.new [SemOp.release] = some { available := true } ∧
    runSched Semaphore.step (Semaphore.new 1) [SemOp.release] = some { count := 2 } ∧
    Monitor.corresponds { available := true } { count := 2 } = false ∧
    runSched Monitor.step Monitor.new [SemOp.release, SemOp.acquire, SemOp.acquire] = none ∧
    runSched Semaphore.step (Semaphore.new 1) [SemOp.release, SemOp.acquire, SemOp.acquire]
      = some { count := 0 } := by
  decide

/-- C14 (amended): under the correspondence `available == true <-> count == 1`,
`available == false <-> count == 0`, `enter` and `acquire` are enabled in
exactly the same states, and for every finite sequence of operations in which
`exit`/`release` is only called while the gate is taken, the sequence
completes on the monitor exactly when it completes on the semaphore, and then
the final states correspond again. -/
theorem Monitor.equivalent_while_taken (ops : List SemOp) (m : Monitor) (s : Semaphore)
    (hc : m.corresponds s = true) (hu : m.exitsWhileTaken ops = true) :
    (Monitor.step m SemOp.acquire).isSome = (Semaphore.step s SemOp.acquire).isSome ∧
    (runSched Monitor.step m ops).isSome = (runSched Semaphore.step s ops).isSome ∧
    ∀ (m1 : Monitor) (s1 : Semaphore), runSched Monitor.step m ops = some m1 →
      runSched Semaphore.step s ops = some s1 →
      m1.corresponds s1 = true ∧
      (Monitor.step m1 SemOp.acquire).isSome = (Semaphore.step s1 SemOp.acquire).isSome := by
  have henabled : ∀ (m : Monitor) (s : Semaphore), m.corresponds s = true →
      (Monitor.step m SemOp.acquire).isSome = (Semaphore.step s SemOp.acquire).isSome := by
    intro m s hc
    simp only [Monitor.step, Semaphore.step]
    rcases Monitor.corresponds_acquire m s hc with ⟨h1, h2⟩ | ⟨m1, s1, h1, h2, _⟩ <;>
      simp [h1, h2]
  refine ⟨henabled m s hc, ?_⟩
  induction ops generalizing m s with
  | nil =>
    refine ⟨rfl, ?_⟩
    intro m1 s1 h1 h2
    simp only [runSched, Option.some.injEq] at h1 h2
    subst h1
    subst h2
    exact ⟨hc, henabled _ _ hc⟩
  | cons op rest ih =>
    cases op with
    | acquire =>
      simp only [runSched, Monitor.step, Semaphore.step]
      rcases Monitor.corresponds_acquire m s hc with ⟨h1, h2⟩ | ⟨m1, s1, h1, h2, hc1⟩
      · simp [h1, h2]
      · simp only [Monitor.exitsWhileTaken, h1] at hu
        simp only [h1, h2]
        exact ih m1 s1 hc1 hu
    | release =>
      simp only [Monitor.exitsWhileTaken, Bool.and_eq_true, Bool.not_eq_true'] at hu
      simp only [runSched, Monitor.step, Semaphore.step]
      exact ih m.exit s.release (Monitor.corresponds_release m s hc hu.1) hu.2

/-- C14 witness: enter, exit, enter on a fresh monitor and on `Semaphore(1)`. -/
theorem Monitor.equivalent_while_taken_witness :
    (Monitor.step Monitor.new SemOp.acquire).isSome
      = (Semaphore.step (Semaphore.new 1) SemOp.acquire).isSome ∧
    (runSched Monitor.step Monitor.new [SemOp.acquire, SemOp.release, SemOp.acquire]).isSome
      = (runSched Semaphore.step (Semaphore.new 1)
          [SemOp.acquire, SemOp.release, SemOp.acquire]).isSome ∧
    ∀ (m1 : Monitor) (s1 : Semaphore),
      runSched Monitor.step Monitor.new [SemOp.acquire, SemOp.release, SemOp.acquire]
        = some m1 →
      runSched Semaphore.step (Semaphore.new 1) [SemOp.acquire, SemOp.release, SemOp.acquire]
        = some s1 →
      m1.corresponds s1 = true ∧
      (Monitor.step m1 SemOp.acquire).isSome = (Semaphore.step s1 SemOp.acquire).isSome :=
  Monitor.equivalent_while_taken [SemOp.acquire, SemOp.release, SemOp.acquire]
    Monitor.new (Semaphore.new 1) (by decide) (by decide)

/-! ## Recruit filter -/

theorem Recruit.hasCategoryA_eq_any (records : List (String × String)) :
    Recruit.hasCategoryA records = records.any (fun record => decide (record.2 = "A")) := by
  induction records with
  | nil => rfl
  | cons x rest ih =>
    simp only [Recruit.hasCategoryA, List.any_cons, ih]
    by_cases h : x.2 = "A" <;> simp [h]

theorem filterRecruitsSingleThread_foldl (recruits : List Recruit) :
    ∀ suitable : List Recruit,
      recruits.foldl (fun suitable recruit =>
        if recruit.isFitForService then suitable ++ [recruit] else suitable) suitable
      = suitable ++ recruits.filter Recruit.isFitForService := by
  induction recruits with
  | nil => intro s; simp
  | cons r rest ih =>
    intro s
    simp only [List.foldl_cons, ih, List.filter_cons]
    split <;> simp

theorem filterRecruitsSingleThread_eq_filter (recruits : List Recruit) :
    filterRecruitsSingleThread recruits = recruits.filter Recruit.isFitForService := by
  simp [filterRecruitsSingleThread, filterRecruitsSingleThread_foldl]

theorem filterRecruitsRange_loop_exit (allRecruits : List Recruit) (stop : Int) (fuel : Nat)
    (i : Int) (localSuitable : List Recruit)
    (h : ¬ (i < stop ∧ 0 ≤ i ∧ i < allRecruits.length)) :
    filterRecruitsRange_loop allRecruits stop fuel i localSuitable = localSuitable := by
  cases fuel with
  | zero => rfl
  | succ k => simp only [filterRecruitsRange_loop, h, if_false]

theorem filterRecruitsRange_loop_spec (allRecruits : List Recruit) (stop : Int)
    (hmax : (allRecruits.length : Int) ≤ INT_MAX) :
    ∀ (fuel : Nat) (i : Int) (localSuitable : List Recruit), 0 ≤ i →
      allRecruits.length ≤ fuel + i.toNat →
      filterRecruitsRange_loop allRecruits stop fuel i localSuitable
        = localSuitable ++
          ((allRecruits.take stop.toNat).drop i.toNat).filter Recruit.isFitForService := by
  simp only [INT_MAX] at hmax
  intro fuel
  induction fuel with
  | zero =>
    intro i l h0 hf
    rw [List.drop_eq_nil_of_le (by simp; omega)]
    simp [filterRecruitsRange_loop]
  | succ k ih =>
    intro i l h0 hf
    by_cases hc : i < stop ∧ 0 ≤ i ∧ i < allRecruits.length
    · have hi : i.toNat < allRecruits.length := by omega
      have hw : wrapInt (i + 1) = i + 1 := wrapInt_eq_self (by omega) (by omega)
      have hlt : i.toNat < (allRecruits.take stop.toNat).length := by
        simp only [List.length_take]
        omega
      simp only [filterRecruitsRange_loop, hc, and_self, if_true,
        List.getElem?_eq_getElem hi, hw]
      rw [ih (i + 1) _ (by omega) (by omega)]
      have hsucc : (i + 1).toNat = i.toNat + 1 := by omega
      rw [hsucc, List.drop_eq_getElem_cons hlt, List.filter_cons]
      have hget : (allRecruits.take stop.toNat)[i.toNat] = allRecruits[i.toNat] := by
        simp
      rw [hget]
      split <;> simp
    · rw [filterRecruitsRange_loop_exit allRecruits stop _ i l hc]
      rw [List.drop_eq_nil_of_le (by simp only [List.length_take]; omega)]
      simp

theorem filterRecruitsRange_eq (allRecruits : List Recruit) (start stop : Nat)
    (hmax : (allRecruits.length : Int) ≤ INT_MAX) :
    filterRecruitsRange allRecruits start stop
      = ((allRecruits.take stop).drop start).filter Recruit.isFitForService := by
  simp only [filterRecruitsRange]
  rw [filterRecruitsRange_loop_spec allRecruits stop hmax _ _ _ (by omega) (by omega)]
  simp
theorem chunkBounds_eq (recruits : List Recruit) (k i : Nat)
    (hn : (recruits.length : Int) ≤ INT_MAX) (hi : i < k) :
    chunkBounds recruits (k : Int) i
      = (((i * (recruits.length / k) : Nat) : Int),
         ((if i + 1 = k then recruits.length else (i + 1) * (recruits.length / k) : Nat) :
            Int)) := by
  simp only [INT_MAX] at hn
  have hdiv : ((recruits.length : Int) / (k : Int)) = ((recruits.length / k : Nat) : Int) :=
    (Int.natCast_div _ _).symm
  have hle : ((recruits.length / k : Nat) : Int) ≤ (recruits.length : Int) := by
    exact_mod_cast Nat.div_le_self recruits.length k
  have hnn : (0 : Int) ≤ ((recruits.length / k : Nat) : Int) := Int.natCast_nonneg _
  have hc : chunkSize recruits (k : Int) = ((recruits.length / k : Nat) : Int) := by
    simp only [chunkSize]
    rw [hdiv]
    exact wrapInt_eq_self (by omega) (by omega)
  have hkc : k * (recruits.length / k) ≤ recruits.length := Nat.mul_div_le _ _
  have h1 : i * (recruits.length / k) ≤ recruits.length :=
    le_trans (Nat.mul_le_mul_right _ (by omega)) hkc
  have hfst : wrapInt ((i : Int) * ((recruits.length / k : Nat) : Int))
      = ((i * (recruits.length / k) : Nat) : Int) := by
    rw [← Nat.cast_mul]
    exact wrapInt_eq_self (by omega) (by omega)
  have hsnd : (if (i : Int) = (k : Int) - 1 then wrapInt (recruits.length : Int)
      else wrapInt (((i : Int) + 1) * ((recruits.length / k : Nat) : Int)))
      = ((if i + 1 = k then recruits.length else (i + 1) * (recruits.length / k) : Nat) :
          Int) := by
    by_cases hlast : i + 1 = k
    · have : (i : Int) = (k : Int) - 1 := by omega
      rw [if_pos this, if_pos hlast]
      exact wrapInt_eq_self (by omega) (by omega)
    · have : ¬ ((i : Int) = (k : Int) - 1) := by omega
      rw [if_neg this, if_neg hlast]
      have h2 : (i + 1) * (recruits.length / k) ≤ recruits.length :=
        le_trans (Nat.mul_le_mul_right _ (by omega)) hkc
      have h3 : ((i : Int) + 1) * ((recruits.length / k : Nat) : Int)
          = (((i + 1) * (recruits.length / k) : Nat) : Int) := by push_cast; ring
      rw [h3]
      exact wrapInt_eq_self (by omega) (by omega)
  unfold chunkBounds
  rw [hc, hfst, hsnd]

theorem chunks_flatten_prefix {α : Type} (l : List α) (c : Nat) : ∀ j : Nat,
    ((List.range j).map fun i => (l.take ((i + 1) * c)).drop (i * c)).flatten
      = l.take (j * c) := by
  intro j
  induction j with
  | zero => simp
  | succ j ih =>
    rw [List.range_succ, List.map_append, List.flatten_append, ih]
    simp only [List.map_cons, List.map_nil, List.flatten_cons, List.flatten_nil,
      List.append_nil]
    have h : l.take (j * c) = (l.take ((j + 1) * c)).take (j * c) := by
      rw [List.take_take]
      congr 1
      have : j * c ≤ (j + 1) * c := Nat.mul_le_mul_right _ (by omega)
      omega
    rw [h]
    exact List.take_append_drop _ _

theorem chunks_flatten {α : Type} (l : List α) (k : Nat) (hk : 1 ≤ k) :
    ((List.range k).map fun i =>
      (l.take (if i + 1 = k then l.length else (i + 1) * (l.length / k))).drop
        (i * (l.length / k))).flatten = l := by
  obtain ⟨j, rfl⟩ : ∃ j : Nat, k = j + 1 := ⟨k - 1, by omega⟩
  rw [List.range_succ, List.map_append, List.flatten_append]
  have hfirst : ((List.range j).map fun i =>
      (l.take (if i + 1 = j + 1 then l.length else (i + 1) * (l.length / (j + 1)))).drop
        (i * (l.length / (j + 1))))
      = (List.range j).map fun i =>
        (l.take ((i + 1) * (l.length / (j + 1)))).drop (i * (l.length / (j + 1))) := by
    apply List.map_congr_left
    intro i hi
    have : i < j := List.mem_range.mp hi
    have hne : ¬ (i + 1 = j + 1) := by omega
    simp only [hne, if_false]
  rw [hfirst, chunks_flatten_prefix]
  simp
/-- C15 (as stated): for a list of 2147483648 fit recruits and one thread,
`chunkSize` and the `int` argument `end` of `filterRecruitsRange` are
`recruits.size()` converted to `int`, which is -2147483648, so the range loop
does not run and the multi-threaded result is empty, while the
single-threaded result has 2147483648 recruits. -/
theorem filterRecruitsMultiThread_truncates :
    filterRecruitsMultiThread
      (List.replicate 2147483648
        { name := "r", birthDate := "d", doctorRecords := [("t", "A")] }) 1 [0] = [] ∧
    (filterRecruitsSingleThread
      (List.replicate 2147483648
        { name := "r", birthDate := "d", doctorRecords := [("t", "A")] })).length
      = 2147483648 := by
  constructor
  · have hb : chunkBounds (List.replicate 2147483648
        ({ name := "r", birthDate := "d", doctorRecords := [("t", "A")] } : Recruit)) 1 0
        = (0, -2147483648) := by
      unfold chunkBounds chunkSize
      rw [List.length_replicate]
      decide
    unfold filterRecruitsMultiThread
    rw [List.map_cons, List.map_nil, hb]
    unfold filterRecruitsRange
    rw [filterRecruitsRange_loop_exit _ _ _ _ _ (by
      intro h
      have := h.1
      omega)]
    rfl
  · rw [filterRecruitsSingleThread_eq_filter, List.filter_replicate, if_pos (by decide),
      List.length_replicate]

/-- C15 (amended): for every list of at most `INT_MAX` recruits, every
`numThreads >= 1` and every order in which the threads append their part,
`filterRecruitsMultiThread` returns as many recruits as
`filterRecruitsSingleThread` and a permutation of its result, which is the
sub-list, in input order, of the recruits that have a record with category
`"A"`. -/
theorem filterRecruitsMultiThread_agrees (recruits : List Recruit) (numThreads : Nat)
    (order : List Nat) (hk : 1 ≤ numThreads) (hn : (recruits.length : Int) ≤ INT_MAX)
    (horder : order.Perm (List.range numThreads)) :
    (filterRecruitsMultiThread recruits (numThreads : Int) order).length
      = (filterRecruitsSingleThread recruits).length ∧
    (filterRecruitsMultiThread recruits (numThreads : Int) order).Perm
      (filterRecruitsSingleThread recruits) ∧
    filterRecruitsSingleThread recruits
      = recruits.filter (fun r => r.doctorRecords.any (fun record => decide (record.2 = "A")))
    := by
  have hlocal : order.map (fun i =>
      filterRecruitsRange recruits (chunkBounds recruits (numThreads : Int) i).1
        (chunkBounds recruits (numThreads : Int) i).2)
      = order.map (fun i => List.filter Recruit.isFitForService
          ((recruits.take (if i + 1 = numThreads then recruits.length
              else (i + 1) * (recruits.length / numThreads))).drop
            (i * (recruits.length / numThreads)))) := by
    apply List.map_congr_left
    intro i hi
    have hlt : i < numThreads := List.mem_range.mp (horder.mem_iff.mp hi)
    rw [chunkBounds_eq recruits numThreads i hn hlt]
    exact filterRecruitsRange_eq recruits _ _ hn
  have hperm : (filterRecruitsMultiThread recruits (numThreads : Int) order).Perm
      (filterRecruitsSingleThread recruits) := by
    unfold filterRecruitsMultiThread
    rw [hlocal, filterRecruitsSingleThread_eq_filter]
    have h1 := (horder.map (fun i => List.filter Recruit.isFitForService
      ((recruits.take (if i + 1 = numThreads then recruits.length
          else (i + 1) * (recruits.length / numThreads))).drop
        (i * (recruits.length / numThreads))))).flatten
    have h2 : ((List.range numThreads).map (fun i => List.filter Recruit.isFitForService
        ((recruits.take (if i + 1 = numThreads then recruits.length
            else (i + 1) * (recruits.length / numThreads))).drop
          (i * (recruits.length / numThreads))))).flatten
        = recruits.filter Recruit.isFitForService := by
      have := List.filter_flatten Recruit.isFitForService
        ((List.range numThreads).map fun i =>
          (recruits.take (if i + 1 = numThreads then recruits.length
            else (i + 1) * (recruits.length / numThreads))).drop
          (i * (recruits.length / numThreads)))
      rw [chunks_flatten recruits numThreads hk, List.map_map] at this
      rw [this]
      rfl
    rw [← h2]
    exact h1
  refine ⟨hperm.length_eq, hperm, ?_⟩
  rw [filterRecruitsSingleThread_eq_filter]
  congr 1
  funext r
  exact Recruit.hasCategoryA_eq_any r.doctorRecords

/-- C15 witness: three recruits, two threads, thread 1 appends first. -/
theorem filterRecruitsMultiThread_agrees_witness :
    (filterRecruitsMultiThread
      [{ name := "a", birthDate := "d", doctorRecords := [("t", "A")] },
       { name := "b", birthDate := "d", doctorRecords := [("t", "B")] },
       { name := "c", birthDate := "d", doctorRecords := [("t", "B"), ("s", "A")] }]
      ((2 : Nat) : Int) [1, 0]).length
      = (filterRecruitsSingleThread
      [{ name := "a", birthDate := "d", doctorRecords := [("t", "A")] },
       { name := "b", birthDate := "d", doctorRecords := [("t", "B")] },
       { name := "c", birthDate := "d", doctorRecords := [("t", "B"), ("s", "A")] }]).length ∧
    (filterRecruitsMultiThread
      [{ name := "a", birthDate := "d", doctorRecords := [("t", "A")] },
       { name := "b", birthDate := "d", doctorRecords := [("t", "B")] },
       { name := "c", birthDate := "d", doctorRecords := [("t", "B"), ("s", "A")] }]
      ((2 : Nat) : Int) [1, 0]).Perm
      (filterRecruitsSingleThread
      [{ name := "a", birthDate := "d", doctorRecords := [("t", "A")] },
       { name := "b", birthDate := "d", doctorRecords := [("t", "B")] },
       { name := "c", birthDate := "d", doctorRecords := [("t", "B"), ("s", "A")] }]) ∧
    filterRecruitsSingleThread
      [{ name := "a", birthDate := "d", doctorRecords := [("t", "A")] },
       { name := "b", birthDate := "d", doctorRecords := [("t", "B")] },
       { name := "c", birthDate := "d", doctorRecords := [("t", "B"), ("s", "A")] }]
      = ([{ name := "a", birthDate := "d", doctorRecords := [("t", "A")] },
       { name := "b", birthDate := "d", doctorRecords := [("t", "B")] },
       { name := "c", birthDate := "d", doctorRecords := [("t", "B"), ("s", "A")] }] :
        List Recruit).filter
        (fun r => r.doctorRecords.any (fun record => decide (record.2 = "A"))) :=
  filterRecruitsMultiThread_agrees
    [{ name := "a", birthDate := "d", doctorRecords := [("t", "A")] },
     { name := "b", birthDate := "d", doctorRecords := [("t", "B")] },
     { name := "c", birthDate := "d", doctorRecords := [("t", "B"), ("s", "A")] }]
    2 [1, 0] (by decide) (by decide) (List.Perm.swap 0 1 [])

/-! ## Barrier: tie-break -/

theorem Barrier.after_closed (total : Int) (hpos : 0 < total) (hmax : total ≤ INT_MAX)
    (k : Nat) :
    Barrier.after k (Barrier.new total)
      = { count := total - ((k % total.toNat : Nat) : Int),
          generation := wrapInt ((k / total.toNat : Nat) : Int), total := total } := by
  have hk : k = (k / total.toNat) * total.toNat + k % total.toNat :=
    (Nat.div_add_mod' k total.toNat).symm
  have hlt : k % total.toNat < total.toNat := Nat.mod_lt k (by omega)
  conv_lhs => rw [hk]
  rw [Barrier.after_add, Barrier.after_generations total hpos hmax,
    Barrier.after_lt total _ (k % total.toNat) total (by omega) hmax]

theorem Barrier.flips_after (total : Int) (hpos : 0 < total) (hmax : total ≤ INT_MAX)
    (m j : Nat) (hj : j < total.toNat) :
    Barrier.after (m * total.toNat + j) (Barrier.new total)
      = { count := total - (j : Int), generation := wrapInt (m : Int), total := total } := by
  rw [Barrier.after_add, Barrier.after_generations total hpos hmax,
    Barrier.after_lt total _ j total (by omega) hmax]

theorem countP_range_last (n : Nat) :
    (List.range (n + 1)).countP (fun j => decide (j = n)) = 1 := by
  rw [List.range_succ, List.countP_append]
  have h0 : (List.range n).countP (fun j => decide (j = n)) = 0 := by
    rw [List.countP_eq_zero]
    intro a ha
    have := List.mem_range.mp ha
    simp only [decide_eq_true_eq]
    omega
  rw [h0]
  simp

/-- C16 (as stated): a `Barrier(1)` that has taken 2147483647 arrivals has
`count == 1` and `generation == INT_MAX`; the next call brings `count` to 0
and its `++generation` leaves `generation == INT_MIN`, which is not the old
value plus 1. -/
theorem Barrier.tie_break_overflow_counterexample :
    Barrier.after 2147483647 (Barrier.new 1)
      = { count := 1, generation := 2147483647, total := 1 } ∧
    wrapInt ((Barrier.after 2147483647 (Barrier.new 1)).count - 1) = 0 ∧
    (Barrier.after 2147483647 (Barrier.new 1)).arrive_and_wait.1.generation = -2147483648 ∧
    (Barrier.after 2147483647 (Barrier.new 1)).arrive_and_wait.1.generation
      ≠ (Barrier.after 2147483647 (Barrier.new 1)).generation + 1 := by
  have h : Barrier.after 2147483647 (Barrier.new 1)
      = { count := 1, generation := 2147483647, total := 1 } := by
    have := Barrier.after_generations 1 (by decide) (by decide) 2147483647
    have hw : wrapInt ((2147483647 : Nat) : Int) = 2147483647 := by decide
    rw [hw] at this
    exact this
  rw [h]
  refine ⟨rfl, by decide, by decide, by decide⟩

/-- C16 (amended): for every `total > 0` (an `int`) and every number `k` of
arrivals a fresh `Barrier(total)` has taken, the state has
`count == total - k % total`, `generation == k / total` as an `int`.  A call
of `arrive_and_wait` whose decrement brings `count` to 0 sets `generation` to
`generation + 1` as a 32-bit `int` (exactly `generation + 1` while
`generation < INT_MAX`, and in every case a value different from the old
one), resets `count` to `total` and returns without waiting.  Every other
call leaves `generation` unchanged, leaves `count` decremented by exactly 1
and enters `cv.wait` with the generation it observed, whose predicate is
false then and is true exactly when `generation` differs from the observed
value.  Of the `total` calls of a generation (all of which observe the same
generation), exactly one performs the flip.  The barrier of the system of
`total` threads is always in such a state. -/
theorem Barrier.tie_break (total : Int) (hpos : 0 < total) (hmax : total ≤ INT_MAX) (k : Nat) :
    Barrier.after k (Barrier.new total)
      = { count := total - ((k % total.toNat : Nat) : Int),
          generation := wrapInt ((k / total.toNat : Nat) : Int), total := total } ∧
    (wrapInt ((Barrier.after k (Barrier.new total)).count - 1) = 0 →
      (Barrier.after k (Barrier.new total)).arrive_and_wait
        = ({ count := total,
             generation := wrapInt ((Barrier.after k (Barrier.new total)).generation + 1),
             total := total }, none) ∧
      ((Barrier.after k (Barrier.new total)).generation < INT_MAX →
        (Barrier.after k (Barrier.new total)).arrive_and_wait.1.generation
          = (Barrier.after k (Barrier.new total)).generation + 1) ∧
      (Barrier.after k (Barrier.new total)).arrive_and_wait.1.generation
        ≠ (Barrier.after k (Barrier.new total)).generation) ∧
    (wrapInt ((Barrier.after k (Barrier.new total)).count - 1) ≠ 0 →
      (Barrier.after k (Barrier.new total)).arrive_and_wait
        = ({ count := (Barrier.after k (Barrier.new total)).count - 1,
             generation := (Barrier.after k (Barrier.new total)).generation,
             total := total },
           some (Barrier.after k (Barrier.new total)).generation) ∧
      (Barrier.after k (Barrier.new total)).arrive_and_wait.1.wait_pred
        (Barrier.after k (Barrier.new total)).generation = false) ∧
    (∀ (b : Barrier) (gen : Int), b.wait_pred gen = true ↔ b.generation ≠ gen) ∧
    (∀ m : Nat,
      (List.range total.toNat).countP
        (fun j => !(Barrier.after (m * total.toNat + j) (Barrier.new total)).blocks) = 1 ∧
      ∀ j : Nat, j < total.toNat →
        (Barrier.after (m * total.toNat + j) (Barrier.new total)).generation = wrapInt m) ∧
    (∀ (sched : List BarrierOp) (s : BarrierSys),
      runSched BarrierSys.step (BarrierSys.init total) sched = some s →
      s.barrier = Barrier.after s.arrivals (Barrier.new total)) := by
  have hA := Barrier.after_closed total hpos hmax k
  have hlt : k % total.toNat < total.toNat := Nat.mod_lt k (by omega)
  have hw : wrapInt (total - ((k % total.toNat : Nat) : Int) - 1)
      = total - ((k % total.toNat : Nat) : Int) - 1 :=
    wrapInt_eq_self (by omega) (by simp only [INT_MAX] at hmax; omega)
  refine ⟨hA, ?_, ?_, ?_, ?_, ?_⟩
  · rw [hA]
    intro hz
    have hz1 : wrapInt (total - ((k % total.toNat : Nat) : Int) - 1) = 0 := hz
    have harr : Barrier.arrive_and_wait
        { count := total - ((k % total.toNat : Nat) : Int),
          generation := wrapInt ((k / total.toNat : Nat) : Int), total := total }
        = ({ count := total,
             generation := wrapInt (wrapInt ((k / total.toNat : Nat) : Int) + 1),
             total := total }, none) := by
      simp only [Barrier.arrive_and_wait]
      rw [if_pos hz1]
    rw [harr]
    refine ⟨rfl, ?_, ?_⟩
    · intro hg
      simp only [INT_MAX] at hg
      have hge : -2147483648 ≤ wrapInt ((k / total.toNat : Nat) : Int) := by
        unfold wrapInt; omega
      exact wrapInt_eq_self (by omega) (by omega)
    · have := wrapInt_ne_succ (((k / total.toNat : Nat) : Int))
      rw [wrapInt_succ]
      exact fun h => this h.symm
  · rw [hA]
    intro hz
    have hz1 : ¬ wrapInt (total - ((k % total.toNat : Nat) : Int) - 1) = 0 := hz
    have harr : Barrier.arrive_and_wait
        { count := total - ((k % total.toNat : Nat) : Int),
          generation := wrapInt ((k / total.toNat : Nat) : Int), total := total }
        = ({ count := total - ((k % total.toNat : Nat) : Int) - 1,
             generation := wrapInt ((k / total.toNat : Nat) : Int),
             total := total }, some (wrapInt ((k / total.toNat : Nat) : Int))) := by
      simp only [Barrier.arrive_and_wait]
      rw [if_neg hz1, hw]
    rw [harr]
    refine ⟨rfl, ?_⟩
    simp [Barrier.wait_pred]
  · intro b gen
    simp only [Barrier.wait_pred, decide_eq_true_eq]
    exact ⟨fun h e => h e.symm, fun h e => h e.symm⟩
  · intro m
    constructor
    · obtain ⟨n, hn⟩ : ∃ n : Nat, total.toNat = n + 1 := ⟨total.toNat - 1, by omega⟩
      have hcongr : (List.range total.toNat).countP
          (fun j => !(Barrier.after (m * total.toNat + j) (Barrier.new total)).blocks)
          = (List.range total.toNat).countP (fun j => decide (j = n)) := by
        apply List.countP_congr
        intro j hj
        have hjlt := List.mem_range.mp hj
        rw [Barrier.flips_after total hpos hmax m j hjlt]
        have hwj : wrapInt (total - (j : Int) - 1) = total - (j : Int) - 1 :=
          wrapInt_eq_self (by omega) (by simp only [INT_MAX] at hmax; omega)
        simp only [Barrier.blocks, Barrier.arrive_and_wait, hwj, decide_eq_true_eq]
        by_cases hz : total - (j : Int) - 1 = 0
        · simp only [hz, if_true, Option.isSome_none, Bool.not_false, true_iff]
          omega
        · simp only [hz, if_false, Option.isSome_some, Bool.not_true, false_iff]
          simp only [Bool.false_eq_true, false_iff]
          omega
      rw [hcongr, hn]
      exact countP_range_last n
    · intro j hj
      rw [Barrier.flips_after total hpos hmax m j hj]
  · intro sched s hrun
    exact BarrierSys.barrier_eq_after total sched s hrun

/-- C16 witness: `Barrier(2)` after three arrivals (the next call flips). -/
theorem Barrier.tie_break_witness :
    Barrier.after 3 (Barrier.new 2)
      = { count := 2 - ((3 % (2 : Int).toNat : Nat) : Int),
          generation := wrapInt ((3 / (2 : Int).toNat : Nat) : Int), total := 2 } ∧
    (wrapInt ((Barrier.after 3 (Barrier.new 2)).count - 1) = 0 →
      (Barrier.after 3 (Barrier.new 2)).arrive_and_wait
        = ({ count := 2,
             generation := wrapInt ((Barrier.after 3 (Barrier.new 2)).generation + 1),
             total := 2 }, none) ∧
      ((Barrier.after 3 (Barrier.new 2)).generation < INT_MAX →
        (Barrier.after 3 (Barrier.new 2)).arrive_and_wait.1.generation
          = (Barrier.after 3 (Barrier.new 2)).generation + 1) ∧
      (Barrier.after 3 (Barrier.new 2)).arrive_and_wait.1.generation
        ≠ (Barrier.after 3 (Barrier.new 2)).generation) ∧
    (wrapInt ((Barrier.after 3 (Barrier.new 2)).count - 1) ≠ 0 →
      (Barrier.after 3 (Barrier.new 2)).arrive_and_wait
        = ({ count := (Barrier.after 3 (Barrier.new 2)).count - 1,
             generation := (Barrier.after 3 (Barrier.new 2)).generation,
             total := 2 },
           some (Barrier.after 3 (Barrier.new 2)).generation) ∧
      (Barrier.after 3 (Barrier.new 2)).arrive_and_wait.1.wait_pred
        (Barrier.after 3 (Barrier.new 2)).generation = false) ∧
    (∀ (b : Barrier) (gen : Int), b.wait_pred gen = true ↔ b.generation ≠ gen) ∧
    (∀ m : Nat,
      (List.range (2 : Int).toNat).countP
        (fun j => !(Barrier.after (m * (2 : Int).toNat + j) (Barrier.new 2)).blocks) = 1 ∧
      ∀ j : Nat, j < (2 : Int).toNat →
        (Barrier.after (m * (2 : Int).toNat + j) (Barrier.new 2)).generation = wrapInt m) ∧
    (∀ (sched : List BarrierOp) (s : BarrierSys),
      runSched BarrierSys.step (BarrierSys.init 2) sched = some s →
      s.barrier = Barrier.after s.arrivals (Barrier.new 2)) :=
  Barrier.tie_break 2 (by decide) (by decide) 3

/-! ## Forks are held only inside a cycle -/

theorem ForksInv.update_both (n : Nat) (hn : 2 ≤ n) (hl hr : Philosopher → Bool)
    (F : List (Option Nat)) (P : List Philosopher) (i : Nat) (p q1 q : Philosopher)
    (hinv : ForksInv n hl hr F P) (hp : P[i]? = some p)
    (hfl : F[i]? = some none) (hfr : F[(i + 1) % n]? = some none)
    (hid1 : q1.id = p.id) (hleft1 : q1.leftFork = p.leftFork)
    (hright1 : q1.rightFork = p.rightFork) (hl1 : hl q1 = true) (hr1 : hr q1 = hr p)
    (hid : q.id = p.id) (hleft : q.leftFork = p.leftFork) (hright : q.rightFork = p.rightFork)
    (hl2 : hl q = true) (hr2 : hr q = true) :
    ForksInv n hl hr ((F.set i (some i)).set ((i + 1) % n) (some i)) (P.set i q) := by
  have hi : i < n := by
    have := (List.getElem?_eq_some.mp hp).1
    have := hinv.2.1
    omega
  have hne : (i + 1) % n ≠ i := succ_mod_ne n i hn hi
  have h1 := ForksInv.update_left n hn hl hr F P i p q1 (some i) hinv hp (Or.inl ⟨rfl, hfl⟩)
    hid1 hleft1 hright1 (by simp [hl1]) hr1
  have hp1 : (P.set i q1)[i]? = some q1 := by
    rw [List.getElem?_set_self]
    exact (List.getElem?_eq_some.mp hp).1
  have hfr1 : (F.set i (some i))[(i + 1) % n]? = some none := by
    rw [List.getElem?_set_ne (fun h => hne h.symm)]
    exact hfr
  have h2 := ForksInv.update_right n hn hl hr (F.set i (some i)) (P.set i q1) i q1 q (some i)
    h1 hp1 (Or.inl ⟨rfl, hfr1⟩) (hid.trans hid1.symm) (hleft.trans hleft1.symm)
    (hright.trans hright1.symm) (by rw [hl2, hl1]) (by simp [hr2])
  rw [List.set_set] at h2
  exact h2

theorem lockBoth_eq_some (t t1 : Table) (l r i : Nat) (h : t.lockBoth l r i = some t1) :
    t.forks[l]? = some none ∧ t.forks[r]? = some none ∧
    t1 = { t with forks := (t.forks.set l (some i)).set r (some i) } := by
  simp only [Table.lockBoth] at h
  split at h
  · rename_i h1 h2
    split at h
    · simp at h
    · simp only [Option.some.injEq] at h
      exact ⟨h1, h2, h.symm⟩
  · simp at h

theorem deadlockRisk_inv_step (n : Nat) (hn : 2 ≤ n) (t : Table) (a : TableOp) (t' : Table)
    (hinv : ForksInv n Philosopher.leftFirstHoldsLeft Philosopher.leftFirstHoldsRight
      t.forks t.philosophers)
    (hstep : Table.step Philosopher.dineWithDeadlockRisk t a = some t') :
    ForksInv n Philosopher.leftFirstHoldsLeft Philosopher.leftFirstHoldsRight
      t'.forks t'.philosophers := by
  cases a with
  | stop =>
    simp only [Table.step, Option.some.injEq] at hstep
    subst hstep
    exact hinv
  | run i =>
    simp only [Table.step] at hstep
    cases hi : t.philosophers[i]? with
    | none => simp [hi] at hstep
    | some p =>
      simp only [hi] at hstep
      obtain ⟨h1, h2, h3, h4, h5⟩ := hinv.2.2.1 i p hi
      cases hpc : p.pc <;>
        simp only [Philosopher.dineWithDeadlockRisk, hpc, Option.some.injEq, reduceCtorEq]
          at hstep
      case loopHead =>
        subst hstep
        refine ForksInv.update_pc n _ _ t.forks t.philosophers i p _ hinv hi rfl rfl rfl ?_ ?_
        · simp only [Philosopher.leftFirstHoldsLeft, hpc]
          split <;> simp
        · simp only [Philosopher.leftFirstHoldsRight, hpc]
          split <;> simp
      case think =>
        subst hstep
        refine ForksInv.update_pc n _ _ t.forks t.philosophers i p _ hinv hi rfl rfl rfl ?_ ?_
        · simp [Philosopher.leftFirstHoldsLeft, hpc]
        · simp [Philosopher.leftFirstHoldsRight, hpc]
      case eat =>
        subst hstep
        refine ForksInv.update_pc n _ _ t.forks t.philosophers i p _ hinv hi rfl rfl rfl ?_ ?_
        · simp [Philosopher.leftFirstHoldsLeft, hpc]
        · simp [Philosopher.leftFirstHoldsRight, hpc]
      case lockLeft =>
        rw [h1] at hstep
        simp only [Table.lockFork] at hstep
        cases hf : t.forks[i]? with
        | none => simp [hf] at hstep
        | some o =>
          cases o with
          | some x => simp [hf] at hstep
          | none =>
            simp only [hf, Option.map_some', Option.some.injEq] at hstep
            subst hstep
            refine ForksInv.update_left n hn _ _ t.forks t.philosophers i p _ (some i)
              hinv hi (Or.inl ⟨rfl, hf⟩) rfl h1.symm rfl ?_ ?_
            · simp [Philosopher.leftFirstHoldsLeft]
            · simp [Philosopher.leftFirstHoldsRight, hpc]
      case lockRight =>
        rw [h2] at hstep
        simp only [Table.lockFork] at hstep
        cases hf : t.forks[(i + 1) % n]? with
        | none => simp [hf] at hstep
        | some o =>
          cases o with
          | some x => simp [hf] at hstep
          | none =>
            simp only [hf, Option.map_some', Option.some.injEq] at hstep
            subst hstep
            refine ForksInv.update_right n hn _ _ t.forks t.philosophers i p _ (some i)
              hinv hi (Or.inl ⟨rfl, hf⟩) rfl rfl h2.symm ?_ ?_
            · simp [Philosopher.leftFirstHoldsLeft, hpc]
            · simp [Philosopher.leftFirstHoldsRight]
      case unlockLeft =>
        rw [h1] at hstep
        subst hstep
        have hheld : t.forks[i]? = some (some i) := by
          rw [h4]
          simp [Philosopher.leftFirstHoldsLeft, hpc]
        refine ForksInv.update_left n hn _ _ t.forks t.philosophers i p _ none
          hinv hi (Or.inr ⟨rfl, hheld⟩) rfl h1.symm rfl ?_ ?_
        · simp [Philosopher.leftFirstHoldsLeft]
        · simp [Philosopher.leftFirstHoldsRight, hpc]
      case unlockRight =>
        rw [h2] at hstep
        subst hstep
        have hheld : t.forks[(i + 1) % n]? = some (some i) := by
          rw [h5]
          simp [Philosopher.leftFirstHoldsRight, hpc]
        refine ForksInv.update_right n hn _ _ t.forks t.philosophers i p _ none
          hinv hi (Or.inr ⟨rfl, hheld⟩) rfl rfl h2.symm ?_ ?_
        · simp [Philosopher.leftFirstHoldsLeft, hpc]
        · simp [Philosopher.leftFirstHoldsRight]
theorem stdLock_inv_step (n : Nat) (hn : 2 ≤ n) (t : Table) (a : TableOp) (t' : Table)
    (hinv : ForksInv n Philosopher.stdLockHoldsLeft Philosopher.stdLockHoldsRight
      t.forks t.philosophers)
    (hstep : Table.step Philosopher.dineWithStdLock t a = some t') :
    ForksInv n Philosopher.stdLockHoldsLeft Philosopher.stdLockHoldsRight
      t'.forks t'.philosophers := by
  cases a with
  | stop =>
    simp only [Table.step, Option.some.injEq] at hstep
    subst hstep
    exact hinv
  | run i =>
    simp only [Table.step] at hstep
    cases hi : t.philosophers[i]? with
    | none => simp [hi] at hstep
    | some p =>
      simp only [hi] at hstep
      obtain ⟨h1, h2, h3, h4, h5⟩ := hinv.2.2.1 i p hi
      cases hpc : p.pc <;>
        simp only [Philosopher.dineWithStdLock, hpc, Option.some.injEq, reduceCtorEq]
          at hstep
      case loopHead =>
        subst hstep
        refine ForksInv.update_pc n _ _ t.forks t.philosophers i p _ hinv hi rfl rfl rfl ?_ ?_
        · simp only [Philosopher.stdLockHoldsLeft, hpc]
          split <;> simp
        · simp only [Philosopher.stdLockHoldsRight, hpc]
          split <;> simp
      case think =>
        subst hstep
        refine ForksInv.update_pc n _ _ t.forks t.philosophers i p _ hinv hi rfl rfl rfl ?_ ?_
        · simp [Philosopher.stdLockHoldsLeft, hpc]
        · simp [Philosopher.stdLockHoldsRight, hpc]
      case eat =>
        subst hstep
        refine ForksInv.update_pc n _ _ t.forks t.philosophers i p _ hinv hi rfl rfl rfl ?_ ?_
        · simp [Philosopher.stdLockHoldsLeft, hpc]
        · simp [Philosopher.stdLockHoldsRight, hpc]
      case lockBoth =>
        rw [h1, h2] at hstep
        cases hlb : t.lockBoth i ((i + 1) % n) i with
        | none => simp [hlb] at hstep
        | some t1 =>
          simp only [hlb, Option.map_some', Option.some.injEq] at hstep
          obtain ⟨hfl, hfr, rfl⟩ := lockBoth_eq_some t t1 _ _ _ hlb
          subst hstep
          exact ForksInv.update_both n hn _ _ t.forks t.philosophers i p
            { p with pc := Pc.unlockLeft } _ hinv hi hfl hfr rfl rfl rfl
            (by simp [Philosopher.stdLockHoldsLeft])
            (by simp [Philosopher.stdLockHoldsRight, hpc])
            rfl h1.symm h2.symm
            (by simp [Philosopher.stdLockHoldsLeft])
            (by simp [Philosopher.stdLockHoldsRight])
      case unlockLeft =>
        rw [h1] at hstep
        subst hstep
        have hheld : t.forks[i]? = some (some i) := by
          rw [h4]
          simp [Philosopher.stdLockHoldsLeft, hpc]
        refine ForksInv.update_left n hn _ _ t.forks t.philosophers i p _ none
          hinv hi (Or.inr ⟨rfl, hheld⟩) rfl h1.symm rfl ?_ ?_
        · simp [Philosopher.stdLockHoldsLeft]
        · simp [Philosopher.stdLockHoldsRight, hpc]
      case unlockRight =>
        rw [h2] at hstep
        subst hstep
        have hheld : t.forks[(i + 1) % n]? = some (some i) := by
          rw [h5]
          simp [Philosopher.stdLockHoldsRight, hpc]
        refine ForksInv.update_right n hn _ _ t.forks t.philosophers i p _ none
          hinv hi (Or.inr ⟨rfl, hheld⟩) rfl rfl h2.symm ?_ ?_
        · simp [Philosopher.stdLockHoldsLeft, hpc]
        · simp [Philosopher.stdLockHoldsRight]

theorem conditionVariable_forks_step (maxEating : Int) (n : Nat) (hn : 2 ≤ n)
    (t : Table) (a : TableOp) (t' : Table)
    (hinv : ForksInv n Philosopher.stdLockHoldsLeft Philosopher.stdLockHoldsRight
      t.forks t.philosophers)
    (hstep : Table.step (Philosopher.dineWithConditionVariable maxEating) t a = some t') :
    ForksInv n Philosopher.stdLockHoldsLeft Philosopher.stdLockHoldsRight
      t'.forks t'.philosophers := by
  cases a with
  | stop =>
    simp only [Table.step, Option.some.injEq] at hstep
    subst hstep
    exact hinv
  | run i =>
    simp only [Table.step] at hstep
    cases hi : t.philosophers[i]? with
    | none => simp [hi] at hstep
    | some p =>
      simp only [hi] at hstep
      obtain ⟨h1, h2, h3, h4, h5⟩ := hinv.2.2.1 i p hi
      cases hpc : p.pc <;>
        simp only [Philosopher.dineWithConditionVariable, hpc, Option.some.injEq,
          reduceCtorEq] at hstep
      case loopHead =>
        subst hstep
        refine ForksInv.update_pc n _ _ t.forks t.philosophers i p _ hinv hi rfl rfl rfl ?_ ?_
        · simp only [Philosopher.stdLockHoldsLeft, hpc]
          split <;> simp
        · simp only [Philosopher.stdLockHoldsRight, hpc]
          split <;> simp
      case think =>
        subst hstep
        refine ForksInv.update_pc n _ _ t.forks t.philosophers i p _ hinv hi rfl rfl rfl ?_ ?_
        · simp [Philosopher.stdLockHoldsLeft, hpc]
        · simp [Philosopher.stdLockHoldsRight, hpc]
      case waitPlace =>
        split at hstep
        · simp only [Option.some.injEq] at hstep
          subst hstep
          refine ForksInv.update_pc n _ _ t.forks t.philosophers i p _ hinv hi rfl rfl rfl
            ?_ ?_
          · simp [Philosopher.stdLockHoldsLeft, hpc]
          · simp [Philosopher.stdLockHoldsRight, hpc]
        · simp at hstep
      case eat =>
        subst hstep
        refine ForksInv.update_pc n _ _ t.forks t.philosophers i p _ hinv hi rfl rfl rfl ?_ ?_
        · simp [Philosopher.stdLockHoldsLeft, hpc]
        · simp [Philosopher.stdLockHoldsRight, hpc]
      case leave =>
        subst hstep
        refine ForksInv.update_pc n _ _ t.forks t.philosophers i p _ hinv hi rfl rfl rfl ?_ ?_
        · simp [Philosopher.stdLockHoldsLeft, hpc]
        · simp [Philosopher.stdLockHoldsRight, hpc]
      case lockBoth =>
        rw [h1, h2] at hstep
        cases hlb : t.lockBoth i ((i + 1) % n) i with
        | none => simp [hlb] at hstep
        | some t1 =>
          simp only [hlb, Option.map_some', Option.some.injEq] at hstep
          obtain ⟨hfl, hfr, rfl⟩ := lockBoth_eq_some t t1 _ _ _ hlb
          subst hstep
          exact ForksInv.update_both n hn _ _ t.forks t.philosophers i p
            { p with pc := Pc.unlockLeft } _ hinv hi hfl hfr rfl rfl rfl
            (by simp [Philosopher.stdLockHoldsLeft])
            (by simp [Philosopher.stdLockHoldsRight, hpc])
            rfl h1.symm h2.symm
            (by simp [Philosopher.stdLockHoldsLeft])
            (by simp [Philosopher.stdLockHoldsRight])
      case unlockLeft =>
        rw [h1] at hstep
        subst hstep
        have hheld : t.forks[i]? = some (some i) := by
          rw [h4]
          simp [Philosopher.stdLockHoldsLeft, hpc]
        refine ForksInv.update_left n hn _ _ t.forks t.philosophers i p _ none
          hinv hi (Or.inr ⟨rfl, hheld⟩) rfl h1.symm rfl ?_ ?_
        · simp [Philosopher.stdLockHoldsLeft]
        · simp [Philosopher.stdLockHoldsRight, hpc]
      case unlockRight =>
        rw [h2] at hstep
        subst hstep
        have hheld : t.forks[(i + 1) % n]? = some (some i) := by
          rw [h5]
          simp [Philosopher.stdLockHoldsRight, hpc]
        refine ForksInv.update_right n hn _ _ t.forks t.philosophers i p _ none
          hinv hi (Or.inr ⟨rfl, hheld⟩) rfl rfl h2.symm ?_ ?_
        · simp [Philosopher.stdLockHoldsLeft, hpc]
        · simp [Philosopher.stdLockHoldsRight]

theorem ForksInv.inside_cycle (n : Nat) (hl hr : Philosopher → Bool) (t : Table)
    (hout : ∀ p : Philosopher, (p.pc = Pc.loopHead ∨ p.pc = Pc.think ∨ p.pc = Pc.finished) →
      hl p = false ∧ hr p = false)
    (heat : ∀ p : Philosopher, p.pc = Pc.eat → hl p = true ∧ hr p = true)
    (hinv : ForksInv n hl hr t.forks t.philosophers) : t.ForksInsideCycle := by
  intro i p hp
  obtain ⟨h1, h2, _, h4, h5⟩ := hinv.2.2.1 i p hp
  constructor
  · intro hpc
    obtain ⟨ha, hb⟩ := hout p hpc
    simp only [Table.holdsFork, decide_eq_false_iff_not, not_or, h1, h2]
    constructor
    · intro h
      rw [h4.mp h] at ha
      exact absurd ha (by simp)
    · intro h
      rw [h5.mp h] at hb
      exact absurd hb (by simp)
  · intro hpc
    obtain ⟨ha, hb⟩ := heat p hpc
    rw [h1, h2]
    exact ⟨h4.mpr ha, h5.mpr hb⟩

/-- Strategy 3: everything done in a hunger cycle is allowed with what the
thread holds at that moment, and the cycle ends with no fork held. -/
theorem dineWithTimeout_cycle_allowed (stop left right : Nat → Bool) (extra : Nat) :
    ∃ (g : Bool) (a : Int) (events : List TimeoutEvent),
      dineWithTimeout_cycle stop left right (4 + extra) = some (g, a, events) ∧
      allAllowed (false, false) events = true ∧
      heldAfter (false, false) events = (false, false) := by
  obtain ⟨g, a, done, hrun, _, _, _, _, h5, h6, _, _, _, _, _⟩ :=
    dineWithTimeout_cycle_spec stop left right extra
  refine ⟨g, a, _, hrun, ?_, ?_⟩
  · show (TimeoutEvent.allowed (false, false) TimeoutEvent.think &&
      allAllowed (false, false) (done ++ _)) = true
    rw [allAllowed_append, h5, h6]
    cases g <;> decide
  · show heldAfter (TimeoutEvent.holds (false, false) TimeoutEvent.think) (done ++ _) = _
    rw [heldAfter_append]
    have : TimeoutEvent.holds (false, false) TimeoutEvent.think = (false, false) := rfl
    rw [this, h6]
    cases g <;> decide

/-- C17: with the five philosophers of `runPhilosophersTest`, in every
reachable state of strategies 1, 2, 4, 5 and 6 (strategy 6 with any
`maxEating`) a thread that is about to read `stopFlag` in `while (!stopFlag)`,
is about to start `think()` or has left the loop after reading the flag as
set has locked neither its left nor its right fork, while a thread at `eat()`
has locked both.  In a hunger cycle of strategy 3 (`dineWithTimeout`),
whatever `try_lock_for` returns and whatever values of `stopFlag` are read,
the thread holds no fork when it starts `think()` and whenever it reads
`stopFlag`, holds both at `eat()`, and holds none when the cycle ends, which
is where `while (!stopFlag)` reads the flag next. -/
theorem forks_held_only_inside_cycle :
    (∀ (sched : List TableOp) (t : Table),
      runSched (Table.step Philosopher.dineWithDeadlockRisk) (Table.init NUM_PHILOSOPHERS)
        sched = some t → t.ForksInsideCycle) ∧
    (∀ (sched : List TableOp) (t : Table),
      runSched (Table.step Philosopher.dineWithStdLock) (Table.init NUM_PHILOSOPHERS)
        sched = some t → t.ForksInsideCycle) ∧
    (∀ (stop left right : Nat → Bool) (extra : Nat),
      ∃ (g : Bool) (a : Int) (events : List TimeoutEvent),
        dineWithTimeout_cycle stop left right (4 + extra) = some (g, a, events) ∧
        (∀ (k : Nat) (e : TimeoutEvent), events[k]? = some e →
          (e = TimeoutEvent.think ∨ e = TimeoutEvent.readStop true ∨
            e = TimeoutEvent.readStop false) →
          heldAfter (false, false) (events.take k) = (false, false)) ∧
        (∀ k : Nat, events[k]? = some TimeoutEvent.eat →
          heldAfter (false, false) (events.take k) = (true, true)) ∧
        heldAfter (false, false) events = (false, false)) ∧
    (∀ (sched : List TableOp) (t : Table),
      runSched (Table.step Philosopher.dineWithSemaphore) (Table.init NUM_PHILOSOPHERS)
        sched = some t → t.ForksInsideCycle) ∧
    (∀ (sched : List TableOp) (t : Table),
      runSched (Table.step Philosopher.dineWithOrdering) (Table.init NUM_PHILOSOPHERS)
        sched = some t → t.ForksInsideCycle) ∧
    (∀ (maxEating : Int) (sched : List TableOp) (t : Table),
      runSched (Table.step (Philosopher.dineWithConditionVariable maxEating))
        (Table.init NUM_PHILOSOPHERS) sched = some t → t.ForksInsideCycle) := by
  refine ⟨?_, ?_, ?_, ?_, ?_, ?_⟩
  · intro sched t hrun
    refine ForksInv.inside_cycle 5 Philosopher.leftFirstHoldsLeft
      Philosopher.leftFirstHoldsRight t ?_ ?_ ?_
    · intro p hp
      rcases hp with h | h | h <;>
        simp [Philosopher.leftFirstHoldsLeft, Philosopher.leftFirstHoldsRight, h]
    · intro p hp
      simp [Philosopher.leftFirstHoldsLeft, Philosopher.leftFirstHoldsRight, hp]
    · exact runSched_invariant (Table.step Philosopher.dineWithDeadlockRisk)
        (fun t => ForksInv 5 Philosopher.leftFirstHoldsLeft Philosopher.leftFirstHoldsRight
          t.forks t.philosophers)
        (fun s a s' h hs => deadlockRisk_inv_step 5 (by decide) s a s' h hs) sched _ _
        (forksInv_init 5 _ _ (by
          intro p hp
          simp [Philosopher.leftFirstHoldsLeft, Philosopher.leftFirstHoldsRight, hp])) hrun
  · intro sched t hrun
    refine ForksInv.inside_cycle 5 Philosopher.stdLockHoldsLeft
      Philosopher.stdLockHoldsRight t ?_ ?_ ?_
    · intro p hp
      rcases hp with h | h | h <;>
        simp [Philosopher.stdLockHoldsLeft, Philosopher.stdLockHoldsRight, h]
    · intro p hp
      simp [Philosopher.stdLockHoldsLeft, Philosopher.stdLockHoldsRight, hp]
    · exact runSched_invariant (Table.step Philosopher.dineWithStdLock)
        (fun t => ForksInv 5 Philosopher.stdLockHoldsLeft Philosopher.stdLockHoldsRight
          t.forks t.philosophers)
        (fun s a s' h hs => stdLock_inv_step 5 (by decide) s a s' h hs) sched _ _
        (forksInv_init 5 _ _ (by
          intro p hp
          simp [Philosopher.stdLockHoldsLeft, Philosopher.stdLockHoldsRight, hp])) hrun
  · intro stop left right extra
    obtain ⟨g, a, events, hrun, hall, hend⟩ :=
      dineWithTimeout_cycle_allowed stop left right extra
    have hidx := allAllowed_getElem _ (false, false) hall
    refine ⟨g, a, events, hrun, ?_, ?_, hend⟩
    · intro k e he hcase
      have := hidx k e he
      rcases hcase with rfl | rfl | rfl <;>
        simpa [TimeoutEvent.allowed] using this
    · intro k he
      have := hidx k _ he
      simpa [TimeoutEvent.allowed] using this
  · intro sched t hrun
    refine ForksInv.inside_cycle 5 Philosopher.leftFirstHoldsLeft
      Philosopher.leftFirstHoldsRight t ?_ ?_
      (semaphore_inv_reachable 5 (by decide) sched t hrun).1
    · intro p hp
      rcases hp with h | h | h <;>
        simp [Philosopher.leftFirstHoldsLeft, Philosopher.leftFirstHoldsRight, h]
    · intro p hp
      simp [Philosopher.leftFirstHoldsLeft, Philosopher.leftFirstHoldsRight, hp]
  · intro sched t hrun
    refine ForksInv.inside_cycle 5 Philosopher.orderingHoldsLeft
      Philosopher.orderingHoldsRight t ?_ ?_ ?_
    · intro p hp
      rcases hp with h | h | h <;>
        simp [Philosopher.orderingHoldsLeft, Philosopher.orderingHoldsRight, h]
    · intro p hp
      simp [Philosopher.orderingHoldsLeft, Philosopher.orderingHoldsRight, hp]
    · exact runSched_invariant (Table.step Philosopher.dineWithOrdering)
        (fun t => ForksInv 5 Philosopher.orderingHoldsLeft Philosopher.orderingHoldsRight
          t.forks t.philosophers)
        (fun s a s' h hs => ordering_inv_step s a s' h hs) sched _ _
        ordering_init_inv hrun
  · intro maxEating sched t hrun
    refine ForksInv.inside_cycle 5 Philosopher.stdLockHoldsLeft
      Philosopher.stdLockHoldsRight t ?_ ?_ ?_
    · intro p hp
      rcases hp with h | h | h <;>
        simp [Philosopher.stdLockHoldsLeft, Philosopher.stdLockHoldsRight, h]
    · intro p hp
      simp [Philosopher.stdLockHoldsLeft, Philosopher.stdLockHoldsRight, hp]
    · exact runSched_invariant (Table.step (Philosopher.dineWithConditionVariable maxEating))
        (fun t => ForksInv 5 Philosopher.stdLockHoldsLeft Philosopher.stdLockHoldsRight
          t.forks t.philosophers)
        (fun s a s' h hs => conditionVariable_forks_step maxEating 5 (by decide) s a s' h hs)
        sched _ _
        (forksInv_init 5 _ _ (by
          intro p hp
          simp [Philosopher.stdLockHoldsLeft, Philosopher.stdLockHoldsRight, hp])) hrun

/-! ## Barrier: closed form of the state -/

/-- C22: for every `total > 0` (an `int`) and every number `k` of arrival
steps with `k / total <= INT_MAX` (no `int` overflow of `generation`), a fresh
`Barrier(total)` after `k` arrival steps has `generation == k / total` and
`count == total - k % total`; so `1 <= count <= total`, `generation` after
`j <= k` arrival steps is at most the one after `k`, and one more arrival
step never lowers it.  The barrier of the system of `total` threads is always
the fresh barrier after the arrival steps performed so far. -/
theorem Barrier.closed_form (total : Int) (hpos : 0 < total) (hmax : total ≤ INT_MAX)
    (k : Nat) (hk : (k : Int) / total ≤ INT_MAX) :
    (Barrier.after k (Barrier.new total)).generation = (k : Int) / total ∧
    (Barrier.after k (Barrier.new total)).count = total - (k : Int) % total ∧
    (Barrier.after k (Barrier.new total)).total = total ∧
    1 ≤ (Barrier.after k (Barrier.new total)).count ∧
    (Barrier.after k (Barrier.new total)).count ≤ total ∧
    (∀ j : Nat, j ≤ k →
      (Barrier.after j (Barrier.new total)).generation
        ≤ (Barrier.after k (Barrier.new total)).generation) ∧
    ((k : Int) / total < INT_MAX →
      (Barrier.after k (Barrier.new total)).generation
        ≤ (Barrier.after (k + 1) (Barrier.new total)).generation) ∧
    (∀ (sched : List BarrierOp) (s : BarrierSys),
      runSched BarrierSys.step (BarrierSys.init total) sched = some s →
      s.barrier = Barrier.after s.arrivals (Barrier.new total)) := by
  have htot : ((total.toNat : Nat) : Int) = total := Int.toNat_of_nonneg (le_of_lt hpos)
  have hdiv : ∀ j : Nat, ((j / total.toNat : Nat) : Int) = (j : Int) / total := by
    intro j
    rw [Int.natCast_div, htot]
  have hmod : ∀ j : Nat, ((j % total.toNat : Nat) : Int) = (j : Int) % total := by
    intro j
    rw [Int.natCast_mod, htot]
  have hmono : ∀ j : Nat, j ≤ k → (j : Int) / total ≤ (k : Int) / total := by
    intro j hj
    exact Int.ediv_le_ediv hpos (by exact_mod_cast hj)
  have hnn : ∀ j : Nat, 0 ≤ (j : Int) / total := by
    intro j
    exact Int.ediv_nonneg (Int.natCast_nonneg j) (le_of_lt hpos)
  have hgen : ∀ j : Nat, (j : Int) / total ≤ INT_MAX →
      (Barrier.after j (Barrier.new total)).generation = (j : Int) / total := by
    intro j hj
    rw [Barrier.after_closed total hpos hmax j]
    show wrapInt ((j / total.toNat : Nat) : Int) = _
    rw [hdiv]
    simp only [INT_MAX] at hj
    exact wrapInt_eq_self (by have := hnn j; omega) hj
  have hm0 := Int.emod_nonneg (k : Int) (ne_of_gt hpos)
  have hm1 := Int.emod_lt_of_pos (k : Int) hpos
  have hcount : (Barrier.after k (Barrier.new total)).count = total - (k : Int) % total := by
    rw [Barrier.after_closed total hpos hmax k]
    show total - ((k % total.toNat : Nat) : Int) = _
    rw [hmod]
  refine ⟨hgen k hk, hcount, ?_, ?_, ?_, ?_, ?_, ?_⟩
  · rw [Barrier.after_closed total hpos hmax k]
  · rw [hcount]; omega
  · rw [hcount]; omega
  · intro j hj
    have := hmono j hj
    rw [hgen j (le_trans this hk), hgen k hk]
    exact this
  · intro hlt
    have h1 : ((k + 1 : Nat) : Int) / total ≤ INT_MAX := by
      have : ((k + 1 : Nat) : Int) / total ≤ (k : Int) / total + 1 := by
        have h2 : ((k + 1 : Nat) : Int) = (k : Int) + 1 := by push_cast; rfl
        rw [h2]
        have h3 : ((k : Int) + 1) / total ≤ ((k : Int) + total) / total :=
          Int.ediv_le_ediv hpos (by omega)
        rw [Int.add_ediv_of_dvd_right (dvd_refl total), Int.ediv_self (ne_of_gt hpos)] at h3
        exact h3
      simp only [INT_MAX] at hlt ⊢
      omega
    rw [hgen k hk, hgen (k + 1) h1]
    exact Int.ediv_le_ediv hpos (by push_cast; omega)
  · intro sched s hrun
    exact BarrierSys.barrier_eq_after total sched s hrun

/-- C22 witness: `Barrier(3)` after seven arrival steps. -/
theorem Barrier.closed_form_witness :
    (Barrier.after 7 (Barrier.new 3)).generation = ((7 : Nat) : Int) / 3 ∧
    (Barrier.after 7 (Barrier.new 3)).count = 3 - ((7 : Nat) : Int) % 3 ∧
    (Barrier.after 7 (Barrier.new 3)).total = 3 ∧
    1 ≤ (Barrier.after 7 (Barrier.new 3)).count ∧
    (Barrier.after 7 (Barrier.new 3)).count ≤ 3 ∧
    (∀ j : Nat, j ≤ 7 →
      (Barrier.after j (Barrier.new 3)).generation
        ≤ (Barrier.after 7 (Barrier.new 3)).generation) ∧
    (((7 : Nat) : Int) / 3 < INT_MAX →
      (Barrier.after 7 (Barrier.new 3)).generation
        ≤ (Barrier.after (7 + 1) (Barrier.new 3)).generation) ∧
    (∀ (sched : List BarrierOp) (s : BarrierSys),
      runSched BarrierSys.step (BarrierSys.init 3) sched = some s →
      s.barrier = Barrier.after s.arrivals (Barrier.new 3)) :=
  Barrier.closed_form 3 (by decide) (by decide) 7 (by decide)
/-! ## Recruit filter: the chunks -/

theorem filterRecruitsRange_examined_loop_exit (allRecruits : List Recruit) (stop : Int)
    (fuel : Nat) (i : Int) (examined : List Nat)
    (h : ¬ (i < stop ∧ 0 ≤ i ∧ i < allRecruits.length)) :
    filterRecruitsRange_examined_loop allRecruits stop fuel i examined = examined := by
  cases fuel with
  | zero => rfl
  | succ k => simp only [filterRecruitsRange_examined_loop, h, if_false]

/-- The recording loop and the filtering loop are the same loop: the recruits
the call keeps are the fit ones among those it examines. -/
theorem filterRecruitsRange_loop_examined (allRecruits : List Recruit) (stop : Int) :
    ∀ (fuel : Nat) (i : Int) (examined : List Nat) (localSuitable : List Recruit),
      localSuitable
        = (examined.filterMap fun j => allRecruits[j]?).filter Recruit.isFitForService →
      filterRecruitsRange_loop allRecruits stop fuel i localSuitable
        = ((filterRecruitsRange_examined_loop allRecruits stop fuel i examined).filterMap
            fun j => allRecruits[j]?).filter Recruit.isFitForService := by
  intro fuel
  induction fuel with
  | zero =>
    intro i ex l hl
    simp only [filterRecruitsRange_loop, filterRecruitsRange_examined_loop]
    exact hl
  | succ k ih =>
    intro i ex l hl
    by_cases hc : i < stop ∧ 0 ≤ i ∧ i < allRecruits.length
    · have hi : i.toNat < allRecruits.length := by omega
      simp only [filterRecruitsRange_loop, filterRecruitsRange_examined_loop, hc, and_self,
        if_true, List.getElem?_eq_getElem hi]
      apply ih
      rw [List.filterMap_append, List.filter_append, ← hl]
      simp only [List.filterMap_cons, List.filterMap_nil, List.getElem?_eq_getElem hi,
        List.filter_cons, List.filter_nil]
      split <;> simp
    · rw [filterRecruitsRange_loop_exit allRecruits stop _ i l hc,
        filterRecruitsRange_examined_loop_exit allRecruits stop _ i ex hc]
      exact hl

theorem filterRecruitsRange_examined_loop_spec (allRecruits : List Recruit) (stop : Int)
    (hmax : (allRecruits.length : Int) ≤ INT_MAX) :
    ∀ (fuel : Nat) (i : Int) (examined : List Nat), 0 ≤ i →
      allRecruits.length ≤ fuel + i.toNat →
      filterRecruitsRange_examined_loop allRecruits stop fuel i examined
        = examined ++ ((List.range allRecruits.length).take stop.toNat).drop i.toNat := by
  simp only [INT_MAX] at hmax
  intro fuel
  induction fuel with
  | zero =>
    intro i l h0 hf
    rw [List.drop_eq_nil_of_le (by simp; omega)]
    simp [filterRecruitsRange_examined_loop]
  | succ k ih =>
    intro i l h0 hf
    by_cases hc : i < stop ∧ 0 ≤ i ∧ i < allRecruits.length
    · have hi : i.toNat < allRecruits.length := by omega
      have hw : wrapInt (i + 1) = i + 1 := wrapInt_eq_self (by omega) (by omega)
      have hlt : i.toNat < ((List.range allRecruits.length).take stop.toNat).length := by
        simp only [List.length_take, List.length_range]
        omega
      simp only [filterRecruitsRange_examined_loop, hc, and_self, if_true,
        List.getElem?_eq_getElem hi, hw]
      rw [ih (i + 1) _ (by omega) (by omega)]
      have hsucc : (i + 1).toNat = i.toNat + 1 := by omega
      rw [hsucc, List.drop_eq_getElem_cons hlt]
      have hget : ((List.range allRecruits.length).take stop.toNat)[i.toNat] = i.toNat := by
        simp
      rw [hget]
      simp
    · rw [filterRecruitsRange_examined_loop_exit allRecruits stop _ i l hc]
      rw [List.drop_eq_nil_of_le (by simp only [List.length_take, List.length_range]; omega)]
      simp

theorem filterRecruitsRange_examined_eq (allRecruits : List Recruit) (start stop : Nat)
    (hmax : (allRecruits.length : Int) ≤ INT_MAX) :
    filterRecruitsRange_examined allRecruits start stop
      = ((List.range allRecruits.length).take stop).drop start := by
  simp only [filterRecruitsRange_examined]
  rw [filterRecruitsRange_examined_loop_spec allRecruits stop hmax _ _ _ (by omega) (by omega)]
  simp

theorem mem_drop_take_range (n s e j : Nat) (he : e ≤ n) :
    j ∈ ((List.range n).take e).drop s ↔ s ≤ j ∧ j < e := by
  rw [List.take_range, Nat.min_eq_left he, List.mem_drop_iff_getElem]
  constructor
  · rintro ⟨i, hi, rfl⟩
    simp only [List.length_range] at hi
    simp only [List.getElem_range]
    omega
  · rintro ⟨h1, h2⟩
    refine ⟨j - s, by simp only [List.length_range]; omega, ?_⟩
    simp only [List.getElem_range]
    omega

theorem filterRecruitsMultiThread_examined_eq (recruits : List Recruit) (k i : Nat)
    (hn : (recruits.length : Int) ≤ INT_MAX) (hi : i < k) :
    filterRecruitsMultiThread_examined recruits (k : Int) i
      = ((List.range recruits.length).take
          (if i + 1 = k then recruits.length else (i + 1) * (recruits.length / k))).drop
          (i * (recruits.length / k)) := by
  simp only [filterRecruitsMultiThread_examined]
  rw [chunkBounds_eq recruits k i hn hi]
  exact filterRecruitsRange_examined_eq recruits _ _ hn

theorem chunk_end_le (n k i : Nat) (hi : i < k) :
    (if i + 1 = k then n else (i + 1) * (n / k)) ≤ n := by
  split
  · exact le_refl _
  · exact le_trans (Nat.mul_le_mul_right _ (by omega)) (Nat.mul_div_le n k)

/-- C23 (as stated): with 2147483648 recruits and one thread, the bounds of
the only range are `start == 0` and `end == -2147483648` (`recruits.size()`
converted to `int`), the worker examines no index, and so index 0 (and every
other) is examined by no worker. -/
theorem filterRecruitsMultiThread_examined_none :
    chunkBounds (List.replicate 2147483648
        ({ name := "r", birthDate := "d", doctorRecords := [] } : Recruit)) 1 0
      = (0, -2147483648) ∧
    filterRecruitsMultiThread_examined (List.replicate 2147483648
        ({ name := "r", birthDate := "d", doctorRecords := [] } : Recruit)) 1 0 = [] ∧
    0 < (List.replicate 2147483648
        ({ name := "r", birthDate := "d", doctorRecords := [] } : Recruit)).length ∧
    ¬ ∃ i : Nat, i < 1 ∧ 0 ∈ filterRecruitsMultiThread_examined (List.replicate 2147483648
        ({ name := "r", birthDate := "d", doctorRecords := [] } : Recruit)) 1 i := by
  have hb : chunkBounds (List.replicate 2147483648
      ({ name := "r", birthDate := "d", doctorRecords := [] } : Recruit)) 1 0
      = (0, -2147483648) := by
    unfold chunkBounds chunkSize
    rw [List.length_replicate]
    decide
  have he : filterRecruitsMultiThread_examined (List.replicate 2147483648
      ({ name := "r", birthDate := "d", doctorRecords := [] } : Recruit)) 1 0 = [] := by
    unfold filterRecruitsMultiThread_examined filterRecruitsRange_examined
    rw [hb]
    exact filterRecruitsRange_examined_loop_exit _ _ _ _ _ (by
      intro h
      have := h.1
      omega)
  refine ⟨hb, he, by rw [List.length_replicate]; decide, ?_⟩
  rintro ⟨i, hi, hmem⟩
  have : i = 0 := by omega
  subst this
  rw [he] at hmem
  simp at hmem

/-- C23 (amended): for every list of `n <= INT_MAX` recruits and every
`numThreads >= 1`, with `chunkSize = n / numThreads` the `i`-th worker is
called with `start = i * chunkSize` and `end = (i + 1) * chunkSize`, or
`end = n` for the last one, and examines exactly the indices `j` with
`start <= j < end`; the ranges of the workers, one after the other, are
`0, 1, ..., n - 1`; two different workers examine no common index, every
index below `n` is examined by some worker, and no index from `n` on is; with
`numThreads > n` every range but the last is empty.  What a worker appends to
`suitableRecruits` are the fit recruits among those at the indices it
examines. -/
theorem filterRecruitsMultiThread_chunks (recruits : List Recruit) (numThreads : Nat)
    (hk : 1 ≤ numThreads) (hn : (recruits.length : Int) ≤ INT_MAX) :
    (∀ i : Nat,
      filterRecruitsRange recruits (chunkBounds recruits (numThreads : Int) i).1
          (chunkBounds recruits (numThreads : Int) i).2
        = ((filterRecruitsMultiThread_examined recruits (numThreads : Int) i).filterMap
            fun j => recruits[j]?).filter Recruit.isFitForService) ∧
    (∀ i : Nat, i < numThreads →
      chunkBounds recruits (numThreads : Int) i
        = (((i * (recruits.length / numThreads) : Nat) : Int),
           ((if i + 1 = numThreads then recruits.length
             else (i + 1) * (recruits.length / numThreads) : Nat) : Int)) ∧
      ∀ j : Nat, j ∈ filterRecruitsMultiThread_examined recruits (numThreads : Int) i ↔
        i * (recruits.length / numThreads) ≤ j ∧
        j < (if i + 1 = numThreads then recruits.length
             else (i + 1) * (recruits.length / numThreads))) ∧
    ((List.range numThreads).map fun i =>
      filterRecruitsMultiThread_examined recruits (numThreads : Int) i).flatten
      = List.range recruits.length ∧
    (∀ i1 i2 : Nat, i1 < i2 → i2 < numThreads → ∀ j : Nat,
      j ∈ filterRecruitsMultiThread_examined recruits (numThreads : Int) i1 →
      j ∉ filterRecruitsMultiThread_examined recruits (numThreads : Int) i2) ∧
    (∀ j : Nat, j < recruits.length → ∃ i : Nat, i < numThreads ∧
      j ∈ filterRecruitsMultiThread_examined recruits (numThreads : Int) i) ∧
    (∀ i j : Nat, i < numThreads →
      j ∈ filterRecruitsMultiThread_examined recruits (numThreads : Int) i →
      j < recruits.length) ∧
    (recruits.length < numThreads → ∀ i : Nat, i + 1 < numThreads →
      filterRecruitsMultiThread_examined recruits (numThreads : Int) i = []) := by
  have hmem : ∀ i : Nat, i < numThreads → ∀ j : Nat,
      j ∈ filterRecruitsMultiThread_examined recruits (numThreads : Int) i ↔
        i * (recruits.length / numThreads) ≤ j ∧
        j < (if i + 1 = numThreads then recruits.length
             else (i + 1) * (recruits.length / numThreads)) := by
    intro i hi j
    rw [filterRecruitsMultiThread_examined_eq recruits numThreads i hn hi]
    exact mem_drop_take_range _ _ _ _ (chunk_end_le _ _ _ hi)
  have hflat : ((List.range numThreads).map fun i =>
      filterRecruitsMultiThread_examined recruits (numThreads : Int) i).flatten
      = List.range recruits.length := by
    have hmap : ((List.range numThreads).map fun i =>
        filterRecruitsMultiThread_examined recruits (numThreads : Int) i)
        = (List.range numThreads).map fun i =>
          ((List.range recruits.length).take
            (if i + 1 = numThreads then (List.range recruits.length).length
             else (i + 1) * ((List.range recruits.length).length / numThreads))).drop
            (i * ((List.range recruits.length).length / numThreads)) := by
      apply List.map_congr_left
      intro i hi
      rw [filterRecruitsMultiThread_examined_eq recruits numThreads i hn
        (List.mem_range.mp hi), List.length_range]
    rw [hmap]
    exact chunks_flatten (List.range recruits.length) numThreads hk
  refine ⟨fun i => filterRecruitsRange_loop_examined recruits _ _ _ [] [] rfl,
    fun i hi => ⟨chunkBounds_eq recruits numThreads i hn hi, hmem i hi⟩, hflat,
    ?_, ?_, ?_, ?_⟩
  · intro i1 i2 h12 h2 j hj1 hj2
    have h1 := (hmem i1 (by omega) j).mp hj1
    have h2' := (hmem i2 h2 j).mp hj2
    have hne : ¬ (i1 + 1 = numThreads) := by omega
    rw [if_neg hne] at h1
    have : (i1 + 1) * (recruits.length / numThreads) ≤ i2 * (recruits.length / numThreads) :=
      Nat.mul_le_mul_right _ (by omega)
    omega
  · intro j hj
    have : j ∈ ((List.range numThreads).map fun i =>
        filterRecruitsMultiThread_examined recruits (numThreads : Int) i).flatten := by
      rw [hflat]
      exact List.mem_range.mpr hj
    rw [List.mem_flatten] at this
    obtain ⟨l, hl, hjl⟩ := this
    rw [List.mem_map] at hl
    obtain ⟨i, hi, rfl⟩ := hl
    exact ⟨i, List.mem_range.mp hi, hjl⟩
  · intro i j hi hj
    have := ((hmem i hi j).mp hj).2
    have := chunk_end_le recruits.length numThreads i hi
    omega
  · intro hlt i hi
    rw [List.eq_nil_iff_forall_not_mem]
    intro j hj
    have h1 := (hmem i (by omega) j).mp hj
    have hne : ¬ (i + 1 = numThreads) := by omega
    rw [if_neg hne, Nat.div_eq_of_lt hlt] at h1
    omega

/-- C23 witness: seven recruits, three threads (ranges 0-1, 2-3, 4-6). -/
theorem filterRecruitsMultiThread_chunks_witness :
    ((List.range 3).map fun i =>
      filterRecruitsMultiThread_examined
        (List.replicate 7 { name := "r", birthDate := "d", doctorRecords := [] })
        ((3 : Nat) : Int) i).flatten
      = List.range
        (List.replicate 7 ({ name := "r", birthDate := "d", doctorRecords := [] } : Recruit)).length
    ∧ filterRecruitsMultiThread_examined
        (List.replicate 7 { name := "r", birthDate := "d", doctorRecords := [] })
        ((3 : Nat) : Int) 2 = [4, 5, 6] :=
  ⟨(filterRecruitsMultiThread_chunks
      (List.replicate 7 { name := "r", birthDate := "d", doctorRecords := [] }) 3
      (by decide) (by decide)).2.2.1, by decide⟩

/-! ## `testWithMonitor`: the flag follows the mutex -/

theorem MonitorTest.monitor_inv_init (n : Nat) : (MonitorTest.init n).Inv := by
  refine ⟨fun _ => rfl, ?_⟩
  intro i th hth
  have hmem := List.getElem?_mem hth
  simp only [MonitorTest.init, List.mem_replicate] at hmem
  obtain ⟨_, rfl⟩ := hmem
  simp [MonitorTest.init, RaceThread.holdsMutex]

/-- Updating the stepping thread `i` and the mutex preserves the per-thread
part of the invariant for the other threads, as long as the mutex stays with
or moves between `none` and `some i`. -/
theorem MonitorTest.monitor_inv_others (T : List RaceThread) (M M1 : Option Nat)
    (r r1 : Bool) (i : Nat) (q : RaceThread)
    (hold : ∀ (k : Nat) (th : RaceThread), T[k]? = some th →
      (th.holdsMutex = true ↔ M = some k) ∧ th.pc ≠ MonitorPc.blocked ∧
      (M = some k → r = !th.busy))
    (hM : M = none ∨ M = some i) (hM1 : M1 = none ∨ M1 = some i)
    (hq : (q.holdsMutex = true ↔ M1 = some i) ∧ q.pc ≠ MonitorPc.blocked ∧
      (M1 = some i → r1 = !q.busy)) :
    ∀ (k : Nat) (th : RaceThread), (T.set i q)[k]? = some th →
      (th.holdsMutex = true ↔ M1 = some k) ∧ th.pc ≠ MonitorPc.blocked ∧
      (M1 = some k → r1 = !th.busy) := by
  intro k th hk
  rw [List.getElem?_set] at hk
  by_cases hik : i = k
  · subst hik
    simp only [if_true] at hk
    split at hk
    · simp only [Option.some.injEq] at hk
      subst hk
      exact hq
    · simp at hk
  · simp only [hik, if_false] at hk
    obtain ⟨h1, h2, _⟩ := hold k th hk
    have hne : M ≠ some k := by
      rcases hM with h | h
      · rw [h]; simp
      · rw [h]; simp [hik]
    have hne1 : M1 ≠ some k := by
      rcases hM1 with h | h
      · rw [h]; simp
      · rw [h]; simp [hik]
    refine ⟨?_, h2, fun h => absurd h hne1⟩
    constructor
    · intro h
      exact absurd (h1.mp h) hne
    · intro h
      exact absurd h hne1

theorem MonitorTest.monitor_inv_step (raceLength : Int) (s : MonitorTest)
    (a : MonitorTestOp) (s' : MonitorTest)
    (hinv : s.Inv) (hstep : testWithMonitor raceLength s a = some s') : s'.Inv := by
  obtain ⟨hfree, hth⟩ := hinv
  cases a with
  | run i c =>
    simp only [testWithMonitor] at hstep
    cases hi : s.threads[i]? with
    | none => simp [hi] at hstep
    | some th =>
      simp only [hi] at hstep
      obtain ⟨h1, h2, h3⟩ := hth i th hi
      cases hpc : th.pc <;> simp only [hpc] at hstep
      case loopTest =>
        simp only [Option.some.injEq] at hstep
        subst hstep
        have hn : s.mtx ≠ some i := by
          intro h
          have := h1.mpr h
          simp [RaceThread.holdsMutex, hpc] at this
        refine ⟨hfree, ?_⟩
        intro k u hk
        simp only [MonitorTest.setThread] at hk
        rw [List.getElem?_set] at hk
        by_cases hik : i = k
        · subst hik
          simp only [if_true] at hk
          split at hk
          · simp only [Option.some.injEq] at hk
            subst hk
            refine ⟨?_, ?_, fun h => absurd h hn⟩
            · simp only [RaceThread.holdsMutex, MonitorTest.setThread]
              split <;> simp [hn]
            · simp only
              split <;> simp
          · simp at hk
        · simp only [hik, if_false] at hk
          exact hth k u hk
      case lock =>
        cases hm : s.mtx with
        | some x => simp [hm] at hstep
        | none =>
          simp only [hm, Option.some.injEq] at hstep
          subst hstep
          refine ⟨by simp [MonitorTest.setThread], ?_⟩
          exact MonitorTest.monitor_inv_others s.threads s.mtx (some i) s.ready s.ready i _
            hth (Or.inl hm) (Or.inr rfl)
            ⟨by simp [RaceThread.holdsMutex], by simp,
              fun _ => by simp [RaceThread.busy, hfree hm]⟩
      case wait =>
        have hm : s.mtx = some i := h1.mp (by simp [RaceThread.holdsMutex, hpc])
        have hr : s.ready = true := by
          rw [h3 hm]
          simp [RaceThread.busy, hpc]
        simp only [hr, if_true, Option.some.injEq] at hstep
        subst hstep
        refine ⟨fun h => hr, ?_⟩
        exact MonitorTest.monitor_inv_others s.threads s.mtx s.mtx s.ready s.ready i _
          hth (Or.inr hm) (Or.inr hm)
          ⟨by simp [RaceThread.holdsMutex, hm], by simp,
            fun _ => by simp [RaceThread.busy, hr]⟩
      case blocked => exact absurd hpc h2
      case clearReady =>
        have hm : s.mtx = some i := h1.mp (by simp [RaceThread.holdsMutex, hpc])
        simp only [Option.some.injEq] at hstep
        subst hstep
        refine ⟨fun h => by simp [MonitorTest.setThread, hm] at h, ?_⟩
        exact MonitorTest.monitor_inv_others s.threads s.mtx s.mtx s.ready false i _
          hth (Or.inr hm) (Or.inr hm)
          ⟨by simp [RaceThread.holdsMutex, hm], by simp,
            fun _ => by simp [RaceThread.busy]⟩
      case write =>
        have hm : s.mtx = some i := h1.mp (by simp [RaceThread.holdsMutex, hpc])
        have hr : s.ready = false := by
          rw [h3 hm]
          simp [RaceThread.busy, hpc]
        simp only [Option.some.injEq] at hstep
        subst hstep
        refine ⟨fun h => by simp [MonitorTest.setThread, hm] at h, ?_⟩
        exact MonitorTest.monitor_inv_others s.threads s.mtx s.mtx s.ready s.ready i _
          hth (Or.inr hm) (Or.inr hm)
          ⟨by simp [RaceThread.holdsMutex, hm], by simp,
            fun _ => by simp [RaceThread.busy, hr]⟩
      case setReady =>
        have hm : s.mtx = some i := h1.mp (by simp [RaceThread.holdsMutex, hpc])
        simp only [Option.some.injEq] at hstep
        subst hstep
        refine ⟨fun _ => rfl, ?_⟩
        exact MonitorTest.monitor_inv_others s.threads s.mtx s.mtx s.ready true i _
          hth (Or.inr hm) (Or.inr hm)
          ⟨by simp [RaceThread.holdsMutex, hm], by simp,
            fun _ => by simp [RaceThread.busy]⟩
      case unlock =>
        have hm : s.mtx = some i := h1.mp (by simp [RaceThread.holdsMutex, hpc])
        have hr : s.ready = true := by
          rw [h3 hm]
          simp [RaceThread.busy, hpc]
        simp only [Option.some.injEq] at hstep
        subst hstep
        refine ⟨fun _ => hr, ?_⟩
        exact MonitorTest.monitor_inv_others s.threads s.mtx none s.ready s.ready i _
          hth (Or.inr hm) (Or.inl rfl)
          ⟨by simp [RaceThread.holdsMutex], by simp, fun h => by simp at h⟩
      case notify =>
        simp only [Option.some.injEq] at hstep
        subst hstep
        have hn : s.mtx ≠ some i := by
          intro h
          have := h1.mpr h
          simp [RaceThread.holdsMutex, hpc] at this
        refine ⟨hfree, ?_⟩
        intro k u hk
        simp only [MonitorTest.setThread] at hk
        rw [List.getElem?_set] at hk
        by_cases hik : i = k
        · subst hik
          simp only [if_true] at hk
          split at hk
          · simp only [Option.some.injEq] at hk
            subst hk
            exact ⟨by simp [RaceThread.holdsMutex, MonitorTest.setThread, hn], by simp,
              fun h => absurd h hn⟩
          · simp at hk
        · simp only [hik, if_false] at hk
          exact hth k u hk
      case done => simp at hstep
theorem MonitorTest.monitor_inv_reachable (numThreads : Nat) (raceLength : Int)
    (sched : List MonitorTestOp) (s : MonitorTest)
    (hrun : runSched (testWithMonitor raceLength) (MonitorTest.init numThreads) sched = some s) :
    s.Inv :=
  runSched_invariant (testWithMonitor raceLength) MonitorTest.Inv
    (fun s a s' h hs => MonitorTest.monitor_inv_step raceLength s a s' h hs) sched _ _
    (MonitorTest.monitor_inv_init numThreads) hrun

/-- C24: in `testWithMonitor`, for every number of threads, every
`raceLength` and every schedule, in every reachable state: `ready` is true
whenever the mutex is not held; a thread that evaluates the predicate of
`cv.wait` finds `ready` true and goes on to `ready = false` with the mutex
still held; no thread is blocked on the condition variable; a thread between
`ready = false` and `ready = true` (in particular at the write of its slot)
holds the mutex, so two threads are never there together. -/
theorem testWithMonitor_flag_redundant (numThreads : Nat) (raceLength : Int)
    (sched : List MonitorTestOp) (s : MonitorTest)
    (hrun : runSched (testWithMonitor raceLength) (MonitorTest.init numThreads) sched = some s) :
    (s.mtx = none → s.ready = true) ∧
    (∀ (i : Nat) (th : RaceThread), s.threads[i]? = some th → th.pc = MonitorPc.wait →
      s.ready = true ∧ s.mtx = some i ∧
      ∀ c : Char, testWithMonitor raceLength s (MonitorTestOp.run i c)
        = some (s.setThread i { th with pc := MonitorPc.clearReady })) ∧
    (∀ (i : Nat) (th : RaceThread), s.threads[i]? = some th → th.pc ≠ MonitorPc.blocked) ∧
    (∀ (i : Nat) (th : RaceThread), s.threads[i]? = some th →
      (th.pc = MonitorPc.clearReady ∨ th.pc = MonitorPc.write ∨ th.pc = MonitorPc.setReady) →
      s.mtx = some i) ∧
    (∀ (i k : Nat) (th1 th2 : RaceThread), s.threads[i]? = some th1 →
      s.threads[k]? = some th2 →
      (th1.pc = MonitorPc.clearReady ∨ th1.pc = MonitorPc.write ∨
        th1.pc = MonitorPc.setReady) →
      (th2.pc = MonitorPc.clearReady ∨ th2.pc = MonitorPc.write ∨
        th2.pc = MonitorPc.setReady) →
      i = k) := by
  obtain ⟨hfree, hth⟩ := MonitorTest.monitor_inv_reachable numThreads raceLength sched s hrun
  have hown : ∀ (i : Nat) (th : RaceThread), s.threads[i]? = some th →
      (th.pc = MonitorPc.clearReady ∨ th.pc = MonitorPc.write ∨ th.pc = MonitorPc.setReady) →
      s.mtx = some i := by
    intro i th hi hpc
    apply (hth i th hi).1.mp
    rcases hpc with h | h | h <;> simp [RaceThread.holdsMutex, h]
  refine ⟨hfree, ?_, fun i th hi => (hth i th hi).2.1, hown, ?_⟩
  · intro i th hi hpc
    obtain ⟨h1, _, h3⟩ := hth i th hi
    have hm : s.mtx = some i := h1.mp (by simp [RaceThread.holdsMutex, hpc])
    have hr : s.ready = true := by
      rw [h3 hm]
      simp [RaceThread.busy, hpc]
    refine ⟨hr, hm, ?_⟩
    intro c
    simp only [testWithMonitor, hi, hpc, hr, if_true]
  · intro i k th1 th2 hi hk h1 h2
    have a := hown i th1 hi h1
    have b := hown k th2 hk h2
    rw [a] at b
    exact Option.some.inj b

/-- C24 witness: two threads, `raceLength == 1`; thread 0 has taken the mutex,
passed the wait, cleared `ready` and is at the write of its slot. -/
theorem testWithMonitor_flag_redundant_witness :
    runSched (testWithMonitor 1) (MonitorTest.init 2)
      [MonitorTestOp.run 0 'a', MonitorTestOp.run 0 'a', MonitorTestOp.run 0 'a',
       MonitorTestOp.run 0 'a']
      = some { mtx := some 0, ready := false, results := [' ', ' '],
               threads := [{ j := 0, pc := MonitorPc.write },
                           { j := 0, pc := MonitorPc.loopTest }] } ∧
    ∀ (i : Nat) (th : RaceThread),
      ([{ j := 0, pc := MonitorPc.write }, { j := 0, pc := MonitorPc.loopTest }] :
        List RaceThread)[i]? = some th →
      (th.pc = MonitorPc.clearReady ∨ th.pc = MonitorPc.write ∨ th.pc = MonitorPc.setReady) →
      (some 0 : Option Nat) = some i :=
  ⟨by decide,
   (testWithMonitor_flag_redundant 2 1
      [MonitorTestOp.run 0 'a', MonitorTestOp.run 0 'a', MonitorTestOp.run 0 'a',
       MonitorTestOp.run 0 'a']
      { mtx := some 0, ready := false, results := [' ', ' '],
        threads := [{ j := 0, pc := MonitorPc.write },
                    { j := 0, pc := MonitorPc.loopTest }] }
      (by decide)).2.2.2.1⟩

/-! ## Strategy 3 on the shared table -/

theorem TimeoutPhilosopher.toPhilosopher_holdsLeft (p : TimeoutPhilosopher) :
    Philosopher.leftFirstHoldsLeft p.toPhilosopher = p.holdsLeft := by
  obtain ⟨id, l, r, m, g, a, pc⟩ := p
  cases pc <;> cases g <;> rfl

theorem TimeoutPhilosopher.toPhilosopher_holdsRight (p : TimeoutPhilosopher) :
    Philosopher.leftFirstHoldsRight p.toPhilosopher = p.holdsRight := by
  obtain ⟨id, l, r, m, g, a, pc⟩ := p
  cases pc <;> cases g <;> rfl

theorem timeout_update_pc (n : Nat) (F : List (Option Nat)) (P : List TimeoutPhilosopher)
    (i : Nat) (p q : TimeoutPhilosopher)
    (hinv : ForksInv n Philosopher.leftFirstHoldsLeft Philosopher.leftFirstHoldsRight F
      (P.map TimeoutPhilosopher.toPhilosopher))
    (hp : P[i]? = some p)
    (hid : q.id = p.id) (hleft : q.leftFork = p.leftFork) (hright : q.rightFork = p.rightFork)
    (hhl : q.holdsLeft = p.holdsLeft) (hhr : q.holdsRight = p.holdsRight) :
    ForksInv n Philosopher.leftFirstHoldsLeft Philosopher.leftFirstHoldsRight F
      ((P.set i q).map TimeoutPhilosopher.toPhilosopher) := by
  rw [List.map_set]
  exact ForksInv.update_pc n _ _ F _ i p.toPhilosopher q.toPhilosopher hinv
    (by rw [List.getElem?_map, hp]; rfl) hid hleft hright
    (by rw [TimeoutPhilosopher.toPhilosopher_holdsLeft,
      TimeoutPhilosopher.toPhilosopher_holdsLeft, hhl])
    (by rw [TimeoutPhilosopher.toPhilosopher_holdsRight,
      TimeoutPhilosopher.toPhilosopher_holdsRight, hhr])

theorem timeout_update_left (n : Nat) (hn : 2 ≤ n) (F : List (Option Nat))
    (P : List TimeoutPhilosopher) (i : Nat) (p q : TimeoutPhilosopher) (b : Option Nat)
    (hinv : ForksInv n Philosopher.leftFirstHoldsLeft Philosopher.leftFirstHoldsRight F
      (P.map TimeoutPhilosopher.toPhilosopher))
    (hp : P[i]? = some p)
    (hb : (b = some i ∧ F[i]? = some none) ∨ (b = none ∧ F[i]? = some (some i)))
    (hid : q.id = p.id) (hleft : q.leftFork = p.leftFork) (hright : q.rightFork = p.rightFork)
    (hhl : q.holdsLeft = true ↔ b = some i) (hhr : q.holdsRight = p.holdsRight) :
    ForksInv n Philosopher.leftFirstHoldsLeft Philosopher.leftFirstHoldsRight (F.set i b)
      ((P.set i q).map TimeoutPhilosopher.toPhilosopher) := by
  rw [List.map_set]
  exact ForksInv.update_left n hn _ _ F _ i p.toPhilosopher q.toPhilosopher b hinv
    (by rw [List.getElem?_map, hp]; rfl) hb hid hleft hright
    (by rw [TimeoutPhilosopher.toPhilosopher_holdsLeft]; exact hhl)
    (by rw [TimeoutPhilosopher.toPhilosopher_holdsRight,
      TimeoutPhilosopher.toPhilosopher_holdsRight, hhr])

theorem timeout_update_right (n : Nat) (hn : 2 ≤ n) (F : List (Option Nat))
    (P : List TimeoutPhilosopher) (i : Nat) (p q : TimeoutPhilosopher) (b : Option Nat)
    (hinv : ForksInv n Philosopher.leftFirstHoldsLeft Philosopher.leftFirstHoldsRight F
      (P.map TimeoutPhilosopher.toPhilosopher))
    (hp : P[i]? = some p)
    (hb : (b = some i ∧ F[(i + 1) % n]? = some none) ∨
      (b = none ∧ F[(i + 1) % n]? = some (some i)))
    (hid : q.id = p.id) (hleft : q.leftFork = p.leftFork) (hright : q.rightFork = p.rightFork)
    (hhl : q.holdsLeft = p.holdsLeft) (hhr : q.holdsRight = true ↔ b = some i) :
    ForksInv n Philosopher.leftFirstHoldsLeft Philosopher.leftFirstHoldsRight
      (F.set ((i + 1) % n) b) ((P.set i q).map TimeoutPhilosopher.toPhilosopher) := by
  rw [List.map_set]
  exact ForksInv.update_right n hn _ _ F _ i p.toPhilosopher q.toPhilosopher b hinv
    (by rw [List.getElem?_map, hp]; rfl) hb hid hleft hright
    (by rw [TimeoutPhilosopher.toPhilosopher_holdsLeft,
      TimeoutPhilosopher.toPhilosopher_holdsLeft, hhl])
    (by rw [TimeoutPhilosopher.toPhilosopher_holdsRight]; exact hhr)

/-- The part of the invariant of strategy 3 about `gotForks`, after thread `i`
has moved to `q`. -/
theorem timeout_flag_update (P : List TimeoutPhilosopher) (i : Nat) (q : TimeoutPhilosopher)
    (hold : ∀ (k : Nat) (u : TimeoutPhilosopher), P[k]? = some u →
      (u.pc = TimeoutPc.tryLeft ∨ u.pc = TimeoutPc.tryRight ∨ u.pc = TimeoutPc.releaseLeft) →
      u.gotForks = false)
    (hq : (q.pc = TimeoutPc.tryLeft ∨ q.pc = TimeoutPc.tryRight ∨
      q.pc = TimeoutPc.releaseLeft) → q.gotForks = false) :
    ∀ (k : Nat) (u : TimeoutPhilosopher), (P.set i q)[k]? = some u →
      (u.pc = TimeoutPc.tryLeft ∨ u.pc = TimeoutPc.tryRight ∨ u.pc = TimeoutPc.releaseLeft) →
      u.gotForks = false := by
  intro k u hk
  rw [List.getElem?_set] at hk
  by_cases hik : i = k
  · simp only [hik, if_true] at hk
    split at hk
    · simp only [Option.some.injEq] at hk
      subst hk
      exact hq
    · simp at hk
  · simp only [hik, if_false] at hk
    exact hold k u hk

theorem timeout_inv_init (n : Nat) : TimeoutInv n (TimeoutTable.init n) := by
  constructor
  · refine ⟨by simp [TimeoutTable.init], by simp [TimeoutTable.init], ?_, ?_⟩
    · intro i p hp
      simp only [TimeoutTable.init, List.map_map, List.getElem?_map, Option.map_eq_some']
        at hp
      obtain ⟨j, hj, rfl⟩ := hp
      obtain ⟨hlt, hv⟩ := List.getElem?_eq_some.mp hj
      simp only [List.length_range] at hlt
      simp only [List.getElem_range] at hv
      subst hv
      refine ⟨rfl, rfl, rfl, ?_, ?_⟩
      · simp [TimeoutTable.init, List.getElem?_replicate, Philosopher.leftFirstHoldsLeft,
          TimeoutPhilosopher.toPhilosopher, TimeoutPhilosopher.holdsLeft,
          TimeoutPhilosopher.holdsRight, TimeoutPhilosopher.betweenAttempts]
      · simp [TimeoutTable.init, List.getElem?_replicate, Philosopher.leftFirstHoldsRight,
          TimeoutPhilosopher.toPhilosopher, TimeoutPhilosopher.holdsLeft,
          TimeoutPhilosopher.holdsRight, TimeoutPhilosopher.betweenAttempts]
    · intro k h hk
      have := List.getElem?_mem hk
      simp [TimeoutTable.init] at this
  · intro i p hp hpc
    have := List.getElem?_mem hp
    simp only [TimeoutTable.init, List.mem_map] at this
    obtain ⟨j, _, rfl⟩ := this
    rfl
theorem timeout_inv_step (n : Nat) (hn : 2 ≤ n) (t : TimeoutTable) (a : TimeoutOp)
    (t' : TimeoutTable) (hinv : TimeoutInv n t) (hstep : t.step a = some t') :
    TimeoutInv n t' := by
  obtain ⟨hforks, hflag⟩ := hinv
  cases a with
  | stop =>
    simp only [TimeoutTable.step, Option.some.injEq] at hstep
    subst hstep
    exact ⟨hforks, hflag⟩
  | run i =>
    simp only [TimeoutTable.step] at hstep
    cases hi : t.philosophers[i]? with
    | none => simp [hi] at hstep
    | some p =>
      simp only [hi] at hstep
      have hmap : (t.philosophers.map TimeoutPhilosopher.toPhilosopher)[i]?
          = some p.toPhilosopher := by
        rw [List.getElem?_map, hi]
        rfl
      obtain ⟨h1, h2, h3, h4, h5⟩ := hforks.2.2.1 i p.toPhilosopher hmap
      rw [TimeoutPhilosopher.toPhilosopher_holdsLeft] at h4
      rw [TimeoutPhilosopher.toPhilosopher_holdsRight] at h5
      have h1 : p.leftFork = i := h1
      have h2 : p.rightFork = (i + 1) % n := h2
      have hg := hflag i p hi
      cases hpc : p.pc <;>
        simp only [TimeoutPhilosopher.dineWithTimeout, hpc, Option.some.injEq, reduceCtorEq]
          at hstep
      case loopHead =>
        subst hstep
        refine ⟨timeout_update_pc n t.forks t.philosophers i p _ hforks hi rfl rfl rfl ?_ ?_,
          timeout_flag_update t.philosophers i _ hflag ?_⟩
        · simp only [TimeoutPhilosopher.holdsLeft, TimeoutPhilosopher.betweenAttempts, hpc]
          split <;> simp
        · simp only [TimeoutPhilosopher.holdsRight, TimeoutPhilosopher.betweenAttempts, hpc]
          split <;> simp
        · simp only
          split <;> simp
      case think =>
        subst hstep
        refine ⟨timeout_update_pc n t.forks t.philosophers i p _ hforks hi rfl rfl rfl ?_ ?_,
          timeout_flag_update t.philosophers i _ hflag ?_⟩
        · simp [TimeoutPhilosopher.holdsLeft, TimeoutPhilosopher.betweenAttempts, hpc]
        · simp [TimeoutPhilosopher.holdsRight, TimeoutPhilosopher.betweenAttempts, hpc]
        · simp
      case attemptTest =>
        subst hstep
        refine ⟨timeout_update_pc n t.forks t.philosophers i p _ hforks hi rfl rfl rfl ?_ ?_,
          timeout_flag_update t.philosophers i _ hflag ?_⟩
        · cases hgf : p.gotForks
          · simp only [TimeoutPhilosopher.holdsLeft, TimeoutPhilosopher.betweenAttempts, hpc,
              hgf]
            split <;> simp
          · simp [TimeoutPhilosopher.holdsLeft, TimeoutPhilosopher.betweenAttempts, hpc, hgf]
        · cases hgf : p.gotForks
          · simp only [TimeoutPhilosopher.holdsRight, TimeoutPhilosopher.betweenAttempts, hpc,
              hgf]
            split <;> simp
          · simp [TimeoutPhilosopher.holdsRight, TimeoutPhilosopher.betweenAttempts, hpc, hgf]
        · cases hgf : p.gotForks <;> simp [hgf]
      case tryLeft =>
        rw [h1] at hstep
        simp only [TimeoutTable.lockFork] at hstep
        cases hf : t.forks[i]? with
        | none => simp [hf] at hstep
        | some o =>
          cases o with
          | some x => simp [hf] at hstep
          | none =>
            simp only [hf, Option.map_some', Option.some.injEq] at hstep
            subst hstep
            refine ⟨timeout_update_left n hn t.forks t.philosophers i p _ (some i) hforks hi
              (Or.inl ⟨rfl, hf⟩) rfl h1.symm rfl ?_ ?_,
              timeout_flag_update t.philosophers i _ hflag ?_⟩
            · simp [TimeoutPhilosopher.holdsLeft]
            · simp [TimeoutPhilosopher.holdsRight, TimeoutPhilosopher.betweenAttempts, hpc]
            · intro _
              exact hg (Or.inl hpc)
      case tryRight =>
        rw [h2] at hstep
        simp only [TimeoutTable.lockFork] at hstep
        cases hf : t.forks[(i + 1) % n]? with
        | none => simp [hf] at hstep
        | some o =>
          cases o with
          | some x => simp [hf] at hstep
          | none =>
            simp only [hf, Option.map_some', Option.some.injEq] at hstep
            subst hstep
            refine ⟨timeout_update_right n hn t.forks t.philosophers i p _ (some i) hforks hi
              (Or.inl ⟨rfl, hf⟩) rfl rfl h2.symm ?_ ?_,
              timeout_flag_update t.philosophers i _ hflag ?_⟩
            · simp [TimeoutPhilosopher.holdsLeft, TimeoutPhilosopher.betweenAttempts, hpc]
            · simp [TimeoutPhilosopher.holdsRight, TimeoutPhilosopher.betweenAttempts]
            · simp
      case releaseLeft =>
        rw [h1] at hstep
        subst hstep
        have hgf : p.gotForks = false := hg (Or.inr (Or.inr hpc))
        have hheld : t.forks[i]? = some (some i) := by
          rw [h4]
          simp [TimeoutPhilosopher.holdsLeft, hpc]
        refine ⟨timeout_update_left n hn t.forks t.philosophers i p _ none hforks hi
          (Or.inr ⟨rfl, hheld⟩) rfl h1.symm rfl ?_ ?_,
          timeout_flag_update t.philosophers i _ hflag ?_⟩
        · simp [TimeoutPhilosopher.holdsLeft, TimeoutPhilosopher.betweenAttempts, hgf]
        · simp [TimeoutPhilosopher.holdsRight, TimeoutPhilosopher.betweenAttempts, hpc, hgf]
        · simp
      case backoff =>
        subst hstep
        refine ⟨timeout_update_pc n t.forks t.philosophers i p _ hforks hi rfl rfl rfl ?_ ?_,
          timeout_flag_update t.philosophers i _ hflag ?_⟩
        · simp [TimeoutPhilosopher.holdsLeft, TimeoutPhilosopher.betweenAttempts, hpc]
        · simp [TimeoutPhilosopher.holdsRight, TimeoutPhilosopher.betweenAttempts, hpc]
        · simp
      case branch =>
        subst hstep
        refine ⟨timeout_update_pc n t.forks t.philosophers i p _ hforks hi rfl rfl rfl ?_ ?_,
          timeout_flag_update t.philosophers i _ hflag ?_⟩
        · cases hgf : p.gotForks <;>
            simp [TimeoutPhilosopher.holdsLeft, TimeoutPhilosopher.betweenAttempts, hpc, hgf]
        · cases hgf : p.gotForks <;>
            simp [TimeoutPhilosopher.holdsRight, TimeoutPhilosopher.betweenAttempts, hpc, hgf]
        · cases hgf : p.gotForks <;> simp [hgf]
      case eat =>
        subst hstep
        refine ⟨timeout_update_pc n t.forks t.philosophers i p _ hforks hi rfl rfl rfl ?_ ?_,
          timeout_flag_update t.philosophers i _ hflag ?_⟩
        · simp [TimeoutPhilosopher.holdsLeft, TimeoutPhilosopher.betweenAttempts, hpc]
        · simp [TimeoutPhilosopher.holdsRight, TimeoutPhilosopher.betweenAttempts, hpc]
        · simp
      case unlockRight =>
        rw [h2] at hstep
        subst hstep
        have hheld : t.forks[(i + 1) % n]? = some (some i) := by
          rw [h5]
          simp [TimeoutPhilosopher.holdsRight, hpc]
        refine ⟨timeout_update_right n hn t.forks t.philosophers i p _ none hforks hi
          (Or.inr ⟨rfl, hheld⟩) rfl rfl h2.symm ?_ ?_,
          timeout_flag_update t.philosophers i _ hflag ?_⟩
        · simp [TimeoutPhilosopher.holdsLeft, TimeoutPhilosopher.betweenAttempts, hpc]
        · simp [TimeoutPhilosopher.holdsRight, TimeoutPhilosopher.betweenAttempts]
        · simp
      case unlockLeft =>
        rw [h1] at hstep
        subst hstep
        have hheld : t.forks[i]? = some (some i) := by
          rw [h4]
          simp [TimeoutPhilosopher.holdsLeft, hpc]
        refine ⟨timeout_update_left n hn t.forks t.philosophers i p _ none hforks hi
          (Or.inr ⟨rfl, hheld⟩) rfl h1.symm rfl ?_ ?_,
          timeout_flag_update t.philosophers i _ hflag ?_⟩
        · simp [TimeoutPhilosopher.holdsLeft, TimeoutPhilosopher.betweenAttempts]
        · simp [TimeoutPhilosopher.holdsRight, TimeoutPhilosopher.betweenAttempts, hpc]
        · simp
      case hungry =>
        subst hstep
        refine ⟨timeout_update_pc n t.forks t.philosophers i p _ hforks hi rfl rfl rfl ?_ ?_,
          timeout_flag_update t.philosophers i _ hflag ?_⟩
        · simp [TimeoutPhilosopher.holdsLeft, TimeoutPhilosopher.betweenAttempts, hpc]
        · simp [TimeoutPhilosopher.holdsRight, TimeoutPhilosopher.betweenAttempts, hpc]
        · simp
  | expire i =>
    simp only [TimeoutTable.step] at hstep
    cases hi : t.philosophers[i]? with
    | none => simp [hi] at hstep
    | some p =>
      simp only [hi] at hstep
      have hg := hflag i p hi
      cases hpc : p.pc <;>
        simp only [TimeoutPhilosopher.tryLockExpires, hpc, Option.some.injEq, reduceCtorEq]
          at hstep
      case tryLeft =>
        subst hstep
        have hgf : p.gotForks = false := hg (Or.inl hpc)
        refine ⟨timeout_update_pc n t.forks t.philosophers i p _ hforks hi rfl rfl rfl ?_ ?_,
          timeout_flag_update t.philosophers i _ hflag ?_⟩
        · simp [TimeoutPhilosopher.holdsLeft, TimeoutPhilosopher.betweenAttempts, hpc, hgf]
        · simp [TimeoutPhilosopher.holdsRight, TimeoutPhilosopher.betweenAttempts, hpc, hgf]
        · simp
      case tryRight =>
        subst hstep
        have hgf : p.gotForks = false := hg (Or.inr (Or.inl hpc))
        refine ⟨timeout_update_pc n t.forks t.philosophers i p _ hforks hi rfl rfl rfl ?_ ?_,
          timeout_flag_update t.philosophers i _ hflag ?_⟩
        · simp [TimeoutPhilosopher.holdsLeft, TimeoutPhilosopher.betweenAttempts, hpc]
        · simp [TimeoutPhilosopher.holdsRight, TimeoutPhilosopher.betweenAttempts, hpc]
        · intro _
          exact hgf

theorem timeout_inv_reachable (n : Nat) (hn : 2 ≤ n) (sched : List TimeoutOp)
    (t : TimeoutTable)
    (hrun : runSched TimeoutTable.step (TimeoutTable.init n) sched = some t) :
    TimeoutInv n t :=
  runSched_invariant TimeoutTable.step (TimeoutInv n)
    (fun s a s' h hs => timeout_inv_step n hn s a s' h hs) sched _ _
    (timeout_inv_init n) hrun
/-! ## Neighbours never eat together -/

theorem ForksInv.neighbours (n : Nat) (hn : 2 ≤ n) (hl hr : Philosopher → Bool)
    (F : List (Option Nat)) (P : List Philosopher) (hinv : ForksInv n hl hr F P)
    (i : Nat) (p q : Philosopher) (hp : P[i]? = some p) (hq : P[(i + 1) % n]? = some q) :
    ¬ (hr p = true ∧ hl q = true) := by
  rintro ⟨h1, h2⟩
  have hi : i < n := by
    have := (List.getElem?_eq_some.mp hp).1
    have := hinv.2.1
    omega
  have ha := (hinv.2.2.1 i p hp).2.2.2.2.mpr h1
  have hb := (hinv.2.2.1 ((i + 1) % n) q hq).2.2.2.1.mpr h2
  rw [ha] at hb
  simp only [Option.some.injEq] at hb
  exact succ_mod_ne n i hn hi hb.symm

theorem countP_ring_five {α : Type} (f : α → Bool) (l : List α) (hlen : l.length = 5)
    (hadj : ∀ (i : Nat) (a b : α), l[i]? = some a → l[(i + 1) % 5]? = some b →
      ¬ (f a = true ∧ f b = true)) :
    l.countP f ≤ 2 := by
  match l, hlen with
  | [a, b, c, d, e], _ =>
    have h0 := hadj 0 a b rfl rfl
    have h1 := hadj 1 b c rfl rfl
    have h2 := hadj 2 c d rfl rfl
    have h3 := hadj 3 d e rfl rfl
    have h4 := hadj 4 e a rfl rfl
    revert h0 h1 h2 h3 h4
    simp only [List.countP_cons, List.countP_nil]
    cases f a <;> cases f b <;> cases f c <;> cases f d <;> cases f e <;> simp

theorem Table.neighboursApart_of_inv (hl hr : Philosopher → Bool) (t : Table)
    (heat : ∀ p : Philosopher, p.eating = true → hl p = true ∧ hr p = true)
    (hinv : ForksInv 5 hl hr t.forks t.philosophers) : t.NeighboursApart := by
  have hadj : ∀ (i : Nat) (p q : Philosopher), t.philosophers[i]? = some p →
      t.philosophers[(i + 1) % 5]? = some q → ¬ (p.eating = true ∧ q.eating = true) := by
    intro i p q hp hq h
    exact ForksInv.neighbours 5 (by decide) hl hr _ _ hinv i p q hp hq
      ⟨(heat p h.1).2, (heat q h.2).1⟩
  refine ⟨?_, hadj, countP_ring_five _ _ hinv.2.1 hadj⟩
  intro i p hp he
  obtain ⟨h1, h2, _, h4, h5⟩ := hinv.2.2.1 i p hp
  obtain ⟨ha, hb⟩ := heat p he
  rw [h1, h2]
  exact ⟨h4.mpr ha, h5.mpr hb⟩

theorem TimeoutTable.neighboursApart_of_timeoutInv (t : TimeoutTable) (hinv : TimeoutInv 5 t) :
    t.NeighboursApart := by
  obtain ⟨hforks, _⟩ := hinv
  have hmap : ∀ (i : Nat) (p : TimeoutPhilosopher), t.philosophers[i]? = some p →
      (t.philosophers.map TimeoutPhilosopher.toPhilosopher)[i]? = some p.toPhilosopher := by
    intro i p hp
    rw [List.getElem?_map, hp]
    rfl
  have heat : ∀ p : TimeoutPhilosopher, p.eating = true →
      p.holdsLeft = true ∧ p.holdsRight = true := by
    intro p he
    simp only [TimeoutPhilosopher.eating, decide_eq_true_eq] at he
    simp [TimeoutPhilosopher.holdsLeft, TimeoutPhilosopher.holdsRight, he]
  have hadj : ∀ (i : Nat) (p q : TimeoutPhilosopher), t.philosophers[i]? = some p →
      t.philosophers[(i + 1) % 5]? = some q → ¬ (p.eating = true ∧ q.eating = true) := by
    intro i p q hp hq h
    refine ForksInv.neighbours 5 (by decide) _ _ _ _ hforks i p.toPhilosopher q.toPhilosopher
      (hmap i p hp) (hmap _ q hq) ⟨?_, ?_⟩
    · rw [TimeoutPhilosopher.toPhilosopher_holdsRight]
      exact (heat p h.1).2
    · rw [TimeoutPhilosopher.toPhilosopher_holdsLeft]
      exact (heat q h.2).1
  have hlen : t.philosophers.length = 5 := by
    have := hforks.2.1
    simpa using this
  refine ⟨?_, hadj, countP_ring_five _ _ hlen hadj⟩
  intro i p hp he
  obtain ⟨h1, h2, _, h4, h5⟩ := hforks.2.2.1 i p.toPhilosopher (hmap i p hp)
  rw [TimeoutPhilosopher.toPhilosopher_holdsLeft] at h4
  rw [TimeoutPhilosopher.toPhilosopher_holdsRight] at h5
  have h1 : p.leftFork = i := h1
  have h2 : p.rightFork = (i + 1) % 5 := h2
  obtain ⟨ha, hb⟩ := heat p he
  rw [h1, h2]
  exact ⟨h4.mpr ha, h5.mpr hb⟩

theorem deadlockRisk_inv_reachable (sched : List TableOp) (t : Table)
    (hrun : runSched (Table.step Philosopher.dineWithDeadlockRisk)
      (Table.init NUM_PHILOSOPHERS) sched = some t) :
    ForksInv 5 Philosopher.leftFirstHoldsLeft Philosopher.leftFirstHoldsRight
      t.forks t.philosophers :=
  runSched_invariant (Table.step Philosopher.dineWithDeadlockRisk)
    (fun t => ForksInv 5 Philosopher.leftFirstHoldsLeft Philosopher.leftFirstHoldsRight
      t.forks t.philosophers)
    (fun s a s' h hs => deadlockRisk_inv_step 5 (by decide) s a s' h hs) sched _ _
    (forksInv_init 5 _ _ (by
      intro p hp
      simp [Philosopher.leftFirstHoldsLeft, Philosopher.leftFirstHoldsRight, hp])) hrun

theorem stdLock_inv_reachable (sched : List TableOp) (t : Table)
    (hrun : runSched (Table.step Philosopher.dineWithStdLock)
      (Table.init NUM_PHILOSOPHERS) sched = some t) :
    ForksInv 5 Philosopher.stdLockHoldsLeft Philosopher.stdLockHoldsRight
      t.forks t.philosophers :=
  runSched_invariant (Table.step Philosopher.dineWithStdLock)
    (fun t => ForksInv 5 Philosopher.stdLockHoldsLeft Philosopher.stdLockHoldsRight
      t.forks t.philosophers)
    (fun s a s' h hs => stdLock_inv_step 5 (by decide) s a s' h hs) sched _ _
    (forksInv_init 5 _ _ (by
      intro p hp
      simp [Philosopher.stdLockHoldsLeft, Philosopher.stdLockHoldsRight, hp])) hrun

theorem ordering_inv_reachable (sched : List TableOp) (t : Table)
    (hrun : runSched (Table.step Philosopher.dineWithOrdering)
      (Table.init NUM_PHILOSOPHERS) sched = some t) :
    ForksInv 5 Philosopher.orderingHoldsLeft Philosopher.orderingHoldsRight
      t.forks t.philosophers :=
  runSched_invariant (Table.step Philosopher.dineWithOrdering)
    (fun t => ForksInv 5 Philosopher.orderingHoldsLeft Philosopher.orderingHoldsRight
      t.forks t.philosophers)
    (fun s a s' h hs => ordering_inv_step s a s' h hs) sched _ _ ordering_init_inv hrun

theorem conditionVariable_forks_reachable (maxEating : Int) (sched : List TableOp) (t : Table)
    (hrun : runSched (Table.step (Philosopher.dineWithConditionVariable maxEating))
      (Table.init NUM_PHILOSOPHERS) sched = some t) :
    ForksInv 5 Philosopher.stdLockHoldsLeft Philosopher.stdLockHoldsRight
      t.forks t.philosophers :=
  runSched_invariant (Table.step (Philosopher.dineWithConditionVariable maxEating))
    (fun t => ForksInv 5 Philosopher.stdLockHoldsLeft Philosopher.stdLockHoldsRight
      t.forks t.philosophers)
    (fun s a s' h hs => conditionVariable_forks_step maxEating 5 (by decide) s a s' h hs)
    sched _ _
    (forksInv_init 5 _ _ (by
      intro p hp
      simp [Philosopher.stdLockHoldsLeft, Philosopher.stdLockHoldsRight, hp])) hrun

/-- C21: with the five philosophers of `runPhilosophersTest`, under each of
the six strategies (strategy 3 with `try_lock_for` acquiring a free fork or
timing out, strategy 6 with any `maxEating`), in every reachable state a
philosopher inside `eat()` has locked both its left and its right fork, two
philosophers next to each other on the ring are not both inside `eat()`, and
at most 2 philosophers are inside `eat()`.  A fork is a mutex with one owner:
a `lock()` or an acquiring `try_lock_for` on a fork that is locked does not
complete. -/
theorem neighbours_never_eat_together :
    (∀ (sched : List TableOp) (t : Table),
      runSched (Table.step Philosopher.dineWithDeadlockRisk) (Table.init NUM_PHILOSOPHERS)
        sched = some t → t.NeighboursApart) ∧
    (∀ (sched : List TableOp) (t : Table),
      runSched (Table.step Philosopher.dineWithStdLock) (Table.init NUM_PHILOSOPHERS)
        sched = some t → t.NeighboursApart) ∧
    (∀ (sched : List TimeoutOp) (t : TimeoutTable),
      runSched TimeoutTable.step (TimeoutTable.init NUM_PHILOSOPHERS) sched = some t →
        t.NeighboursApart) ∧
    (∀ (sched : List TableOp) (t : Table),
      runSched (Table.step Philosopher.dineWithSemaphore) (Table.init NUM_PHILOSOPHERS)
        sched = some t → t.NeighboursApart) ∧
    (∀ (sched : List TableOp) (t : Table),
      runSched (Table.step Philosopher.dineWithOrdering) (Table.init NUM_PHILOSOPHERS)
        sched = some t → t.NeighboursApart) ∧
    (∀ (maxEating : Int) (sched : List TableOp) (t : Table),
      runSched (Table.step (Philosopher.dineWithConditionVariable maxEating))
        (Table.init NUM_PHILOSOPHERS) sched = some t → t.NeighboursApart) ∧
    (∀ (t : Table) (k h i : Nat), t.forks[k]? = some (some h) →
      t.lockFork k i = none ∧ ∀ r : Nat, t.lockBoth k r i = none ∧ t.lockBoth r k i = none) ∧
    (∀ (t : TimeoutTable) (k h i : Nat), t.forks[k]? = some (some h) →
      t.lockFork k i = none) := by
  refine ⟨?_, ?_, ?_, ?_, ?_, ?_, ?_, ?_⟩
  · intro sched t hrun
    refine Table.neighboursApart_of_inv _ _ t ?_ (deadlockRisk_inv_reachable sched t hrun)
    intro p he
    simp only [Philosopher.eating, decide_eq_true_eq] at he
    simp [Philosopher.leftFirstHoldsLeft, Philosopher.leftFirstHoldsRight, he]
  · intro sched t hrun
    refine Table.neighboursApart_of_inv _ _ t ?_ (stdLock_inv_reachable sched t hrun)
    intro p he
    simp only [Philosopher.eating, decide_eq_true_eq] at he
    simp [Philosopher.stdLockHoldsLeft, Philosopher.stdLockHoldsRight, he]
  · intro sched t hrun
    exact TimeoutTable.neighboursApart_of_timeoutInv t
      (timeout_inv_reachable 5 (by decide) sched t hrun)
  · intro sched t hrun
    refine Table.neighboursApart_of_inv _ _ t ?_
      (semaphore_inv_reachable 5 (by decide) sched t hrun).1
    intro p he
    simp only [Philosopher.eating, decide_eq_true_eq] at he
    simp [Philosopher.leftFirstHoldsLeft, Philosopher.leftFirstHoldsRight, he]
  · intro sched t hrun
    refine Table.neighboursApart_of_inv _ _ t ?_ (ordering_inv_reachable sched t hrun)
    intro p he
    simp only [Philosopher.eating, decide_eq_true_eq] at he
    simp [Philosopher.orderingHoldsLeft, Philosopher.orderingHoldsRight, he]
  · intro maxEating sched t hrun
    refine Table.neighboursApart_of_inv _ _ t ?_
      (conditionVariable_forks_reachable maxEating sched t hrun)
    intro p he
    simp only [Philosopher.eating, decide_eq_true_eq] at he
    simp [Philosopher.stdLockHoldsLeft, Philosopher.stdLockHoldsRight, he]
  · intro t k h i hk
    refine ⟨by simp [Table.lockFork, hk], fun r => ⟨?_, ?_⟩⟩
    · simp [Table.lockBoth, hk]
    · simp only [Table.lockBoth, hk]
      split <;> simp_all
  · intro t k h i hk
    simp [TimeoutTable.lockFork, hk]
/-- Strategy 3 can reach the bound: after philosophers 0 and 2 have each gone
through one attempt that acquires both forks, the two are inside `eat()`
together, and after a timeout on the right fork philosopher 0 has released
its left fork. -/
theorem timeout_two_can_eat :
    (runSched TimeoutTable.step (TimeoutTable.init NUM_PHILOSOPHERS)
      (List.replicate 8 (TimeoutOp.run 0) ++ List.replicate 8 (TimeoutOp.run 2))).map
      (fun t => (t.forks, t.philosophers.countP TimeoutPhilosopher.eating))
      = some ([some 0, some 0, some 2, some 2, none], 2) ∧
    (runSched TimeoutTable.step (TimeoutTable.init NUM_PHILOSOPHERS)
      [TimeoutOp.run 0, TimeoutOp.run 0, TimeoutOp.run 0, TimeoutOp.run 0,
       TimeoutOp.expire 0, TimeoutOp.run 0, TimeoutOp.run 0]).map
      (fun t => (t.forks, t.philosophers[0]?.map fun p => (p.gotForks, p.attempts, p.pc)))
      = some ([none, none, none, none, none], some (false, 1, TimeoutPc.attemptTest)) := by
  decide

end LR34
